import Mathlib

/-
Verification of the Groebner-basis core of the GF2 library
(Boolean polynomial ring R = F2[x0..x_{n-1}] / (x_i^2 - x_i)).

Shallow embedding conventions, matching the C++ sources:

* A monomial (class MM in mm.h, identically Monom in monom.h) is an
  exponent bit vector b0 b1 ... b_{n-1} packed into machine words,
  bit i set iff the variable x_i occurs.  We embed it as a Nat bitmask
  (bit i of the Nat = b_i); the all-zero mask is the constant monomial 1.
  The word-array operations of mm.h are word-wise AND / OR / AND-NOT,
  which on the Nat bitmask are land / lor / ldiff.

* Word::Compare (word.h) compares the word arrays from the most
  significant word down, i.e. it compares the exponent vectors as
  little-endian integers.  On the Nat bitmask this is exactly the
  order of Nat.  OrderLex::Compare (order.h) delegates to it.

* A polynomial (class MP in mp.h, identically MPoly in mpoly.h) is a
  list of distinct monomials strictly decreasing under the order; we
  embed it as a List Nat and state the invariant separately (MP.Desc).
  All polynomial-level algorithms below are transcribed from mp.h /
  mpoly.h; the monomial order is instantiated with the library default
  OrderLex (lex), under which Compare is the Nat order.

* An ideal (ideal.h) is a list of polynomials, none zero, strictly
  increasing under the polynomial comparison MP.Compare.
-/

/- ===================== Monomials: mm.h / monom.h ===================== -/

/-- Word-wise a AND NOT b on Nat bitmasks.  Written as XOR with the
common part (same bits as Nat.ldiff) so that the kernel can evaluate it
on literals. -/
def andNot (a b : Nat) : Nat := a ^^^ (a &&& b)

/-- MM::operator*= - the product of monomials is the OR of exponents. -/
def MM.mul (a b : Nat) : Nat := a ||| b

/-- MM::IsDivide - the monomial a divides the monomial b
(for every word position, words(a) AND NOT words(b) = 0). -/
def MM.IsDivide (a b : Nat) : Bool := andNot a b == 0

/-- MM::IsDivisibleBy - the monomial a is divisible by b. -/
def MM.IsDivisibleBy (a b : Nat) : Bool := andNot b a == 0

/-- MM::operator/= - exact quotient of monomials, a AND NOT b per word;
the source asserts IsDivisibleBy(b) before dividing. -/
def MM.div (a b : Nat) : Nat := andNot a b

/-- MM::LCM - least common multiple, the OR of exponents. -/
def MM.LCM (a b : Nat) : Nat := a ||| b

/-- MM::GCD - greatest common divisor, the AND of exponents. -/
def MM.GCD (a b : Nat) : Nat := a &&& b

/-- MM::IsRelPrime - no common variable (word-wise AND is zero). -/
def MM.IsRelPrime (a b : Nat) : Bool := a &&& b == 0

/-- Word::Weight helper: population count of the low bits, driven by a
structural counter so that the kernel can evaluate it (the source loops
over the fixed machine-word array). -/
def MM.degAux : Nat → Nat → Nat
  | 0, _ => 0
  | fuel + 1, a => if a = 0 then 0 else a % 2 + MM.degAux fuel (a / 2)

/-- MM::Deg / Word::Weight - the degree of a monomial is the number of
set bits of the exponent word. -/
def MM.Deg (a : Nat) : Nat := MM.degAux a a

theorem MM.degAux_congr :
    ∀ {f1 f2 a : Nat}, a ≤ f1 → a ≤ f2 → MM.degAux f1 a = MM.degAux f2 a := by
  intro f1
  induction f1 with
  | zero =>
    intro f2 a h1 _
    have ha : a = 0 := Nat.le_zero.mp h1
    subst ha
    cases f2 <;> rfl
  | succ n ih =>
    intro f2 a h1 h2
    cases f2 with
    | zero =>
      have ha : a = 0 := Nat.le_zero.mp h2
      subst ha
      rfl
    | succ m =>
      by_cases ha : a = 0
      · subst ha; rfl
      · have hdiv := Nat.div_lt_self (Nat.pos_of_ne_zero ha) one_lt_two
        simp only [MM.degAux, if_neg ha]
        congr 1
        exact ih (by omega) (by omega)

/-- Unfolding equation for MM.Deg. -/
theorem MM.Deg_eq (a : Nat) :
    MM.Deg a = if a = 0 then 0 else a % 2 + MM.Deg (a / 2) := by
  by_cases ha : a = 0
  · subst ha; rfl
  · cases a with
    | zero => exact absurd rfl ha
    | succ n =>
      unfold MM.Deg
      have hdiv := Nat.div_lt_self (Nat.succ_pos n) one_lt_two
      simp only [MM.degAux, if_neg ha]
      congr 1
      exact MM.degAux_congr (by omega) (Nat.le_refl _)

/-- Word::Compare - lexicographic comparison of exponent words with
index 0 least significant: the word arrays are compared from the most
significant machine word down, which compares the exponent vectors as
little-endian integers, i.e. as the Nat bitmasks. -/
def Monom.Compare (a b : Nat) : Int :=
  if a < b then -1 else if b < a then 1 else 0

/-- OrderLex::Compare - delegates to the word comparison. -/
def OrderLex.Compare (a b : Nat) : Int := Monom.Compare a b

/- ===================== bit-level toolkit ===================== -/

theorem testBit_andNot (a b i : Nat) :
    (andNot a b).testBit i = (a.testBit i && !b.testBit i) := by
  unfold andNot
  simp only [Nat.testBit_xor, Nat.testBit_land]
  cases a.testBit i <;> cases b.testBit i <;> rfl

theorem andNot_eq_zero_iff {a b : Nat} : andNot a b = 0 ↔ a ||| b = b := by
  constructor
  · intro h
    apply Nat.eq_of_testBit_eq
    intro i
    have hi := congrArg (fun x => Nat.testBit x i) h
    simp only [testBit_andNot, Nat.zero_testBit] at hi
    simp only [Nat.testBit_lor]
    cases hb : Nat.testBit b i <;> cases ha : Nat.testBit a i <;>
      simp_all
  · intro h
    apply Nat.eq_of_testBit_eq
    intro i
    have hi := congrArg (fun x => Nat.testBit x i) h
    simp only [Nat.testBit_lor] at hi
    simp only [testBit_andNot, Nat.zero_testBit]
    cases hb : Nat.testBit b i <;> cases ha : Nat.testBit a i <;>
      simp_all

theorem isDivide_iff {a b : Nat} : MM.IsDivide a b = true ↔ a ||| b = b := by
  unfold MM.IsDivide
  rw [beq_iff_eq]
  exact andNot_eq_zero_iff

theorem le_lor_left_self (a b : Nat) : a ≤ a ||| b :=
  Nat.le_of_testBit fun i h => by simp [Nat.testBit_lor, h]

theorem isDivide_le {a b : Nat} (h : MM.IsDivide a b = true) : a ≤ b := by
  rw [isDivide_iff] at h
  calc a ≤ a ||| b := le_lor_left_self a b
    _ = b := h

/-- Multiplying by a monomial c with no variable in common with L is
strictly monotone at L: if m is below L then m*c is below L*c.
This is the key order fact behind the termination and leading-monomial
arguments of the division loops of mp.h. -/
theorem lor_lt_lor_of_lt {m L t : Nat} (h : m < L) (hd : t &&& L = 0) :
    m ||| t < L ||| t := by
  have hne : m ^^^ L ≠ 0 := by
    intro h0
    exact absurd (Nat.xor_eq_zero.mp h0) (Nat.ne_of_lt h)
  obtain ⟨i, hi, hup⟩ := Nat.exists_most_significant_bit hne
  have hagree : ∀ j, i < j → Nat.testBit m j = Nat.testBit L j := by
    intro j hj
    have := hup j hj
    simp only [Nat.testBit_xor, bne_eq_false_iff_eq] at this
    exact this
  have hdiff : Nat.testBit m i ≠ Nat.testBit L i := by
    simp only [Nat.testBit_xor] at hi
    exact bne_iff_ne.mp hi
  have hLi : Nat.testBit L i = true := by
    cases hL : Nat.testBit L i
    · exfalso
      have hmi : Nat.testBit m i = true := by
        cases hm : Nat.testBit m i
        · exact absurd (hm.trans hL.symm) hdiff
        · rfl
      have : L < m := Nat.lt_of_testBit i hL hmi fun j hj => (hagree j hj).symm
      exact absurd h (Nat.lt_asymm this)
    · rfl
  have hmi : Nat.testBit m i = false := by
    cases hm : Nat.testBit m i
    · rfl
    · exact absurd (hm.trans hLi.symm) hdiff
  have hti : Nat.testBit t i = false := by
    have := congrArg (fun x => Nat.testBit x i) hd
    simp only [Nat.testBit_land, Nat.zero_testBit, Bool.and_eq_false_iff] at this
    rcases this with h1 | h1
    · exact h1
    · exact absurd h1 (by simp [hLi])
  refine Nat.lt_of_testBit i ?_ ?_ ?_
  · simp [Nat.testBit_lor, hmi, hti]
  · simp [Nat.testBit_lor, hLi]
  · intro j hj
    simp [Nat.testBit_lor, hagree j hj]

theorem compare_le_iff {a b : Nat} : OrderLex.Compare a b ≤ 0 ↔ a ≤ b := by
  unfold OrderLex.Compare Monom.Compare
  rcases Nat.lt_trichotomy a b with h | h | h
  · simp [h, Nat.le_of_lt h]
  · simp [h]
  · simp [Nat.lt_asymm h, h, Nat.not_le.mpr h]

theorem compare_eq_zero_iff {a b : Nat} : OrderLex.Compare a b = 0 ↔ a = b := by
  unfold OrderLex.Compare Monom.Compare
  rcases Nat.lt_trichotomy a b with h | h | h
  · simp [h, Nat.ne_of_lt h]
  · simp [h]
  · simp [Nat.lt_asymm h, h, Ne.symm (Nat.ne_of_lt h)]

/- ===================== claims C6 and C7 ===================== -/

/-- C6 counterexample: with m = n = x0 the product m*n is x0 (exponents
are OR-ed, the square collapses), and (m*n)/m is the constant monomial 1,
not n. -/
theorem C6_quot_mul_counterexample :
    MM.IsDivisibleBy (MM.mul 1 1) 1 = true ∧ ¬ MM.div (MM.mul 1 1) 1 = 1 := by
  decide

/-- C6 (amended): for all monomials m and n, m divides m*n
unconditionally; and the exact quotient (m*n)/m recovers n provided m
and n are relatively prime (in the Boolean monoid the product collapses
the common variables, so the quotient drops them from n). -/
theorem C6_mul_div (m n : Nat) :
    MM.IsDivide m (MM.mul m n) = true ∧
      (MM.IsRelPrime m n = true → MM.div (MM.mul m n) m = n) := by
  constructor
  · rw [isDivide_iff]
    unfold MM.mul
    rw [← Nat.lor_assoc]
    apply Nat.eq_of_testBit_eq
    intro i
    simp only [Nat.testBit_lor]
    cases m.testBit i <;> cases n.testBit i <;> rfl
  · intro h
    unfold MM.IsRelPrime at h
    rw [beq_iff_eq] at h
    unfold MM.div MM.mul
    apply Nat.eq_of_testBit_eq
    intro i
    have hi := congrArg (fun x => Nat.testBit x i) h
    simp only [Nat.testBit_land, Nat.zero_testBit, Bool.and_eq_false_iff] at hi
    simp only [testBit_andNot, Nat.testBit_lor]
    rcases hi with h1 | h1 <;> simp [h1]

theorem C6_mul_div_witness :
    MM.IsRelPrime 1 2 = true ∧
      MM.IsDivide 1 (MM.mul 1 2) = true ∧ MM.div (MM.mul 1 2) 1 = 2 :=
  ⟨by decide, (C6_mul_div 1 2).1, (C6_mul_div 1 2).2 (by decide)⟩

/-- C7 counterexample: under lex, x0 is below x1, yet multiplying both by
c = x1 gives x0*x1 above x1*x1 = x1, so the compatibility
compare(a,b) <= 0 -> compare(a*c,b*c) <= 0 fails on the code. -/
theorem C7_compat_counterexample :
    OrderLex.Compare 1 2 ≤ 0 ∧
      ¬ OrderLex.Compare (MM.mul 1 2) (MM.mul 2 2) ≤ 0 := by
  decide

/-- C7 (amended): OrderLex::Compare is a total order on monomials
(reflexivity, antisymmetry, transitivity, totality), and it is compatible
with the OR-product provided the multiplier c has no variable in common
with the larger operand b: compare(a,b) <= 0 implies
compare(a*c, b*c) <= 0. -/
theorem C7_lex_order :
    (∀ a : Nat, OrderLex.Compare a a = 0) ∧
    (∀ a b : Nat, OrderLex.Compare a b = 0 → a = b) ∧
    (∀ a b c : Nat,
      OrderLex.Compare a b ≤ 0 → OrderLex.Compare b c ≤ 0 →
        OrderLex.Compare a c ≤ 0) ∧
    (∀ a b : Nat, OrderLex.Compare a b ≤ 0 ∨ OrderLex.Compare b a ≤ 0) ∧
    (∀ a b c : Nat,
      OrderLex.Compare a b ≤ 0 → MM.IsRelPrime c b = true →
        OrderLex.Compare (MM.mul a c) (MM.mul b c) ≤ 0) := by
  refine ⟨?_, ?_, ?_, ?_, ?_⟩
  · intro a
    exact compare_eq_zero_iff.mpr rfl
  · intro a b h
    exact compare_eq_zero_iff.mp h
  · intro a b c h1 h2
    exact compare_le_iff.mpr (le_trans (compare_le_iff.mp h1) (compare_le_iff.mp h2))
  · intro a b
    rcases Nat.le_total a b with h | h
    · exact Or.inl (compare_le_iff.mpr h)
    · exact Or.inr (compare_le_iff.mpr h)
  · intro a b c hab hcop
    unfold MM.IsRelPrime at hcop
    rw [beq_iff_eq] at hcop
    rw [compare_le_iff] at hab ⊢
    unfold MM.mul
    rcases Nat.lt_or_ge a b with h | h
    · exact Nat.le_of_lt (lor_lt_lor_of_lt h hcop)
    · have : a = b := Nat.le_antisymm hab h
      subst this
      exact Nat.le_refl _

theorem C7_lex_order_witness :
    OrderLex.Compare 1 4 ≤ 0 ∧ MM.IsRelPrime 2 4 = true ∧
      OrderLex.Compare (MM.mul 1 2) (MM.mul 4 2) ≤ 0 :=
  ⟨by decide, by decide, C7_lex_order.2.2.2.2 1 4 2 (by decide) (by decide)⟩


/- ===================== Polynomials: mp.h / mpoly.h ===================== -/

/-- MP::IsNormalized - the monomial list of a polynomial is strictly
decreasing under the order (hence duplicate-free).  Stated through
Pairwise, which for the transitive relation GT coincides with the
adjacent-pairs check of the source. -/
def MP.Desc (l : List Nat) : Prop := List.Pairwise (fun a b => a > b) l

instance MP.Desc.decidable (l : List Nat) : Decidable (MP.Desc l) := by
  unfold MP.Desc
  infer_instance

/-- Inner loop of MP::SymDiff(poly): x :: xs is the current left list,
f is the merge continuation for the left tail xs. -/
def MP.symDiffGo (x : Nat) (xs : List Nat) (f : List Nat → List Nat) :
    List Nat → List Nat
  | [] => x :: xs
  | y :: ys =>
    if x > y then x :: f (y :: ys)
    else if y > x then y :: MP.symDiffGo x xs f ys
    else f ys

/-- MP::SymDiff(poly) - merge of two monomial lists sorted in decreasing
order, cancelling equal monomials (addition over F2).  Transcribed from
the iterator loop of mp.h; SymDiffSplice produces the same list (moving
rather than copying the nodes). -/
def MP.SymDiff : List Nat → List Nat → List Nat
  | [], r => r
  | x :: xs, r => MP.symDiffGo x xs (MP.SymDiff xs) r

/-- Step equation of the merge (definitional). -/
theorem MP.SymDiff_cons_cons (x y : Nat) (xs ys : List Nat) :
    MP.SymDiff (x :: xs) (y :: ys) =
      if x > y then x :: MP.SymDiff xs (y :: ys)
      else if y > x then y :: MP.SymDiff (x :: xs) ys
      else MP.SymDiff xs ys := rfl

theorem MP.SymDiff_nil_right (l : List Nat) : MP.SymDiff l [] = l := by
  cases l <;> rfl

theorem MP.SymDiff_nil_left (l : List Nat) : MP.SymDiff [] l = l := rfl

/-- MP::Normalize, second phase - the sorted list is scanned once and
each adjacent pair of equal monomials is erased. -/
def MP.cancelPairs : List Nat → List Nat
  | x :: y :: rest =>
    if x = y then MP.cancelPairs rest else x :: MP.cancelPairs (y :: rest)
  | l => l

/-- MP::Normalize - sort the monomials in decreasing order, then remove
the pairs of equal monomials. -/
def MP.Normalize (l : List Nat) : List Nat :=
  MP.cancelPairs (List.insertionSort (fun a b => a ≥ b) l)

/-- MP::operator*=(monom) - every monomial is multiplied by m, then the
list is renormalized (products may collide and cancel). -/
def MP.mulM (l : List Nat) (m : Nat) : List Nat :=
  MP.Normalize (l.map (fun x => MM.mul x m))

/-- MP::Union(monom) - insert the monomial if it is absent. -/
def MP.UnionM : List Nat → Nat → List Nat
  | [], m => [m]
  | x :: xs, m =>
    if x > m then x :: MP.UnionM xs m
    else if x = m then x :: xs
    else m :: x :: xs

/-- MP::IsContain - membership probe (Find against the sorted list). -/
def MP.IsContain (l : List Nat) (m : Nat) : Bool := l.contains m

/-- Binary encoding of a monomial list: the number whose bit m is the
coefficient of monomial m.  Termination measure of the division loops. -/
def MP.encP (l : List Nat) : Nat := (l.map (fun x => 2 ^ x)).sum

/- ======== list toolkit: SymDiff / Normalize / mulM lemmas ======== -/

theorem MP.countP_SymDiff_parity (p : Nat → Bool) :
    ∀ a b : List Nat,
      (MP.SymDiff a b).countP p % 2 = (a.countP p + b.countP p) % 2 := by
  intro a
  induction a with
  | nil => intro b; simp [MP.SymDiff_nil_left]
  | cons x xs ih =>
    intro b
    induction b with
    | nil => simp [MP.SymDiff_nil_right]
    | cons y ys ihb =>
      rw [MP.SymDiff_cons_cons]
      by_cases hxy : x > y
      · rw [if_pos hxy]
        simp only [List.countP_cons]
        have h1 := ih (y :: ys)
        simp only [List.countP_cons] at h1
        omega
      · by_cases hyx : y > x
        · rw [if_neg hxy, if_pos hyx]
          simp only [List.countP_cons]
          have h1 := ihb
          simp only [List.countP_cons] at h1
          omega
        · have hxe : x = y := by omega
          rw [if_neg hxy, if_neg hyx]
          subst hxe
          simp only [List.countP_cons]
          have h1 := ih ys
          omega

theorem MP.count_SymDiff_parity (x : Nat) (a b : List Nat) :
    (MP.SymDiff a b).count x % 2 = (a.count x + b.count x) % 2 := by
  simp only [List.count]
  exact MP.countP_SymDiff_parity (· == x) a b

theorem MP.SymDiff_subset {z : Nat} :
    ∀ {a b : List Nat}, z ∈ MP.SymDiff a b → z ∈ a ∨ z ∈ b := by
  intro a
  induction a with
  | nil => intro b h; exact Or.inr (by simpa [MP.SymDiff_nil_left] using h)
  | cons x xs ih =>
    intro b
    induction b with
    | nil => intro h; exact Or.inl (by simpa [MP.SymDiff_nil_right] using h)
    | cons y ys ihb =>
      intro h
      rw [MP.SymDiff_cons_cons] at h
      by_cases hxy : x > y
      · rw [if_pos hxy] at h
        rcases List.mem_cons.mp h with h | h
        · exact Or.inl (List.mem_cons.mpr (Or.inl h))
        · rcases ih h with h1 | h1
          · exact Or.inl (List.mem_cons.mpr (Or.inr h1))
          · exact Or.inr h1
      · by_cases hyx : y > x
        · rw [if_neg hxy, if_pos hyx] at h
          rcases List.mem_cons.mp h with h | h
          · exact Or.inr (List.mem_cons.mpr (Or.inl h))
          · rcases ihb h with h1 | h1
            · exact Or.inl h1
            · exact Or.inr (List.mem_cons.mpr (Or.inr h1))
        · rw [if_neg hxy, if_neg hyx] at h
          rcases ih h with h1 | h1
          · exact Or.inl (List.mem_cons.mpr (Or.inr h1))
          · exact Or.inr (List.mem_cons.mpr (Or.inr h1))

theorem MP.Desc_SymDiff : ∀ {a b : List Nat},
    MP.Desc a → MP.Desc b → MP.Desc (MP.SymDiff a b) := by
  intro a
  induction a with
  | nil => intro b _ hb; simpa [MP.SymDiff_nil_left] using hb
  | cons x xs ih =>
    intro b
    induction b with
    | nil => intro ha _; simpa [MP.SymDiff_nil_right] using ha
    | cons y ys ihb =>
      intro ha hb
      rcases List.pairwise_cons.mp ha with ⟨hax, haxs⟩
      rcases List.pairwise_cons.mp hb with ⟨hby, hbys⟩
      rw [MP.SymDiff_cons_cons]
      by_cases hxy : x > y
      · rw [if_pos hxy]
        refine List.pairwise_cons.mpr ⟨?_, ih haxs hb⟩
        intro z hz
        rcases MP.SymDiff_subset hz with h1 | h1
        · exact hax z h1
        · rcases List.mem_cons.mp h1 with h1 | h1
          · omega
          · have := hby z h1; omega
      · by_cases hyx : y > x
        · rw [if_neg hxy, if_pos hyx]
          refine List.pairwise_cons.mpr ⟨?_, ihb ha hbys⟩
          intro z hz
          rcases MP.SymDiff_subset hz with h1 | h1
          · rcases List.mem_cons.mp h1 with h1 | h1
            · omega
            · have := hax z h1; omega
          · exact hby z h1
        · rw [if_neg hxy, if_neg hyx]
          exact ih haxs hbys

theorem MP.cancelPairs_subset {z : Nat} :
    ∀ {l : List Nat}, z ∈ MP.cancelPairs l → z ∈ l := by
  intro l
  induction l using MP.cancelPairs.induct with
  | case1 y rest ih =>
    intro h
    rw [MP.cancelPairs, if_pos rfl] at h
    exact List.mem_cons_of_mem y (List.mem_cons_of_mem y (ih h))
  | case2 x y rest hxy ih =>
    intro h
    rw [MP.cancelPairs, if_neg hxy] at h
    rcases List.mem_cons.mp h with h | h
    · exact List.mem_cons.mpr (Or.inl h)
    · exact List.mem_cons_of_mem x (ih h)
  | case3 l h1 =>
    intro h
    cases l with
    | nil => exact h
    | cons a tail =>
      cases tail with
      | nil => exact h
      | cons b r => exact absurd rfl (fun he => h1 a b r he)

theorem MP.count_cancelPairs_parity (x : Nat) :
    ∀ l : List Nat, (MP.cancelPairs l).count x % 2 = l.count x % 2 := by
  intro l
  induction l using MP.cancelPairs.induct with
  | case1 b rest ih =>
    rw [MP.cancelPairs, if_pos rfl]
    simp only [List.count_cons]
    omega
  | case2 a b rest hab ih =>
    rw [MP.cancelPairs, if_neg hab]
    simp only [List.count_cons]
    simp only [List.count_cons] at ih
    omega
  | case3 l h1 =>
    cases l with
    | nil => rfl
    | cons a tail =>
      cases tail with
      | nil => rfl
      | cons b r => exact absurd rfl (fun he => h1 a b r he)

theorem MP.Desc_cancelPairs :
    ∀ {l : List Nat}, List.Sorted (fun a b => a ≥ b) l →
      MP.Desc (MP.cancelPairs l) := by
  intro l
  induction l using MP.cancelPairs.induct with
  | case1 y rest ih =>
    intro hs
    rw [MP.cancelPairs, if_pos rfl]
    exact ih (hs.of_cons.of_cons)
  | case2 x y rest hxy ih =>
    intro hs
    rw [MP.cancelPairs, if_neg hxy]
    rcases List.pairwise_cons.mp hs with ⟨hx, hrest⟩
    refine List.pairwise_cons.mpr ⟨?_, ih hrest⟩
    intro z hz
    have hzy : z ∈ y :: rest := MP.cancelPairs_subset hz
    have hle : x ≥ z := hx z hzy
    have hyy : y ≥ z ∨ z = y := by
      rcases List.mem_cons.mp hzy with h | h
      · exact Or.inr h
      · exact Or.inl ((List.pairwise_cons.mp hrest).1 z h)
    have hxy2 : x ≥ y := hx y (List.mem_cons_self y rest)
    omega
  | case3 l h1 =>
    intro hs
    cases l with
    | nil => exact List.Pairwise.nil
    | cons a tail =>
      cases tail with
      | nil => exact List.pairwise_singleton _ a
      | cons b r => exact absurd rfl (fun he => h1 a b r he)

theorem MP.Desc_Normalize (l : List Nat) : MP.Desc (MP.Normalize l) :=
  MP.Desc_cancelPairs
    (List.sorted_insertionSort (fun a b => a ≥ b) l)

theorem MP.count_Normalize_parity (x : Nat) (l : List Nat) :
    (MP.Normalize l).count x % 2 = l.count x % 2 := by
  unfold MP.Normalize
  rw [MP.count_cancelPairs_parity]
  exact congrArg (· % 2)
    ((List.perm_insertionSort (fun a b => a ≥ b) l).count_eq x)

theorem MP.Desc.nodup {l : List Nat} (h : MP.Desc l) : l.Nodup :=
  h.imp (fun hgt => Nat.ne_of_gt hgt)

theorem MP.Desc.count_le_one {l : List Nat} (h : MP.Desc l) (x : Nat) :
    l.count x ≤ 1 :=
  List.nodup_iff_count_le_one.mp h.nodup x

theorem MP.Desc.mem_iff_count {l : List Nat} (h : MP.Desc l) (x : Nat) :
    x ∈ l ↔ l.count x = 1 := by
  constructor
  · intro hm
    have h1 := List.count_pos_iff_mem.mpr hm
    have h2 := h.count_le_one x
    omega
  · intro hc
    exact List.count_pos_iff_mem.mp (by omega)

theorem MP.mem_Normalize_iff {x : Nat} {l : List Nat} :
    x ∈ MP.Normalize l ↔ l.count x % 2 = 1 := by
  rw [(MP.Desc_Normalize l).mem_iff_count x]
  have := MP.count_Normalize_parity x l
  have hle := (MP.Desc_Normalize l).count_le_one x
  omega

theorem MP.mem_SymDiff_iff {x : Nat} {a b : List Nat}
    (ha : MP.Desc a) (hb : MP.Desc b) :
    x ∈ MP.SymDiff a b ↔ ((x ∈ a) ↔ ¬ (x ∈ b)) := by
  have hp := MP.count_SymDiff_parity x a b
  have hsd := (MP.Desc_SymDiff ha hb).mem_iff_count x
  have hsl := (MP.Desc_SymDiff ha hb).count_le_one x
  have hma := ha.mem_iff_count x
  have hmb := hb.mem_iff_count x
  have hla := ha.count_le_one x
  have hlb := hb.count_le_one x
  have hza : x ∉ a → a.count x = 0 := fun h => List.count_eq_zero_of_not_mem h
  have hzb : x ∉ b → b.count x = 0 := fun h => List.count_eq_zero_of_not_mem h
  have hzs : x ∉ MP.SymDiff a b → (MP.SymDiff a b).count x = 0 :=
    fun h => List.count_eq_zero_of_not_mem h
  by_cases hxa : x ∈ a <;> by_cases hxb : x ∈ b <;>
    by_cases hxs : x ∈ MP.SymDiff a b <;>
      simp only [hxa, hxb, hxs] <;> first
        | (exfalso
           have c1 := hma.mp (by assumption)
           first
             | (have c2 := hmb.mp (by assumption)
                first
                  | (have c3 := hsd.mp (by assumption); omega)
                  | (have c3 := hzs (by assumption); omega))
             | (have c2 := hzb (by assumption)
                first
                  | (have c3 := hsd.mp (by assumption); omega)
                  | (have c3 := hzs (by assumption); omega)))
        | (exfalso
           have c1 := hza (by assumption)
           first
             | (have c2 := hmb.mp (by assumption)
                first
                  | (have c3 := hsd.mp (by assumption); omega)
                  | (have c3 := hzs (by assumption); omega))
             | (have c2 := hzb (by assumption)
                first
                  | (have c3 := hsd.mp (by assumption); omega)
                  | (have c3 := hzs (by assumption); omega)))
        | simp
        | tauto

theorem MP.Desc.head_max {x : Nat} {xs : List Nat} (h : MP.Desc (x :: xs)) :
    ∀ z ∈ x :: xs, z ≤ x := by
  intro z hz
  rcases List.mem_cons.mp hz with h1 | h1
  · omega
  · exact Nat.le_of_lt ((List.pairwise_cons.mp h).1 z h1)

/-- Two strictly decreasing lists with the same members are equal. -/
theorem MP.Desc.ext :
    ∀ {a b : List Nat}, MP.Desc a → MP.Desc b →
      (∀ x, x ∈ a ↔ x ∈ b) → a = b := by
  intro a
  induction a with
  | nil =>
    intro b _ _ hm
    cases b with
    | nil => rfl
    | cons y ys => exact absurd ((hm y).mpr (List.mem_cons_self y ys)) (List.not_mem_nil y)
  | cons x xs ih =>
    intro b ha hb hm
    cases b with
    | nil => exact absurd ((hm x).mp (List.mem_cons_self x xs)) (List.not_mem_nil x)
    | cons y ys =>
      have hxy : x = y := by
        have h1 : x ∈ y :: ys := (hm x).mp (List.mem_cons_self x xs)
        have h2 : y ∈ x :: xs := (hm y).mpr (List.mem_cons_self y ys)
        have h3 := hb.head_max x h1
        have h4 := ha.head_max y h2
        omega
      subst hxy
      have htail : ∀ z, z ∈ xs ↔ z ∈ ys := by
        intro z
        constructor
        · intro hz
          have hzx : z < x := (List.pairwise_cons.mp ha).1 z hz
          have := (hm z).mp (List.mem_cons_of_mem x hz)
          rcases List.mem_cons.mp this with h1 | h1
          · omega
          · exact h1
        · intro hz
          have hzx : z < x := (List.pairwise_cons.mp hb).1 z hz
          have := (hm z).mpr (List.mem_cons_of_mem x hz)
          rcases List.mem_cons.mp this with h1 | h1
          · omega
          · exact h1
      rw [ih (List.pairwise_cons.mp ha).2 (List.pairwise_cons.mp hb).2 htail]

theorem MP.Desc.sorted_ge {l : List Nat} (h : MP.Desc l) :
    List.Sorted (fun a b => a ≥ b) l :=
  h.imp (fun hgt => Nat.le_of_lt hgt)

theorem MP.cancelPairs_of_nodup :
    ∀ {l : List Nat}, l.Nodup → MP.cancelPairs l = l := by
  intro l
  induction l using MP.cancelPairs.induct with
  | case1 y rest ih =>
    intro h
    exact absurd (List.mem_cons_self y rest) (List.nodup_cons.mp h).1
  | case2 x y rest hxy ih =>
    intro h
    rw [MP.cancelPairs, if_neg hxy, ih (List.nodup_cons.mp h).2]
  | case3 l h1 =>
    intro h
    cases l with
    | nil => rfl
    | cons a tail =>
      cases tail with
      | nil => rfl
      | cons b r => exact absurd rfl (fun he => h1 a b r he)

theorem MP.Normalize_of_Desc {l : List Nat} (h : MP.Desc l) :
    MP.Normalize l = l := by
  unfold MP.Normalize
  rw [List.Sorted.insertionSort_eq h.sorted_ge]
  exact MP.cancelPairs_of_nodup h.nodup

/- ======== more bit facts for the division loops ======== -/

theorem andNot_land_self (a b : Nat) : andNot a b &&& b = 0 := by
  apply Nat.eq_of_testBit_eq
  intro i
  simp only [Nat.testBit_land, testBit_andNot, Nat.zero_testBit]
  cases a.testBit i <;> cases b.testBit i <;> rfl

theorem lor_andNot_of_div {a b : Nat} (h : MM.IsDivisibleBy a b = true) :
    b ||| andNot a b = a := by
  unfold MM.IsDivisibleBy at h
  rw [beq_iff_eq] at h
  have hb := andNot_eq_zero_iff.mp h
  apply Nat.eq_of_testBit_eq
  intro i
  have hbi := congrArg (fun x => Nat.testBit x i) hb
  simp only [Nat.testBit_lor] at hbi
  simp only [Nat.testBit_lor, testBit_andNot]
  cases hx : b.testBit i <;> cases hy : a.testBit i <;> simp_all

theorem lor_le_lor_of_sub {m x y : Nat} (h : x ||| y = y) : m ||| x ≤ m ||| y := by
  apply Nat.le_of_testBit
  intro i hi
  have hxy := congrArg (fun z => Nat.testBit z i) h
  simp only [Nat.testBit_lor] at hxy hi ⊢
  cases hm : m.testBit i
  · cases hx : x.testBit i
    · simp [hm, hx] at hi
    · simp_all
  · rfl

/- ======== mulM lemmas ======== -/

theorem MP.Desc_mulM (l : List Nat) (m : Nat) : MP.Desc (MP.mulM l m) :=
  MP.Desc_Normalize _

theorem MP.mem_mulM_iff {x m : Nat} {l : List Nat} :
    x ∈ MP.mulM l m ↔ (l.countP (fun y => MM.mul y m == x)) % 2 = 1 := by
  unfold MP.mulM
  rw [MP.mem_Normalize_iff]
  have : (l.map (fun y => MM.mul y m)).count x
      = l.countP (fun y => MM.mul y m == x) := by
    simp only [List.count, List.countP_map]
    rfl
  rw [this]

theorem MP.mem_mulM_exists {x m : Nat} {l : List Nat}
    (h : x ∈ MP.mulM l m) : ∃ y ∈ l, x = MM.mul y m := by
  rw [MP.mem_mulM_iff] at h
  have hpos : 0 < l.countP (fun y => MM.mul y m == x) := by omega
  rw [List.countP_pos] at hpos
  obtain ⟨y, hy, he⟩ := hpos
  exact ⟨y, hy, (beq_iff_eq.mp he).symm⟩

/- ======== binary-encoding bound (termination of division) ======== -/

theorem MP.encP_lt_of_bound :
    ∀ {l : List Nat} {b : Nat}, MP.Desc l → (∀ x ∈ l, x < b) →
      MP.encP l < 2 ^ b := by
  intro l
  induction l with
  | nil =>
    intro b _ _
    exact Nat.pos_pow_of_pos b (by omega)
  | cons x xs ih =>
    intro b hd hb
    have hxs : ∀ z ∈ xs, z < x := (List.pairwise_cons.mp hd).1
    have h1 : MP.encP xs < 2 ^ x := ih (List.pairwise_cons.mp hd).2 hxs
    have h2 : x < b := hb x (List.mem_cons_self x xs)
    have h3 : MP.encP (x :: xs) = 2 ^ x + MP.encP xs := rfl
    have h4 : 2 ^ x + 2 ^ x ≤ 2 ^ b := by
      have : 2 ^ (x + 1) ≤ 2 ^ b := Nat.pow_le_pow_right (by omega) (by omega)
      omega
    omega

theorem MP.encP_cons (x : Nat) (xs : List Nat) :
    MP.encP (x :: xs) = 2 ^ x + MP.encP xs := rfl

/- ======== division with remainder: MP::Mod and MP::Div ======== -/

/-- Loop of MP::Mod (mp.h): repeatedly pop the leading monomial lm of the
geobucket; if LM(q) divides lm, add (lm/LM(q)) * tail(q) back into the
geobucket, otherwise emit lm to the remainder.  The geobucket is modelled
by its monomial content (the sorted XOR of its buckets, see the Geobucket
lemmas below); the structural counter dominates the strictly decreasing
binary encoding of the content, so the result never depends on it here. -/
def MP.modAux (qLM : Nat) (qTail : List Nat) : Nat → List Nat → (Bool × List Nat)
  | 0, _ => (false, [])
  | fuel + 1, content =>
    match content with
    | [] => (false, [])
    | lm :: rest =>
      if MM.IsDivisibleBy lm qLM then
        (true,
          (MP.modAux qLM qTail fuel
            (MP.SymDiff rest (MP.mulM qTail (MM.div lm qLM)))).2)
      else
        let r := MP.modAux qLM qTail fuel rest
        (r.1, lm :: r.2)

/-- MP::Mod - remainder of division by q, in place of the dividend;
returns the changed flag of the source.  When the divisor is empty, the
loop body evaluates LM() of the zero polynomial, which violates the
assert precondition of MP::LM; this failure is modelled as none.  When
additionally the dividend is zero the loop never runs and the call
returns normally. -/
def MP.Mod (p q : List Nat) : Option (Bool × List Nat) :=
  match q with
  | [] => if p.isEmpty then some (false, p) else none
  | qLM :: qTail => some (MP.modAux qLM qTail (MP.encP p + 1) p)

/-- Loop of MP::Div (mp.h): same control flow as MP::Mod, collecting the
quotient monomials lm/LM(q) instead of the remainder. -/
def MP.divAux (qLM : Nat) (qTail : List Nat) : Nat → List Nat → List Nat
  | 0, _ => []
  | fuel + 1, content =>
    match content with
    | [] => []
    | lm :: rest =>
      if MM.IsDivisibleBy lm qLM then
        MM.div lm qLM ::
          MP.divAux qLM qTail fuel
            (MP.SymDiff rest (MP.mulM qTail (MM.div lm qLM)))
      else
        MP.divAux qLM qTail fuel rest

/-- MP::Div - quotient of division by q; failure modelling as in MP.Mod. -/
def MP.Div (p q : List Nat) : Option (List Nat) :=
  match q with
  | [] => if p.isEmpty then some [] else none
  | qLM :: qTail => some (MP.divAux qLM qTail (MP.encP p + 1) p)

/-- MP::Mult - product of polynomials: the products of p with the
monomials of q are accumulated into a geobucket (in the source from the
last monomial of q to the first; the XOR-accumulation is order
independent and Mount returns the sorted content). -/
def MP.Mult (p q : List Nat) : List Nat :=
  q.foldr (fun m acc => MP.SymDiff (MP.mulM p m) acc) []

/- ======== XOR algebra of polynomials ======== -/

theorem MP.SymDiff_comm {a b : List Nat} (ha : MP.Desc a) (hb : MP.Desc b) :
    MP.SymDiff a b = MP.SymDiff b a := by
  apply MP.Desc.ext (MP.Desc_SymDiff ha hb) (MP.Desc_SymDiff hb ha)
  intro x
  rw [MP.mem_SymDiff_iff ha hb, MP.mem_SymDiff_iff hb ha]
  tauto

theorem MP.SymDiff_assoc {a b c : List Nat}
    (ha : MP.Desc a) (hb : MP.Desc b) (hc : MP.Desc c) :
    MP.SymDiff (MP.SymDiff a b) c = MP.SymDiff a (MP.SymDiff b c) := by
  apply MP.Desc.ext (MP.Desc_SymDiff (MP.Desc_SymDiff ha hb) hc)
    (MP.Desc_SymDiff ha (MP.Desc_SymDiff hb hc))
  intro x
  rw [MP.mem_SymDiff_iff (MP.Desc_SymDiff ha hb) hc,
    MP.mem_SymDiff_iff ha hb,
    MP.mem_SymDiff_iff ha (MP.Desc_SymDiff hb hc),
    MP.mem_SymDiff_iff hb hc]
  tauto

theorem MP.SymDiff_self_nil {a : List Nat} (ha : MP.Desc a) :
    MP.SymDiff a a = [] := by
  apply MP.Desc.ext (MP.Desc_SymDiff ha ha) List.Pairwise.nil
  intro x
  rw [MP.mem_SymDiff_iff ha ha]
  simp

theorem MP.SymDiff_singleton_left {lm : Nat} {r : List Nat}
    (h : ∀ z ∈ r, z < lm) : MP.SymDiff [lm] r = lm :: r := by
  cases r with
  | nil => rfl
  | cons y ys =>
    have hy : y < lm := h y (List.mem_cons_self y ys)
    show MP.symDiffGo lm [] (MP.SymDiff []) (y :: ys) = lm :: y :: ys
    unfold MP.symDiffGo
    rw [if_pos hy]
    rfl

theorem MP.Desc_singleton (x : Nat) : MP.Desc [x] := List.pairwise_singleton _ x

/-- Decomposition of monomial multiplication along the head of the list. -/
theorem MP.mulM_cons (t m : Nat) (D : List Nat) :
    MP.mulM (t :: D) m = MP.SymDiff [MM.mul t m] (MP.mulM D m) := by
  apply MP.Desc.ext (MP.Desc_mulM _ _)
    (MP.Desc_SymDiff (MP.Desc_singleton _) (MP.Desc_mulM _ _))
  intro z
  rw [MP.mem_mulM_iff,
    MP.mem_SymDiff_iff (MP.Desc_singleton _) (MP.Desc_mulM _ _),
    MP.mem_mulM_iff, List.countP_cons, List.mem_singleton]
  cases hb : (MM.mul t m == z)
  · have hz : ¬ z = MM.mul t m := by
      intro he
      rw [he] at hb
      simp at hb
    simp only [hb, if_neg, Bool.false_eq_true, Nat.add_zero]
    simp only [hz, false_iff]
    tauto
  · have hz : z = MM.mul t m := (beq_iff_eq.mp hb).symm
    simp only [hb, if_pos]
    have harith : (List.countP (fun y => MM.mul y m == z) D + 1) % 2 = 1 ↔
        ¬ (List.countP (fun y => MM.mul y m == z) D % 2 = 1) := by omega
    rw [harith]
    simp only [hz, true_iff]

theorem MP.Mult_nil_left (q : List Nat) : MP.Mult [] q = [] := by
  induction q with
  | nil => rfl
  | cons m ms ih =>
    show MP.SymDiff (MP.mulM [] m) (MP.Mult [] ms) = []
    rw [ih]
    rfl

theorem MP.Mult_cons_right (p : List Nat) (m : Nat) (ms : List Nat) :
    MP.Mult p (m :: ms) = MP.SymDiff (MP.mulM p m) (MP.Mult p ms) := rfl

theorem MP.Desc_Mult (p q : List Nat) : MP.Desc (MP.Mult p q) := by
  induction q with
  | nil => exact List.Pairwise.nil
  | cons m ms ih =>
    rw [MP.Mult_cons_right]
    exact MP.Desc_SymDiff (MP.Desc_mulM _ _) ih

theorem MP.mem_Mult_exists {z : Nat} {p q : List Nat}
    (h : z ∈ MP.Mult p q) : ∃ d ∈ p, ∃ m ∈ q, z = MM.mul d m := by
  induction q with
  | nil => exact absurd h (List.not_mem_nil z)
  | cons m ms ih =>
    rw [MP.Mult_cons_right] at h
    rcases MP.SymDiff_subset h with h1 | h1
    · obtain ⟨y, hy, he⟩ := MP.mem_mulM_exists h1
      exact ⟨y, hy, m, List.mem_cons_self m ms, he⟩
    · obtain ⟨d, hd, mm, hmm, he⟩ := ih h1
      exact ⟨d, hd, mm, List.mem_cons_of_mem m hmm, he⟩

/-- Decomposition of the polynomial product along the head of the left
operand. -/
theorem MP.Mult_cons_left (t : Nat) (D q : List Nat) :
    MP.Mult (t :: D) q = MP.SymDiff (MP.mulM q t) (MP.Mult D q) := by
  induction q with
  | nil => rfl
  | cons m ms ih =>
    have dA : MP.Desc [MM.mul t m] := MP.Desc_singleton _
    have dB : MP.Desc (MP.mulM D m) := MP.Desc_mulM _ _
    have dC : MP.Desc (MP.mulM ms t) := MP.Desc_mulM _ _
    have dE : MP.Desc (MP.Mult D ms) := MP.Desc_Mult _ _
    have hmt : MM.mul m t = MM.mul t m := Nat.lor_comm m t
    rw [MP.Mult_cons_right, MP.mulM_cons, ih,
      MP.mulM_cons m t ms, hmt, MP.Mult_cons_right]
    calc MP.SymDiff (MP.SymDiff [MM.mul t m] (MP.mulM D m))
          (MP.SymDiff (MP.mulM ms t) (MP.Mult D ms))
        = MP.SymDiff [MM.mul t m]
            (MP.SymDiff (MP.mulM D m)
              (MP.SymDiff (MP.mulM ms t) (MP.Mult D ms))) :=
          MP.SymDiff_assoc dA dB (MP.Desc_SymDiff dC dE)
      _ = MP.SymDiff [MM.mul t m]
            (MP.SymDiff (MP.SymDiff (MP.mulM D m) (MP.mulM ms t))
              (MP.Mult D ms)) := by
          rw [MP.SymDiff_assoc dB dC dE]
      _ = MP.SymDiff [MM.mul t m]
            (MP.SymDiff (MP.SymDiff (MP.mulM ms t) (MP.mulM D m))
              (MP.Mult D ms)) := by
          rw [MP.SymDiff_comm dB dC]
      _ = MP.SymDiff [MM.mul t m]
            (MP.SymDiff (MP.mulM ms t)
              (MP.SymDiff (MP.mulM D m) (MP.Mult D ms))) := by
          rw [MP.SymDiff_assoc dC dB dE]
      _ = MP.SymDiff (MP.SymDiff [MM.mul t m] (MP.mulM ms t))
            (MP.SymDiff (MP.mulM D m) (MP.Mult D ms)) :=
          (MP.SymDiff_assoc dA dC (MP.Desc_SymDiff dB dE)).symm

theorem MP.SymDiff_cons_right_big {y : Nat} {a b : List Nat}
    (h : ∀ z ∈ a, z < y) : MP.SymDiff a (y :: b) = y :: MP.SymDiff a b := by
  cases a with
  | nil => rfl
  | cons x xs =>
    have hx : x < y := h x (List.mem_cons_self x xs)
    rw [MP.SymDiff_cons_cons, if_neg (by omega), if_pos hx]

theorem MP.modAux_step (qLM : Nat) (qTail : List Nat) (fuel lm : Nat)
    (rest : List Nat) :
    MP.modAux qLM qTail (fuel + 1) (lm :: rest) =
      if MM.IsDivisibleBy lm qLM then
        (true,
          (MP.modAux qLM qTail fuel
            (MP.SymDiff rest (MP.mulM qTail (MM.div lm qLM)))).2)
      else
        ((MP.modAux qLM qTail fuel rest).1,
          lm :: (MP.modAux qLM qTail fuel rest).2) := rfl

theorem MP.divAux_step (qLM : Nat) (qTail : List Nat) (fuel lm : Nat)
    (rest : List Nat) :
    MP.divAux qLM qTail (fuel + 1) (lm :: rest) =
      if MM.IsDivisibleBy lm qLM then
        MM.div lm qLM ::
          MP.divAux qLM qTail fuel
            (MP.SymDiff rest (MP.mulM qTail (MM.div lm qLM)))
      else
        MP.divAux qLM qTail fuel rest := rfl

/-- Joint invariant of the MP::Mod and MP::Div loops over the same
geobucket content: the remainder is sorted, remainder and quotient stay
below any bound dominating the content, and quotient * divisor +
remainder reassembles the content (the division identity). -/
theorem MP.modDiv_core (qLM : Nat) (qTail : List Nat)
    (hqt : MP.Desc qTail) (hqh : ∀ m ∈ qTail, m < qLM) :
    ∀ fuel content B,
      MP.Desc content → MP.encP content < fuel → (∀ x ∈ content, x < B) →
      MP.Desc (MP.modAux qLM qTail fuel content).2 ∧
      (∀ x ∈ (MP.modAux qLM qTail fuel content).2, x < B) ∧
      (∀ x ∈ MP.divAux qLM qTail fuel content,
        MM.mul x qLM < B ∧ ∀ m ∈ qTail, MM.mul m x < B) ∧
      MP.SymDiff (MP.Mult (MP.divAux qLM qTail fuel content) (qLM :: qTail))
        (MP.modAux qLM qTail fuel content).2 = content := by
  intro fuel
  induction fuel with
  | zero =>
    intro content B _ hf _
    exact absurd hf (by omega)
  | succ fuel ih =>
    intro content B hdc hf hB
    cases content with
    | nil =>
      refine ⟨List.Pairwise.nil, ?_, ?_, ?_⟩
      · intro x hx; exact absurd hx (List.not_mem_nil x)
      · intro x hx; exact absurd hx (List.not_mem_nil x)
      · show MP.SymDiff (MP.Mult [] (qLM :: qTail)) [] = []
        rw [MP.Mult_nil_left, MP.SymDiff_nil_right]
    | cons lm rest =>
      have hrest_lt : ∀ z ∈ rest, z < lm := (List.pairwise_cons.mp hdc).1
      have hdrest : MP.Desc rest := (List.pairwise_cons.mp hdc).2
      have hlmB : lm < B := hB lm (List.mem_cons_self lm rest)
      have hencc : MP.encP (lm :: rest) = 2 ^ lm + MP.encP rest := rfl
      have hrB : ∀ z ∈ rest, z < B := fun z hz => hB z (List.mem_cons_of_mem lm hz)
      cases hdvd : MM.IsDivisibleBy lm qLM with
      | false =>
        rw [MP.modAux_step, MP.divAux_step, if_neg (by simp [hdvd]),
          if_neg (by simp [hdvd])]
        have hfr : MP.encP rest < fuel := by
          have h1 : 0 < 2 ^ lm := Nat.pos_pow_of_pos lm (by omega)
          omega
        obtain ⟨ihD, ihB, ihQ, ihI⟩ := ih rest lm hdrest hfr hrest_lt
        have hMlt : ∀ z ∈ MP.Mult (MP.divAux qLM qTail fuel rest) (qLM :: qTail),
            z < lm := by
          intro z hz
          obtain ⟨d, hd, m, hm, he⟩ := MP.mem_Mult_exists hz
          rcases List.mem_cons.mp hm with h1 | h1
          · subst h1
            exact he ▸ (ihQ d hd).1
          · have := (ihQ d hd).2 m h1
            rw [he]
            unfold MM.mul
            unfold MM.mul at this
            rw [Nat.lor_comm]
            exact this
        refine ⟨?_, ?_, ?_, ?_⟩
        · exact List.pairwise_cons.mpr ⟨ihB, ihD⟩
        · intro x hx
          rcases List.mem_cons.mp hx with h1 | h1
          · omega
          · have := ihB x h1; omega
        · intro x hx
          have := ihQ x hx
          exact ⟨by omega, fun m hm => by have := this.2 m hm; omega⟩
        · rw [MP.SymDiff_cons_right_big hMlt, ihI]
      | true =>
        rw [MP.modAux_step, MP.divAux_step, if_pos (by simp [hdvd]),
          if_pos (by simp [hdvd])]
        set t := MM.div lm qLM with ht
        set A := MP.mulM qTail t with hA
        set c2 := MP.SymDiff rest A with hc2
        have hql : qLM ||| t = lm := lor_andNot_of_div hdvd
        have htd : t &&& qLM = 0 := andNot_land_self lm qLM
        have hAlt : ∀ z ∈ A, z < lm := by
          intro z hz
          obtain ⟨y, hy, he⟩ := MP.mem_mulM_exists hz
          have hylt : y < qLM := hqh y hy
          have := lor_lt_lor_of_lt hylt htd
          rw [hql] at this
          rw [he]
          exact this
        have hdA : MP.Desc A := MP.Desc_mulM _ _
        have hdc2 : MP.Desc c2 := MP.Desc_SymDiff hdrest hdA
        have hc2lt : ∀ z ∈ c2, z < lm := by
          intro z hz
          rcases MP.SymDiff_subset hz with h1 | h1
          · exact hrest_lt z h1
          · exact hAlt z h1
        have hc2B : ∀ z ∈ c2, z < B := fun z hz => by
          have := hc2lt z hz; omega
        have hfc2 : MP.encP c2 < fuel := by
          have h1 : MP.encP c2 < 2 ^ lm := MP.encP_lt_of_bound hdc2 hc2lt
          omega
        obtain ⟨ihD, ihB, ihQ, ihI⟩ := ih c2 B hdc2 hfc2 hc2B
        refine ⟨ihD, ihB, ?_, ?_⟩
        · intro x hx
          rcases List.mem_cons.mp hx with h1 | h1
          · subst h1
            constructor
            · show t ||| qLM < B
              rw [Nat.lor_comm, hql]
              exact hlmB
            · intro m hm
              show m ||| t < B
              have hylt : m < qLM := hqh m hm
              have := lor_lt_lor_of_lt hylt htd
              rw [hql] at this
              omega
          · exact ihQ x h1
        · rw [MP.Mult_cons_left,
            MP.SymDiff_assoc (MP.Desc_mulM _ _) (MP.Desc_Mult _ _) ihD, ihI,
            MP.mulM_cons qLM t qTail,
            show MM.mul qLM t = lm from hql, ← hA,
            MP.SymDiff_assoc (MP.Desc_singleton lm) hdA hdc2]
          have hinner : MP.SymDiff A c2 = rest := by
            rw [hc2, MP.SymDiff_comm hdrest hdA,
              ← MP.SymDiff_assoc hdA hdA hdrest, MP.SymDiff_self_nil hdA,
              MP.SymDiff_nil_left]
          rw [hinner]
          exact MP.SymDiff_singleton_left hrest_lt

/-- MP::LM - the leading monomial is the first element of the sorted
list (the source asserts that the polynomial is not empty). -/
def MP.LM (l : List Nat) : Nat := l.headI

theorem MP.two_pow_le_encP {x : Nat} :
    ∀ {l : List Nat}, x ∈ l → 2 ^ x ≤ MP.encP l := by
  intro l
  induction l with
  | nil => intro h; exact absurd h (List.not_mem_nil x)
  | cons y ys ih =>
    intro h
    rw [MP.encP_cons]
    rcases List.mem_cons.mp h with h1 | h1
    · subst h1; exact Nat.le_add_right _ _
    · exact le_trans (ih h1) (Nat.le_add_left _ _)

/- ===================== claims C2 and C5 ===================== -/

/-- C2: division identity over F2.  For every normalized polynomial p
and nonzero normalized polynomial q, MP::Div and MP::Mod (applied to
copies of p) succeed and (p div q) * q + (p mod q) = p, where * is
MP::Mult and + is the symmetric difference (addition over F2). -/
theorem C2_division_identity (p q : List Nat)
    (hp : MP.Desc p) (hq : MP.Desc q) (hq0 : q ≠ []) :
    ∃ quot changed rem,
      MP.Div p q = some quot ∧ MP.Mod p q = some (changed, rem) ∧
        MP.SymDiff (MP.Mult quot q) rem = p := by
  cases q with
  | nil => exact absurd rfl hq0
  | cons qLM qTail =>
    have hqt : MP.Desc qTail := (List.pairwise_cons.mp hq).2
    have hqh : ∀ m ∈ qTail, m < qLM := (List.pairwise_cons.mp hq).1
    have hB : ∀ x ∈ p, x < MP.encP p + 1 := by
      intro x hx
      have h1 := MP.two_pow_le_encP hx
      have h2 := Nat.lt_two_pow x
      omega
    obtain ⟨_, _, _, hI⟩ :=
      MP.modDiv_core qLM qTail hqt hqh (MP.encP p + 1) p (MP.encP p + 1)
        hp (by omega) hB
    exact ⟨MP.divAux qLM qTail (MP.encP p + 1) p,
      (MP.modAux qLM qTail (MP.encP p + 1) p).1,
      (MP.modAux qLM qTail (MP.encP p + 1) p).2,
      rfl, rfl, hI⟩

theorem C2_division_identity_witness :
    MP.Desc [3, 1] ∧ MP.Desc [2] ∧ ([2] : List Nat) ≠ [] ∧
      ∃ quot changed rem,
        MP.Div [3, 1] [2] = some quot ∧ MP.Mod [3, 1] [2] = some (changed, rem) ∧
          MP.SymDiff (MP.Mult quot [2]) rem = [3, 1] :=
  ⟨by decide, by decide, by decide,
    C2_division_identity [3, 1] [2] (by decide) (by decide) (by decide)⟩

/-- C5: the safe in-place reduction of Buchb::_Update.  If f and g are
nonzero normalized polynomials and LM(g) does not divide LM(f), then
f mod g is nonzero and has the same leading monomial as f, so replacing
f by f mod g cannot perturb the lcm of any pending critical pair. -/
theorem C5_update_mod_keeps_lm (f g : List Nat)
    (hf : MP.Desc f) (hf0 : f ≠ []) (hg : MP.Desc g) (hg0 : g ≠ [])
    (hnd : MM.IsDivide (MP.LM g) (MP.LM f) = false) :
    ∃ changed rem,
      MP.Mod f g = some (changed, rem) ∧ rem ≠ [] ∧ MP.LM rem = MP.LM f := by
  cases g with
  | nil => exact absurd rfl hg0
  | cons qLM qTail =>
    cases f with
    | nil => exact absurd rfl hf0
    | cons lm rest =>
      have hqt : MP.Desc qTail := (List.pairwise_cons.mp hg).2
      have hqh : ∀ m ∈ qTail, m < qLM := (List.pairwise_cons.mp hg).1
      have hnd2 : MM.IsDivisibleBy lm qLM = false := hnd
      show ∃ changed rem,
        some (MP.modAux qLM qTail (MP.encP (lm :: rest) + 1) (lm :: rest))
          = some (changed, rem) ∧ rem ≠ [] ∧ MP.LM rem = lm
      have hfuel : MP.encP (lm :: rest) + 1 = (2 ^ lm + MP.encP rest) + 1 := rfl
      rw [hfuel, MP.modAux_step, if_neg (by simp [hnd2])]
      refine ⟨_, _, rfl, by simp, rfl⟩

theorem C5_update_mod_keeps_lm_witness :
    MP.Desc [5, 1] ∧ ([5, 1] : List Nat) ≠ [] ∧ MP.Desc [2, 1] ∧
      ([2, 1] : List Nat) ≠ [] ∧
      MM.IsDivide (MP.LM [2, 1]) (MP.LM [5, 1]) = false ∧
      ∃ changed rem,
        MP.Mod [5, 1] [2, 1] = some (changed, rem) ∧ rem ≠ [] ∧
          MP.LM rem = MP.LM [5, 1] :=
  ⟨by decide, by decide, by decide, by decide, by decide,
    C5_update_mod_keeps_lm [5, 1] [2, 1] (by decide) (by decide) (by decide)
      (by decide) (by decide)⟩

/- ===================== claim C10: MP::Diff(monom) ===================== -/

/-- MP::Diff(monom), mp.h - transcription of the buggy source.  The
iterator lower_bound(begin, end, m, order) lands on the first monomial
that is not greater than m; the source then tests
(iter != end() || *iter == mRight) - with a logical OR - and erases.
Consequently whenever the list contains any monomial <= m the first such
monomial is erased, whether or not it equals m, and when every monomial
exceeds m the source dereferences end() (undefined behaviour, modelled
as none). -/
def MP.Diff (l : List Nat) (m : Nat) : Option (List Nat) :=
  match l.dropWhile (fun x => decide (x > m)) with
  | [] => none
  | _ :: rest => some (l.takeWhile (fun x => decide (x > m)) ++ rest)

/-- C10: the claim fails on the code.  For p = x1 + 1 (normalized) and
m = x0, m does not occur in p, yet Diff erases the constant monomial 1:
the membership test uses || where && is intended (compare MP::Find). -/
theorem C10_diff_code_bug :
    MP.Desc [2, 0] ∧ MP.IsContain [2, 0] 1 = false ∧
      MP.Diff [2, 0] 1 = some [2] := by decide

/- ========== claim C4: S-polynomial of a field-equation pair ========== -/

/-- MP::SPoly(size_t i) - the S-polynomial of (x_i^2 - x_i, *this): the
bit i is set in every monomial and the list is renormalized (this is the
product x_i * f in the Boolean ring). -/
def MP.SPolyVar (l : List Nat) (i : Nat) : List Nat :=
  MP.Normalize (l.map (fun x => x ||| 2 ^ i))

theorem MP.SPolyVar_eq_mulM (l : List Nat) (i : Nat) :
    MP.SPolyVar l i = MP.mulM l (2 ^ i) := rfl

/-- CritPair::GetSPoly (buchb.h), field-equation branch: spoly = f,
spoly.SPoly(var1); if the result is nonzero and its leading monomial
still equals LM(f), f is added once more (the leading terms cancel). -/
def CritPair.GetSPolyField (i : Nat) (f : List Nat) : List Nat :=
  if MP.SPolyVar f i ≠ [] ∧ MP.LM (MP.SPolyVar f i) = MP.LM f
  then MP.SymDiff (MP.SPolyVar f i) f
  else MP.SPolyVar f i

/-- CritPair::CritPair(size_t, iterator) - the cached lcm of the pair
(x_i^2 - x_i, f) is LCM(x_i, LM(f)). -/
def CritPair.lcmField (i : Nat) (f : List Nat) : Nat :=
  MM.LCM (2 ^ i) (MP.LM f)

/-- C4 counterexample: f = x0x1 + x0 + 1 with i = 0: x0 divides LM(f),
the engine returns x0*f + f = x0 + 1, which is not the trivial
reduction f. -/
theorem C4_field_spoly_counterexample :
    Nat.testBit (MP.LM [3, 1, 0]) 0 = true ∧
      CritPair.GetSPolyField 0 [3, 1, 0] = [1, 0] ∧
      ¬ CritPair.GetSPolyField 0 [3, 1, 0] = [3, 1, 0] := by decide

theorem MP.mem_SPolyVar_testBit {x i : Nat} {l : List Nat}
    (h : x ∈ MP.SPolyVar l i) : Nat.testBit x i = true := by
  rw [MP.SPolyVar_eq_mulM] at h
  obtain ⟨y, _, he⟩ := MP.mem_mulM_exists h
  subst he
  unfold MM.mul
  simp [Nat.testBit_lor, Nat.testBit_two_pow_self]

/-- C4 (amended): for the field-equation pair (x_i^2 - x_i, f) with f
nonzero, the engine computes: x_i*f when x_i does not divide LM(f);
otherwise the cached lcm of the pair equals LM(f) and the S-polynomial
is x_i*f + f when x_i*f is nonzero with LM(x_i*f) = LM(f), and the
plain product x_i*f otherwise. -/
theorem C4_field_spoly (i : Nat) (f : List Nat) (hf0 : f ≠ []) :
    (Nat.testBit (MP.LM f) i = false →
      CritPair.GetSPolyField i f = MP.mulM f (2 ^ i)) ∧
    (Nat.testBit (MP.LM f) i = true →
      CritPair.lcmField i f = MP.LM f ∧
      CritPair.GetSPolyField i f =
        (if MP.mulM f (2 ^ i) ≠ [] ∧ MP.LM (MP.mulM f (2 ^ i)) = MP.LM f
         then MP.SymDiff (MP.mulM f (2 ^ i)) f
         else MP.mulM f (2 ^ i))) := by
  constructor
  · intro hbit
    unfold CritPair.GetSPolyField
    rw [if_neg, MP.SPolyVar_eq_mulM]
    intro hcond
    rcases hcond with ⟨hne, hlm⟩
    have hmem : MP.LM (MP.SPolyVar f i) ∈ MP.SPolyVar f i := by
      cases hs : MP.SPolyVar f i with
      | nil => exact absurd hs hne
      | cons a rest => exact List.mem_cons_self a rest
    have hbt := MP.mem_SPolyVar_testBit hmem
    rw [hlm] at hbt
    rw [hbt] at hbit
    exact absurd hbit (by decide)
  · intro hbit
    constructor
    · unfold CritPair.lcmField MM.LCM
      apply Nat.eq_of_testBit_eq
      intro j
      simp only [Nat.testBit_lor]
      by_cases hij : i = j
      · subst hij
        simp [hbit]
      · simp [Nat.testBit_two_pow_of_ne hij]
    · unfold CritPair.GetSPolyField
      rw [MP.SPolyVar_eq_mulM]

theorem C4_field_spoly_witness :
    ([5, 2] : List Nat) ≠ [] ∧
      Nat.testBit (MP.LM [5, 2]) 1 = false ∧
      CritPair.GetSPolyField 1 [5, 2] = MP.mulM [5, 2] (2 ^ 1) :=
  ⟨by decide, by decide, (C4_field_spoly 1 [5, 2] (by decide)).1 (by decide)⟩

/- ===================== Ideals: ideal.h ===================== -/

/-- MP::Compare - polynomials are compared monomial by monomial from the
leading monomial down; the first difference decides, a proper prefix is
smaller. -/
def MP.Compare : List Nat → List Nat → Int
  | [], [] => 0
  | [], _ :: _ => -1
  | _ :: _, [] => 1
  | x :: xs, y :: ys =>
    if x > y then 1 else if x < y then -1 else MP.Compare xs ys

/-- Ideal::IsNormalized - an ideal is a list of nonzero normalized
polynomials, strictly increasing under MP::Compare (stated through
Pairwise; MP::Compare is a total order so this coincides with the
adjacent-pairs check of the source). -/
def Ideal.WF (I : List (List Nat)) : Prop :=
  (∀ g ∈ I, g ≠ [] ∧ MP.Desc g) ∧
    List.Pairwise (fun a b => MP.Compare a b < 0) I

/-- Inner scan of Ideal::Reduce: walk the basis from the smallest
polynomial up; stop with no divisor as soon as a leading monomial
exceeds lm (the list is sorted, so no later polynomial can divide);
otherwise return the first polynomial whose leading monomial divides lm.
Evaluating LM() of a zero basis polynomial is an assert violation,
modelled as none. -/
def Ideal.findDivisor (lm : Nat) : List (List Nat) → Option (Option (List Nat))
  | [] => some none
  | g :: gs =>
    match g with
    | [] => none
    | gLM :: gTail =>
      if gLM > lm then some none
      else if MM.IsDivide gLM lm then some (some (gLM :: gTail))
      else Ideal.findDivisor lm gs

/-- Loop of Ideal::Reduce (geobucket version, ideal.h): pop the leading
monomial lm of the accumulator; if some basis leading monomial divides
it, add (lm/LM(g)) * tail(g) back, else emit lm to the normal form. -/
def Ideal.reduceAux (I : List (List Nat)) : Nat → List Nat → Option (Bool × List Nat)
  | 0, _ => some (false, [])
  | fuel + 1, content =>
    match content with
    | [] => some (false, [])
    | lm :: rest =>
      match Ideal.findDivisor lm I with
      | none => none
      | some none =>
        match Ideal.reduceAux I fuel rest with
        | none => none
        | some r => some (r.1, lm :: r.2)
      | some (some g) =>
        match Ideal.reduceAux I fuel
          (MP.SymDiff rest (MP.mulM g.tail (MM.div lm (MP.LM g)))) with
        | none => none
        | some r => some (true, r.2)

/-- Ideal::Reduce - normal form of p modulo the ideal; the changed flag
of the source is returned alongside.  There is no emptiness check on
the ideal: with an empty basis every monomial is emitted unchanged. -/
def Ideal.Reduce (I : List (List Nat)) (p : List Nat) : Option (Bool × List Nat) :=
  Ideal.reduceAux I (MP.encP p + 1) p

theorem MP.Compare_lt_head_le {a b : List Nat}
    (ha : a ≠ []) (hb : b ≠ []) (h : MP.Compare a b < 0) :
    MP.LM a ≤ MP.LM b := by
  cases a with
  | nil => exact absurd rfl ha
  | cons x xs =>
    cases b with
    | nil => exact absurd rfl hb
    | cons y ys =>
      show x ≤ y
      by_cases hxy : x > y
      · rw [show MP.Compare (x :: xs) (y :: ys) = 1 from by
          rw [MP.Compare, if_pos hxy]] at h
        omega
      · omega

theorem Ideal.findDivisor_none_sound {lm : Nat} :
    ∀ {I : List (List Nat)}, (∀ g ∈ I, g ≠ []) →
      List.Pairwise (fun a b => MP.Compare a b < 0) I →
      Ideal.findDivisor lm I = some none →
      ∀ g ∈ I, MM.IsDivide (MP.LM g) lm = false := by
  intro I
  induction I with
  | nil =>
    intro _ _ _ g hg
    exact absurd hg (List.not_mem_nil g)
  | cons g0 gs ih =>
    intro hne hpw hfd g hg
    have hg0 : g0 ≠ [] := hne g0 (List.mem_cons_self g0 gs)
    cases hg0e : g0 with
    | nil => exact absurd hg0e hg0
    | cons gLM gTail =>
      subst hg0e
      simp only [Ideal.findDivisor] at hfd
      by_cases hgt : gLM > lm
      · rw [if_pos hgt] at hfd
        have hnd : ∀ h1 : List Nat, h1 ≠ [] → MP.LM (gLM :: gTail) ≤ MP.LM h1 →
            MM.IsDivide (MP.LM h1) lm = false := by
          intro h1 _ hle
          cases hdv : MM.IsDivide (MP.LM h1) lm
          · rfl
          · have := isDivide_le hdv
            have hLM : MP.LM (gLM :: gTail) = gLM := rfl
            omega
        rcases List.mem_cons.mp hg with h1 | h1
        · subst h1
          exact hnd _ hg0 (Nat.le_refl _)
        · have hcmp := (List.pairwise_cons.mp hpw).1 g h1
          have hgne : g ≠ [] := hne g (List.mem_cons_of_mem _ h1)
          exact hnd g hgne (MP.Compare_lt_head_le hg0 hgne hcmp)
      · rw [if_neg hgt] at hfd
        by_cases hdvd : MM.IsDivide gLM lm
        · rw [if_pos hdvd] at hfd
          exact absurd (Option.some.inj hfd) (by simp)
        · rw [if_neg hdvd] at hfd
          rcases List.mem_cons.mp hg with h1 | h1
          · subst h1
            show MM.IsDivide gLM lm = false
            simpa using hdvd
          · exact ih (fun g' hg' => hne g' (List.mem_cons_of_mem _ hg'))
              (List.pairwise_cons.mp hpw).2 hfd g h1

theorem Ideal.findDivisor_some_sound {lm : Nat} {g : List Nat} :
    ∀ {I : List (List Nat)}, Ideal.findDivisor lm I = some (some g) →
      g ∈ I ∧ MM.IsDivide (MP.LM g) lm = true ∧ g ≠ [] := by
  intro I
  induction I with
  | nil => intro h; exact absurd (Option.some.inj h) (by simp)
  | cons g0 gs ih =>
    intro hfd
    cases hg0e : g0 with
    | nil =>
      subst hg0e
      simp [Ideal.findDivisor] at hfd
    | cons gLM gTail =>
      subst hg0e
      simp only [Ideal.findDivisor] at hfd
      by_cases hgt : gLM > lm
      · rw [if_pos hgt] at hfd
        exact absurd (Option.some.inj hfd) (by simp)
      · rw [if_neg hgt] at hfd
        by_cases hdvd : MM.IsDivide gLM lm
        · rw [if_pos hdvd] at hfd
          have he : gLM :: gTail = g := Option.some.inj (Option.some.inj hfd)
          subst he
          exact ⟨List.mem_cons_self _ _, by simpa using hdvd, by simp⟩
        · rw [if_neg hdvd] at hfd
          obtain ⟨h1, h2, h3⟩ := ih hfd
          exact ⟨List.mem_cons_of_mem _ h1, h2, h3⟩

theorem Ideal.findDivisor_ne_none {lm : Nat} :
    ∀ {I : List (List Nat)}, (∀ g ∈ I, g ≠ []) →
      Ideal.findDivisor lm I ≠ none := by
  intro I
  induction I with
  | nil => intro _ h; exact absurd h (by simp [Ideal.findDivisor])
  | cons g0 gs ih =>
    intro hne h
    cases hg0e : g0 with
    | nil => exact absurd hg0e (hne g0 (List.mem_cons_self g0 gs))
    | cons gLM gTail =>
      subst hg0e
      simp only [Ideal.findDivisor] at h
      by_cases hgt : gLM > lm
      · rw [if_pos hgt] at h
        exact absurd h (by simp)
      · rw [if_neg hgt] at h
        by_cases hdvd : MM.IsDivide gLM lm
        · rw [if_pos hdvd] at h
          exact absurd h (by simp)
        · rw [if_neg hdvd] at h
          exact ih (fun g' hg' => hne g' (List.mem_cons_of_mem _ hg')) h

/-- Main invariant of the Ideal::Reduce loop: with a well-formed basis
the loop returns normally and every monomial it emits to the normal
form is divisible by no basis leading monomial. -/
theorem Ideal.reduceAux_core (I : List (List Nat))
    (hne : ∀ g ∈ I, g ≠ [] ∧ MP.Desc g)
    (hpw : List.Pairwise (fun a b => MP.Compare a b < 0) I) :
    ∀ fuel content, MP.Desc content → MP.encP content < fuel →
      ∃ r, Ideal.reduceAux I fuel content = some r ∧
        ∀ μ ∈ r.2, ∀ g ∈ I, MM.IsDivide (MP.LM g) μ = false := by
  intro fuel
  induction fuel with
  | zero =>
    intro content _ hf
    exact absurd hf (by omega)
  | succ fuel ih =>
    intro content hdc hf
    cases content with
    | nil =>
      refine ⟨(false, []), rfl, ?_⟩
      intro μ hμ
      exact absurd hμ (List.not_mem_nil μ)
    | cons lm rest =>
      have hrest_lt : ∀ z ∈ rest, z < lm := (List.pairwise_cons.mp hdc).1
      have hdrest : MP.Desc rest := (List.pairwise_cons.mp hdc).2
      have hencc : MP.encP (lm :: rest) = 2 ^ lm + MP.encP rest := rfl
      cases hfd : Ideal.findDivisor lm I with
      | none =>
        exact absurd hfd (Ideal.findDivisor_ne_none (fun g hg => (hne g hg).1))
      | some o =>
        cases o with
        | none =>
          have hfr : MP.encP rest < fuel := by
            have h1 : 0 < 2 ^ lm := Nat.pos_pow_of_pos lm (by omega)
            omega
          obtain ⟨r, hr, hprop⟩ := ih rest hdrest hfr
          refine ⟨(r.1, lm :: r.2), ?_, ?_⟩
          · show Ideal.reduceAux I (fuel + 1) (lm :: rest) = _
            simp only [Ideal.reduceAux, hfd, hr]
          · intro μ hμ
            rcases List.mem_cons.mp hμ with h1 | h1
            · subst h1
              exact Ideal.findDivisor_none_sound (fun g hg => (hne g hg).1)
                hpw hfd
            · exact hprop μ h1
        | some g =>
          obtain ⟨hgI, hgdvd, hgne⟩ := Ideal.findDivisor_some_sound hfd
          cases hge : g with
          | nil => exact absurd hge hgne
          | cons gLM gTail =>
            subst hge
            have hdg : MP.Desc (gLM :: gTail) := (hne _ hgI).2
            have hgt_lt : ∀ m ∈ gTail, m < gLM := (List.pairwise_cons.mp hdg).1
            have hdvd2 : MM.IsDivisibleBy lm gLM = true := hgdvd
            have hql : gLM ||| MM.div lm gLM = lm := lor_andNot_of_div hdvd2
            have htd : MM.div lm gLM &&& gLM = 0 := andNot_land_self lm gLM
            have hAlt : ∀ z ∈ MP.mulM gTail (MM.div lm gLM), z < lm := by
              intro z hz
              obtain ⟨y, hy, he⟩ := MP.mem_mulM_exists hz
              have := lor_lt_lor_of_lt (hgt_lt y hy) htd
              rw [hql] at this
              rw [he]
              exact this
            have hdc2 : MP.Desc (MP.SymDiff rest (MP.mulM gTail (MM.div lm gLM))) :=
              MP.Desc_SymDiff hdrest (MP.Desc_mulM _ _)
            have hc2lt : ∀ z ∈ MP.SymDiff rest (MP.mulM gTail (MM.div lm gLM)),
                z < lm := by
              intro z hz
              rcases MP.SymDiff_subset hz with h1 | h1
              · exact hrest_lt z h1
              · exact hAlt z h1
            have hfc2 : MP.encP (MP.SymDiff rest (MP.mulM gTail (MM.div lm gLM)))
                < fuel := by
              have h1 := MP.encP_lt_of_bound hdc2 hc2lt
              omega
            obtain ⟨r, hr, hprop⟩ := ih _ hdc2 hfc2
            refine ⟨(true, r.2), ?_, hprop⟩
            show Ideal.reduceAux I (fuel + 1) (lm :: rest) = _
            simp only [Ideal.reduceAux, hfd, List.tail_cons]
            rw [show MP.LM (gLM :: gTail) = gLM from rfl, hr]

/- ===================== claims C1 and C9 ===================== -/

/-- C1: Ideal::Reduce computes a normal form.  For every well-formed
ideal I and normalized polynomial p (consistency of the orders is
automatic in this embedding: all parties use the default lex order),
the call returns normally and the result is either the zero polynomial
or every one of its monomials (in particular the leading one) is
divisible by no leading monomial of I. -/
theorem C1_reduce_normal_form (I : List (List Nat)) (p : List Nat)
    (hI : Ideal.WF I) (hp : MP.Desc p) :
    ∃ changed rem, Ideal.Reduce I p = some (changed, rem) ∧
      (rem = [] ∨ ∀ μ ∈ rem, ∀ g ∈ I, MM.IsDivide (MP.LM g) μ = false) := by
  obtain ⟨r, hr, hprop⟩ :=
    Ideal.reduceAux_core I hI.1 hI.2 (MP.encP p + 1) p hp (by omega)
  exact ⟨r.1, r.2, hr, Or.inr hprop⟩

theorem C1_reduce_normal_form_witness :
    Ideal.WF [[1]] ∧ MP.Desc [1, 0] ∧
      ∃ changed rem, Ideal.Reduce [[1]] [1, 0] = some (changed, rem) ∧
        (rem = [] ∨ ∀ μ ∈ rem, ∀ g ∈ [[1]], MM.IsDivide (MP.LM g) μ = false) := by
  refine ⟨?_, ?_, C1_reduce_normal_form [[1]] [1, 0] ?_ ?_⟩
  · constructor
    · intro g hg
      rcases List.mem_cons.mp hg with h | h
      · subst h; exact ⟨by decide, by decide⟩
      · exact absurd h (List.not_mem_nil g)
    · exact List.pairwise_singleton _ _
  · decide
  · constructor
    · intro g hg
      rcases List.mem_cons.mp hg with h | h
      · subst h; exact ⟨by decide, by decide⟩
      · exact absurd h (List.not_mem_nil g)
    · exact List.pairwise_singleton _ _
  · decide

theorem Ideal.reduceAux_nil_ideal :
    ∀ fuel content, MP.encP content < fuel →
      Ideal.reduceAux [] fuel content = some (false, content) := by
  intro fuel
  induction fuel with
  | zero => intro content hf; exact absurd hf (by omega)
  | succ fuel ih =>
    intro content hf
    cases content with
    | nil => rfl
    | cons lm rest =>
      have h1 : 0 < 2 ^ lm := Nat.pos_pow_of_pos lm (by omega)
      have hencc : MP.encP (lm :: rest) = 2 ^ lm + MP.encP rest := rfl
      have hfr : MP.encP rest < fuel := by omega
      show Ideal.reduceAux [] (fuel + 1) (lm :: rest) = _
      simp only [Ideal.reduceAux, Ideal.findDivisor, ih rest hfr]

/-- C9 counterexample: reduction by the empty ideal is not rejected:
Ideal::Reduce contains no emptiness check and returns normally with the
polynomial unchanged (changed = false), here at p = x0. -/
theorem C9_empty_reduce_counterexample :
    Ideal.Reduce [] [1] = some (false, [1]) := by
  exact Ideal.reduceAux_nil_ideal (MP.encP [1] + 1) [1] (by omega)

/-- C9 (amended): division of a nonzero polynomial by the zero
polynomial is rejected at the call site - the first loop iteration of
MP::Mod / MP::Div evaluates LM() of the zero divisor, violating the
assert precondition of MP::LM (a distinguished failure, modelled as
none); for the zero dividend the loop body is never entered and the
call returns normally.  Reduction by an empty ideal is NOT rejected:
Ideal::Reduce has no such check and returns the polynomial unchanged. -/
theorem C9_zero_divisor (p : List Nat) (hp : MP.Desc p) :
    (p ≠ [] → MP.Mod p [] = none ∧ MP.Div p [] = none) ∧
      (MP.Mod [] [] = some (false, []) ∧ MP.Div [] [] = some []) ∧
      Ideal.Reduce [] p = some (false, p) := by
  refine ⟨?_, ⟨rfl, rfl⟩, ?_⟩
  · intro hp0
    have he : p.isEmpty = false := by
      cases p with
      | nil => exact absurd rfl hp0
      | cons a l => rfl
    constructor
    · show (if p.isEmpty then some (false, p) else none) = none
      rw [he]
      rfl
    · show (if p.isEmpty then some [] else none) = none
      rw [he]
      rfl
  · exact Ideal.reduceAux_nil_ideal (MP.encP p + 1) p (by omega)

theorem C9_zero_divisor_witness :
    MP.Desc [2, 1] ∧ (MP.Mod [2, 1] [] = none ∧ MP.Div [2, 1] [] = none) ∧
      (MP.Mod [] [] = some (false, []) ∧ MP.Div [] [] = some []) ∧
      Ideal.Reduce [] [2, 1] = some (false, [2, 1]) :=
  ⟨by decide, (C9_zero_divisor [2, 1] (by decide)).1 (by decide),
    (C9_zero_divisor [2, 1] (by decide)).2.1,
    (C9_zero_divisor [2, 1] (by decide)).2.2⟩

/- ============== Geobucket: MP::Geobucket (mp.h / mpoly.h) ============== -/

/-- Total number of monomials stored in the buckets. -/
def GB.totalSize (bs : List (List Nat)) : Nat := (bs.map List.length).sum

/-- Geobucket::NewBucket - append an empty bucket; the new maximal size
is d times the last one. -/
def GB.newBucket (d : Nat) (bs : List (List Nat)) (ms : List Nat) :
    List (List Nat) × List Nat :=
  (bs ++ [[]], ms ++ [d * ms.getLastD 0])

/-- Geobucket constructor: one empty bucket of maximal size d. -/
def GB.init (d : Nat) : List (List Nat) × List Nat := ([[]], [d])

/-- Shared spill loop of Geobucket::SymDiff(monom) (j = 0) and
Geobucket::SymDiffSplice (j = target bucket): while bucket j overflows
the maximal size at index i, the next bucket is merged into it (and
emptied), growing the bucket list on demand.  The structural counter is
given a provably sufficient value by the wrappers below. -/
def GB.spillLoopJ (d j : Nat) :
    Nat → List (List Nat) → List Nat → Nat → List (List Nat) × List Nat × Nat
  | 0, bs, ms, i => (bs, ms, i)
  | fuel + 1, bs, ms, i =>
    if (bs.getD j []).length > ms.getD i 0 then
      if i + 1 = ms.length then
        GB.spillLoopJ d j fuel
          (((bs ++ [[]]).set j
              (MP.SymDiff ((bs ++ [[]]).getD j []) ((bs ++ [[]]).getD (i + 1) []))).set
            (i + 1) [])
          (ms ++ [d * ms.getLastD 0]) (i + 1)
      else
        GB.spillLoopJ d j fuel
          ((bs.set j (MP.SymDiff (bs.getD j []) (bs.getD (i + 1) []))).set (i + 1) [])
          ms (i + 1)
    else (bs, ms, i)

/-- Geobucket final exchange: _buckets[i].Swap(_buckets[j]). -/
def GB.swap2 (bs : List (List Nat)) (i j : Nat) : List (List Nat) :=
  (bs.set i (bs.getD j [])).set j (bs.getD i [])

/-- Geobucket::SymDiff(monom): the monomial is added to bucket 0, which
is then spilled forward while it overflows; finally buckets i and 0 are
exchanged. -/
def GB.SymDiffM (d : Nat) (bs : List (List Nat)) (ms : List Nat) (m : Nat) :
    List (List Nat) × List Nat :=
  let bs1 := bs.set 0 (MP.SymDiff (bs.getD 0 []) [m])
  let r := GB.spillLoopJ d 0 (GB.totalSize bs1 + 1) bs1 ms 0
  (GB.swap2 r.1 r.2.2 0, r.2.1)

/-- First loop of Geobucket::SymDiffSplice: find the smallest bucket
index whose maximal size fits the polynomial, growing on demand. -/
def GB.findBucket (d psize : Nat) :
    Nat → List (List Nat) → List Nat → Nat → List (List Nat) × List Nat × Nat
  | 0, bs, ms, i => (bs, ms, i)
  | fuel + 1, bs, ms, i =>
    if psize > ms.getD i 0 then
      if i + 1 = ms.length then
        GB.findBucket d psize fuel (bs ++ [[]]) (ms ++ [d * ms.getLastD 0]) (i + 1)
      else GB.findBucket d psize fuel bs ms (i + 1)
    else (bs, ms, i)

/-- Geobucket::SymDiffSplice(poly): the polynomial is merged into the
first bucket j that fits it, the bucket is spilled forward while it
overflows, and finally buckets i and j are exchanged. -/
def GB.SymDiffSplice (d : Nat) (bs : List (List Nat)) (ms : List Nat)
    (p : List Nat) : List (List Nat) × List Nat :=
  let f := GB.findBucket d p.length (p.length + 1) bs ms 0
  let j := f.2.2
  let bsj := f.1.set j (MP.SymDiff (f.1.getD j []) p)
  let r := GB.spillLoopJ d j (GB.totalSize bsj + 1) bsj f.2.1 j
  (GB.swap2 r.1 r.2.2 j, r.2.1)

/-- One scan of Geobucket::PopLM: j runs from the last bucket down,
tracking the position i of the largest leading monomial seen; a second
bucket with the same leading monomial stops the scan with the pair to
cancel. -/
inductive GB.ScanResult where
  | clean : Option (Nat × Nat) → GB.ScanResult
  | dup : Nat → Nat → GB.ScanResult

def GB.scan (bs : List (List Nat)) : Nat → Option (Nat × Nat) → GB.ScanResult
  | 0, cand => GB.ScanResult.clean cand
  | jj + 1, cand =>
    match bs.getD jj [] with
    | [] => GB.scan bs jj cand
    | lmj :: _ =>
      match cand with
      | none => GB.scan bs jj (some (jj, lmj))
      | some (i, lm) =>
        if lmj > lm then GB.scan bs jj (some (jj, lmj))
        else if lmj = lm then GB.ScanResult.dup i jj
        else GB.scan bs jj (some (i, lm))

/-- Geobucket::PopLM: scan for the maximal leading monomial, cancelling
equal leading monomials across buckets (each cancellation removes two
monomials and restarts the scan). -/
def GB.popLMAux : Nat → List (List Nat) → Option Nat × List (List Nat)
  | 0, bs => (none, bs)
  | fuel + 1, bs =>
    match GB.scan bs bs.length none with
    | GB.ScanResult.clean none => (none, bs)
    | GB.ScanResult.clean (some (i, _)) =>
      (some (MP.LM (bs.getD i [])), bs.set i (bs.getD i []).tail)
    | GB.ScanResult.dup i j =>
      GB.popLMAux fuel
        ((bs.set i (bs.getD i []).tail).set j (bs.getD j []).tail)

def GB.PopLM (bs : List (List Nat)) : Option Nat × List (List Nat) :=
  GB.popLMAux (GB.totalSize bs + 1) bs

/-- Geobucket::Mount: the buckets are spliced one after the other into
the output polynomial; each bucket keeps the monomials it shared with
the accumulated sum (the leftovers of SymDiffSplice). -/
def GB.mountAux : List (List Nat) → List Nat → List Nat × List (List Nat)
  | [], acc => (acc, [])
  | b :: rest, acc =>
    let r := GB.mountAux rest (MP.SymDiff acc b)
    (r.1, b.filter (fun x => acc.contains x) :: r.2)

def GB.Mount (bs : List (List Nat)) : List Nat × List (List Nat) :=
  GB.mountAux bs []

/-- Geobucket size invariant of the specification: bucket k holds at
most d^(k+1) monomials, and the stored maximal sizes are exactly the
powers d^(k+1). -/
def GB.Inv (d : Nat) (bs : List (List Nat)) (ms : List Nat) : Prop :=
  bs.length = ms.length ∧ 1 ≤ bs.length ∧
    (∀ k, k < ms.length → ms.getD k 0 = d ^ (k + 1)) ∧
    (∀ k, k < bs.length → (bs.getD k []).length ≤ d ^ (k + 1))

/- ======== helper lemmas for the geobucket ======== -/

theorem getD_set_self {l : List (List Nat)} {k : Nat} {x : List Nat}
    (h : k < l.length) : (l.set k x).getD k [] = x := by
  simp [List.getD_eq_getElem?_getD, List.getElem?_set_self, h]

theorem getD_set_ne {l : List (List Nat)} {k j : Nat} {x : List Nat}
    (h : k ≠ j) : (l.set k x).getD j [] = l.getD j [] := by
  simp [List.getD_eq_getElem?_getD, List.getElem?_set_ne, h]

theorem MP.length_SymDiff :
    ∀ a b : List Nat, (MP.SymDiff a b).length ≤ a.length + b.length := by
  intro a
  induction a with
  | nil => intro b; simp [MP.SymDiff_nil_left]
  | cons x xs ih =>
    intro b
    induction b with
    | nil => simp [MP.SymDiff_nil_right]
    | cons y ys ihb =>
      rw [MP.SymDiff_cons_cons]
      by_cases hxy : x > y
      · rw [if_pos hxy]
        have := ih (y :: ys)
        simp only [List.length_cons] at this ⊢
        omega
      · by_cases hyx : y > x
        · rw [if_neg hxy, if_pos hyx]
          simp only [List.length_cons] at ihb ⊢
          omega
        · rw [if_neg hxy, if_neg hyx]
          have := ih ys
          simp only [List.length_cons]
          omega

theorem GB.totalSize_set {bs : List (List Nat)} {k : Nat} {x : List Nat} :
    ∀ _ : k < bs.length,
      GB.totalSize (bs.set k x) + (bs.getD k []).length
        = GB.totalSize bs + x.length := by
  induction bs generalizing k with
  | nil => intro h; exact absurd h (by simp)
  | cons b rest ih =>
    intro h
    cases k with
    | zero =>
      show GB.totalSize (x :: rest) + b.length = GB.totalSize (b :: rest) + x.length
      show x.length + GB.totalSize rest + b.length
        = b.length + GB.totalSize rest + x.length
      omega
    | succ k =>
      have hk : k < rest.length := by
        simp only [List.length_cons] at h
        omega
      have := ih hk
      show GB.totalSize (b :: rest.set k x) + (rest.getD k []).length
        = GB.totalSize (b :: rest) + x.length
      show b.length + GB.totalSize (rest.set k x) + (rest.getD k []).length
        = b.length + GB.totalSize rest + x.length
      omega

theorem GB.getD_le_totalSize {bs : List (List Nat)} {k : Nat} :
    (bs.getD k []).length ≤ GB.totalSize bs := by
  induction bs generalizing k with
  | nil => simp [GB.totalSize, List.getD]
  | cons b rest ih =>
    cases k with
    | zero =>
      show b.length ≤ GB.totalSize (b :: rest)
      show b.length ≤ b.length + GB.totalSize rest
      omega
    | succ k =>
      show (rest.getD k []).length ≤ GB.totalSize (b :: rest)
      have := @ih k
      show (rest.getD k []).length ≤ b.length + GB.totalSize rest
      omega

theorem getD_set_out {l : List (List Nat)} {k j : Nat} {x : List Nat}
    (h : l.length ≤ k) : (l.set k x).getD j [] = l.getD j [] := by
  rw [List.set_eq_of_length_le h]

theorem getD_append_left {l : List Nat} {x k : Nat} (h : k < l.length) :
    (l ++ [x]).getD k 0 = l.getD k 0 := by
  simp [List.getD_eq_getElem?_getD, List.getElem?_append_left h]

theorem getD_append_len {l : List Nat} {x : Nat} :
    (l ++ [x]).getD l.length 0 = x := by
  simp [List.getD_eq_getElem?_getD]

theorem getDP_append_left {l : List (List Nat)} {x : List Nat} {k : Nat}
    (h : k < l.length) : (l ++ [x]).getD k [] = l.getD k [] := by
  simp [List.getD_eq_getElem?_getD, List.getElem?_append_left h]

theorem getDP_append_len {l : List (List Nat)} {x : List Nat} :
    (l ++ [x]).getD l.length [] = x := by
  simp [List.getD_eq_getElem?_getD]

theorem getLastD_eq_getD :
    ∀ l : List Nat, l ≠ [] → l.getLastD 0 = l.getD (l.length - 1) 0 := by
  intro l
  induction l with
  | nil => intro h; exact absurd rfl h
  | cons x rest ih =>
    intro _
    cases rest with
    | nil => rfl
    | cons y r2 =>
      have := ih (by simp)
      simpa [List.getLastD] using this

theorem GB.totalSize_append_nil (bs : List (List Nat)) :
    GB.totalSize (bs ++ [[]]) = GB.totalSize bs := by
  simp [GB.totalSize]

/-- Postcondition of the shared spill loop: lengths agree, the final
index i is within range and at least j, the maximal sizes are the powers
of d, all buckets other than j keep their bound, the final bucket i is
empty unless i = j, and bucket j fits below the maximal size at i. -/
def GB.SpillPost (d j : Nat) (r : List (List Nat) × List Nat × Nat) : Prop :=
  r.1.length = r.2.1.length ∧ r.2.2 < r.2.1.length ∧ j ≤ r.2.2 ∧
    (∀ k, k < r.2.1.length → r.2.1.getD k 0 = d ^ (k + 1)) ∧
    (∀ k, k < r.1.length → k ≠ j → (r.1.getD k []).length ≤ d ^ (k + 1)) ∧
    (r.2.2 = j ∨ r.1.getD r.2.2 [] = []) ∧
    (r.1.getD j []).length ≤ d ^ (r.2.2 + 1)

theorem GB.spillLoopJ_spec (d : Nat) (hd : 2 ≤ d) (j T : Nat) :
    ∀ fuel bs ms i,
      bs.length = ms.length →
      i < ms.length →
      j ≤ i →
      (∀ k, k < ms.length → ms.getD k 0 = d ^ (k + 1)) →
      (∀ k, k < bs.length → k ≠ j → (bs.getD k []).length ≤ d ^ (k + 1)) →
      (i = j ∨ bs.getD i [] = []) →
      GB.totalSize bs ≤ T →
      T + 1 ≤ fuel + i →
      GB.SpillPost d j (GB.spillLoopJ d j fuel bs ms i) := by
  intro fuel
  induction fuel with
  | zero =>
    intro bs ms i hlen hi hji hms hbnd hemp hts hfuel
    have h1 : (bs.getD j []).length ≤ T := le_trans GB.getD_le_totalSize hts
    have h2 : i < 2 ^ i := Nat.lt_two_pow i
    have h3 : (2:Nat) ^ i ≤ 2 ^ (i+1) := Nat.pow_le_pow_right (by omega) (by omega)
    have h4 : (2:Nat) ^ (i+1) ≤ d ^ (i+1) := Nat.pow_le_pow_left hd _
    refine ⟨hlen, hi, hji, hms, hbnd, hemp, ?_⟩
    show (bs.getD j []).length ≤ d ^ (i + 1)
    omega
  | succ fuel ih =>
    intro bs ms i hlen hi hji hms hbnd hemp hts hfuel
    simp only [GB.spillLoopJ]
    by_cases hcond : (bs.getD j []).length > ms.getD i 0
    · rw [if_pos hcond]
      have hjlt : j < bs.length := by omega
      by_cases hgrow : i + 1 = ms.length
      · rw [if_pos hgrow]
        apply ih
        · simp [hlen]
        · simp; omega
        · omega
        · intro k hk
          simp only [List.length_append, List.length_singleton] at hk
          rcases Nat.lt_or_ge k ms.length with hk2 | hk2
          · rw [getD_append_left hk2]; exact hms k hk2
          · have hkeq : k = ms.length := by omega
            subst hkeq
            rw [getD_append_len]
            have hne : ms ≠ [] := by
              intro h; rw [h] at hi; exact absurd hi (by simp)
            rw [getLastD_eq_getD ms hne, hms (ms.length - 1) (by omega)]
            have : ms.length - 1 + 1 = ms.length := by omega
            rw [this, ← pow_succ']
        · intro k hk hkj
          simp only [List.length_set, List.length_append,
            List.length_singleton] at hk
          by_cases hki : k = i + 1
          · subst hki
            rw [getD_set_self (by simp [hlen]; omega)]
            exact Nat.zero_le _
          · rw [getD_set_ne (fun h => hki h.symm), getD_set_ne (fun h => hkj h.symm)]
            have hklt : k < bs.length := by omega
            rw [getDP_append_left hklt]
            exact hbnd k hklt hkj
        · right
          rw [getD_set_self (by simp [hlen]; omega)]
        · have hjlt2 : j < (bs ++ [[]]).length := by simp; omega
          have hilt2 : i + 1 < ((bs ++ [[]]).set j
              (MP.SymDiff ((bs ++ [[]]).getD j []) ((bs ++ [[]]).getD (i+1) []))).length := by
            simp [hlen]; omega
          have e1 := GB.totalSize_set (x := MP.SymDiff ((bs ++ [[]]).getD j [])
            ((bs ++ [[]]).getD (i+1) [])) hjlt2
          have e2 := GB.totalSize_set (x := ([] : List Nat)) hilt2
          have e3 : ((bs ++ [[]]).set j
              (MP.SymDiff ((bs ++ [[]]).getD j []) ((bs ++ [[]]).getD (i+1) []))).getD
                (i+1) [] = (bs ++ [[]]).getD (i+1) [] :=
            getD_set_ne (by omega)
          have e4 := MP.length_SymDiff ((bs ++ [[]]).getD j []) ((bs ++ [[]]).getD (i+1) [])
          have e5 := GB.totalSize_append_nil bs
          rw [e3] at e2
          simp only [List.length_nil] at e2
          omega
        · omega
      · rw [if_neg hgrow]
        apply ih
        · simp [hlen]
        · omega
        · omega
        · exact hms
        · intro k hk hkj
          simp only [List.length_set] at hk
          by_cases hki : k = i + 1
          · subst hki
            rw [getD_set_self (by simp [hlen]; omega)]
            exact Nat.zero_le _
          · rw [getD_set_ne (fun h => hki h.symm), getD_set_ne (fun h => hkj h.symm)]
            exact hbnd k (by omega) hkj
        · right
          rw [getD_set_self (by simp [hlen]; omega)]
        · have hilt2 : i + 1 < (bs.set j
              (MP.SymDiff (bs.getD j []) (bs.getD (i+1) []))).length := by
            simp; omega
          have e1 := GB.totalSize_set (x := MP.SymDiff (bs.getD j [])
            (bs.getD (i+1) [])) hjlt
          have e2 := GB.totalSize_set (x := ([] : List Nat)) hilt2
          have e3 : (bs.set j
              (MP.SymDiff (bs.getD j []) (bs.getD (i+1) []))).getD (i+1) []
                = bs.getD (i+1) [] :=
            getD_set_ne (by omega)
          have e4 := MP.length_SymDiff (bs.getD j []) (bs.getD (i+1) [])
          rw [e3] at e2
          simp only [List.length_nil] at e2
          omega
        · omega
    · rw [if_neg hcond]
      refine ⟨hlen, hi, hji, hms, hbnd, hemp, ?_⟩
      have := hms i hi
      show (bs.getD j []).length ≤ d ^ (i + 1)
      omega

/-- Postcondition of the bucket search loop: state well-formed, all
bucket bounds kept, total content unchanged, and the polynomial fits
below the maximal size of the selected bucket. -/
def GB.FindPost (d psize T : Nat) (r : List (List Nat) × List Nat × Nat) : Prop :=
  r.1.length = r.2.1.length ∧ r.2.2 < r.2.1.length ∧
    (∀ k, k < r.2.1.length → r.2.1.getD k 0 = d ^ (k + 1)) ∧
    (∀ k, k < r.1.length → (r.1.getD k []).length ≤ d ^ (k + 1)) ∧
    GB.totalSize r.1 = T ∧ psize ≤ d ^ (r.2.2 + 1)

theorem GB.findBucket_spec (d : Nat) (hd : 2 ≤ d) (psize T : Nat) :
    ∀ fuel bs ms i,
      bs.length = ms.length →
      i < ms.length →
      (∀ k, k < ms.length → ms.getD k 0 = d ^ (k + 1)) →
      (∀ k, k < bs.length → (bs.getD k []).length ≤ d ^ (k + 1)) →
      GB.totalSize bs = T →
      psize + 1 ≤ fuel + i →
      GB.FindPost d psize T (GB.findBucket d psize fuel bs ms i) := by
  intro fuel
  induction fuel with
  | zero =>
    intro bs ms i hlen hi hms hbnd hts hfuel
    have h2 : i < 2 ^ i := Nat.lt_two_pow i
    have h3 : (2:Nat) ^ i ≤ 2 ^ (i+1) := Nat.pow_le_pow_right (by omega) (by omega)
    have h4 : (2:Nat) ^ (i+1) ≤ d ^ (i+1) := Nat.pow_le_pow_left hd _
    refine ⟨hlen, hi, hms, hbnd, hts, ?_⟩
    show psize ≤ d ^ (i + 1)
    omega
  | succ fuel ih =>
    intro bs ms i hlen hi hms hbnd hts hfuel
    simp only [GB.findBucket]
    by_cases hcond : psize > ms.getD i 0
    · rw [if_pos hcond]
      by_cases hgrow : i + 1 = ms.length
      · rw [if_pos hgrow]
        apply ih
        · simp [hlen]
        · simp; omega
        · intro k hk
          simp only [List.length_append, List.length_singleton] at hk
          rcases Nat.lt_or_ge k ms.length with hk2 | hk2
          · rw [getD_append_left hk2]; exact hms k hk2
          · have hkeq : k = ms.length := by omega
            subst hkeq
            rw [getD_append_len]
            have hne : ms ≠ [] := by
              intro h; rw [h] at hi; exact absurd hi (by simp)
            rw [getLastD_eq_getD ms hne, hms (ms.length - 1) (by omega)]
            have : ms.length - 1 + 1 = ms.length := by omega
            rw [this, ← pow_succ']
        · intro k hk
          simp only [List.length_append, List.length_singleton] at hk
          rcases Nat.lt_or_ge k bs.length with hk2 | hk2
          · rw [getDP_append_left hk2]; exact hbnd k hk2
          · have hkeq : k = bs.length := by omega
            subst hkeq
            rw [getDP_append_len]
            exact Nat.zero_le _
        · rw [GB.totalSize_append_nil]; exact hts
        · omega
      · rw [if_neg hgrow]
        apply ih bs ms (i + 1) hlen (by omega) hms hbnd hts (by omega)
    · rw [if_neg hcond]
      refine ⟨hlen, hi, hms, hbnd, hts, ?_⟩
      have := hms i hi
      show psize ≤ d ^ (i + 1)
      omega

theorem GB.length_swap2 (bs : List (List Nat)) (i j : Nat) :
    (GB.swap2 bs i j).length = bs.length := by
  simp [GB.swap2]

/-- The final bucket exchange turns the spill-loop postcondition into
the geobucket invariant. -/
theorem GB.swap_inv {d j : Nat} {r : List (List Nat) × List Nat × Nat}
    (h : GB.SpillPost d j r) : GB.Inv d (GB.swap2 r.1 r.2.2 j) r.2.1 := by
  obtain ⟨hlen, hi, hji, hms, hbnd, hemp, hjb⟩ := h
  have hjlt : j < r.1.length := by omega
  have hilt : r.2.2 < r.1.length := by omega
  refine ⟨by simp [GB.swap2, hlen], by simp [GB.swap2]; omega, hms, ?_⟩
  intro k hk
  rw [GB.length_swap2] at hk
  unfold GB.swap2
  by_cases hkj : k = j
  · subst hkj
    rw [getD_set_self (by simpa using hjlt)]
    rcases hemp with he | he
    · rw [he] at hjb ⊢
      exact hjb
    · rw [he]
      exact Nat.zero_le _
  · by_cases hki : k = r.2.2
    · subst hki
      rw [getD_set_ne (fun hh => hkj hh.symm), getD_set_self hilt]
      exact hjb
    · rw [getD_set_ne (fun hh => hkj hh.symm), getD_set_ne (fun hh => hki hh.symm)]
      exact hbnd k hk hkj

/-- Geobucket::SymDiff(monom) preserves the size invariant. -/
theorem GB.SymDiffM_Inv (d : Nat) (hd : 2 ≤ d) (bs : List (List Nat))
    (ms : List Nat) (m : Nat) (h : GB.Inv d bs ms) :
    GB.Inv d (GB.SymDiffM d bs ms m).1 (GB.SymDiffM d bs ms m).2 := by
  obtain ⟨hlen, hone, hms, hbnd⟩ := h
  have hs := GB.spillLoopJ_spec d hd 0
    (GB.totalSize (bs.set 0 (MP.SymDiff (bs.getD 0 []) [m])))
    (GB.totalSize (bs.set 0 (MP.SymDiff (bs.getD 0 []) [m])) + 1)
    (bs.set 0 (MP.SymDiff (bs.getD 0 []) [m])) ms 0
    (by simp [hlen]) (by omega) (Nat.le_refl 0) hms
    (fun k hk hk0 => by
      rw [getD_set_ne (fun hh => hk0 hh.symm)]
      exact hbnd k (by simpa using hk) )
    (Or.inl rfl) (Nat.le_refl _) (by omega)
  exact GB.swap_inv hs

/-- Geobucket::SymDiffSplice(poly) preserves the size invariant. -/
theorem GB.SymDiffSplice_Inv (d : Nat) (hd : 2 ≤ d) (bs : List (List Nat))
    (ms : List Nat) (p : List Nat) (h : GB.Inv d bs ms) :
    GB.Inv d (GB.SymDiffSplice d bs ms p).1 (GB.SymDiffSplice d bs ms p).2 := by
  obtain ⟨hlen, hone, hms, hbnd⟩ := h
  obtain ⟨f1, f2, f3, f4, f5, f6⟩ :=
    GB.findBucket_spec d hd p.length (GB.totalSize bs) (p.length + 1) bs ms 0
      hlen (by omega) hms hbnd rfl (by omega)
  have hs := GB.spillLoopJ_spec d hd
    (GB.findBucket d p.length (p.length + 1) bs ms 0).2.2
    (GB.totalSize ((GB.findBucket d p.length (p.length + 1) bs ms 0).1.set
      (GB.findBucket d p.length (p.length + 1) bs ms 0).2.2
      (MP.SymDiff ((GB.findBucket d p.length (p.length + 1) bs ms 0).1.getD
        (GB.findBucket d p.length (p.length + 1) bs ms 0).2.2 []) p)))
    (GB.totalSize ((GB.findBucket d p.length (p.length + 1) bs ms 0).1.set
      (GB.findBucket d p.length (p.length + 1) bs ms 0).2.2
      (MP.SymDiff ((GB.findBucket d p.length (p.length + 1) bs ms 0).1.getD
        (GB.findBucket d p.length (p.length + 1) bs ms 0).2.2 []) p)) + 1)
    ((GB.findBucket d p.length (p.length + 1) bs ms 0).1.set
      (GB.findBucket d p.length (p.length + 1) bs ms 0).2.2
      (MP.SymDiff ((GB.findBucket d p.length (p.length + 1) bs ms 0).1.getD
        (GB.findBucket d p.length (p.length + 1) bs ms 0).2.2 []) p))
    (GB.findBucket d p.length (p.length + 1) bs ms 0).2.1
    (GB.findBucket d p.length (p.length + 1) bs ms 0).2.2
    (by simp [f1]) f2 (Nat.le_refl _) f3
    (fun k hk hkj => by
      rw [getD_set_ne (fun hh => hkj hh.symm)]
      exact f4 k (by simpa using hk) )
    (Or.inl rfl) (Nat.le_refl _) (by omega)
  exact GB.swap_inv hs

theorem tail_length_le (l : List Nat) : l.tail.length ≤ l.length := by
  cases l <;> simp

/-- Setting a bucket to a shorter list only shrinks every slot. -/
theorem GB.ptwise_set (bs : List (List Nat)) (i : Nat) (t : List Nat)
    (ht : t.length ≤ (bs.getD i []).length) (k : Nat) :
    ((bs.set i t).getD k []).length ≤ (bs.getD k []).length := by
  by_cases hki : i = k
  · subst hki
    by_cases hlt : i < bs.length
    · rw [getD_set_self hlt]; exact ht
    · rw [getD_set_out (by omega)]
  · rw [getD_set_ne hki]

theorem GB.popLMAux_ptwise :
    ∀ fuel bs, (GB.popLMAux fuel bs).2.length = bs.length ∧
      ∀ k, ((GB.popLMAux fuel bs).2.getD k []).length ≤ (bs.getD k []).length := by
  intro fuel
  induction fuel with
  | zero => intro bs; exact ⟨rfl, fun k => Nat.le_refl _⟩
  | succ fuel ih =>
    intro bs
    have heq : GB.popLMAux (fuel + 1) bs = match GB.scan bs bs.length none with
      | GB.ScanResult.clean none => (none, bs)
      | GB.ScanResult.clean (some (i, _)) =>
        (some (MP.LM (bs.getD i [])), bs.set i (bs.getD i []).tail)
      | GB.ScanResult.dup i j =>
        GB.popLMAux fuel
          ((bs.set i (bs.getD i []).tail).set j (bs.getD j []).tail) := rfl
    rw [heq]
    cases hscan : GB.scan bs bs.length none with
    | clean cand =>
      cases cand with
      | none => exact ⟨rfl, fun k => Nat.le_refl _⟩
      | some c =>
        obtain ⟨i, lm⟩ := c
        refine ⟨by simp, fun k => ?_⟩
        exact GB.ptwise_set bs i _ (tail_length_le _) k
    | dup i j =>
      have hih := ih ((bs.set i (bs.getD i []).tail).set j (bs.getD j []).tail)
      have hstep1 : ∀ k,
          ((bs.set i (bs.getD i []).tail).getD k []).length ≤ (bs.getD k []).length :=
        GB.ptwise_set bs i _ (tail_length_le _)
      have hstep2 : ∀ k,
          (((bs.set i (bs.getD i []).tail).set j (bs.getD j []).tail).getD k []).length
            ≤ ((bs.set i (bs.getD i []).tail).getD k []).length := by
        apply GB.ptwise_set
        by_cases hij : i = j
        · subst hij
          by_cases hlt : i < bs.length
          · rw [getD_set_self hlt]
          · rw [getD_set_out (by omega)]
            exact tail_length_le _
        · rw [getD_set_ne hij]
          exact tail_length_le _
      refine ⟨by simpa using hih.1, fun k => ?_⟩
      exact le_trans (hih.2 k) (le_trans (hstep2 k) (hstep1 k))

/-- Geobucket::PopLM preserves the size invariant. -/
theorem GB.PopLM_Inv (d : Nat) (bs : List (List Nat)) (ms : List Nat)
    (h : GB.Inv d bs ms) : GB.Inv d (GB.PopLM bs).2 ms := by
  obtain ⟨hlen, hone, hms, hbnd⟩ := h
  obtain ⟨hl, hp⟩ := GB.popLMAux_ptwise (GB.totalSize bs + 1) bs
  show GB.Inv d (GB.popLMAux (GB.totalSize bs + 1) bs).2 ms
  refine ⟨by rw [hl]; exact hlen, by rw [hl]; exact hone, hms, ?_⟩
  intro k hk
  rw [hl] at hk
  exact le_trans (hp k) (hbnd k hk)

theorem GB.mountAux_ptwise :
    ∀ bs acc, (GB.mountAux bs acc).2.length = bs.length ∧
      ∀ k, ((GB.mountAux bs acc).2.getD k []).length ≤ (bs.getD k []).length := by
  intro bs
  induction bs with
  | nil =>
    intro acc
    exact ⟨rfl, fun k => by cases k <;> exact Nat.le_refl _⟩
  | cons b rest ih =>
    intro acc
    refine ⟨by simp [GB.mountAux, (ih (MP.SymDiff acc b)).1], fun k => ?_⟩
    cases k with
    | zero =>
      show ((b.filter (fun x => acc.contains x))).length ≤ b.length
      exact List.length_filter_le _ _
    | succ k =>
      show ((GB.mountAux rest (MP.SymDiff acc b)).2.getD k []).length
        ≤ (rest.getD k []).length
      exact (ih (MP.SymDiff acc b)).2 k

/-- Geobucket::Mount preserves the size invariant (the buckets keep the
monomials shared with the accumulated output). -/
theorem GB.Mount_Inv (d : Nat) (bs : List (List Nat)) (ms : List Nat)
    (h : GB.Inv d bs ms) : GB.Inv d (GB.Mount bs).2 ms := by
  obtain ⟨hlen, hone, hms, hbnd⟩ := h
  obtain ⟨hl, hp⟩ := GB.mountAux_ptwise bs []
  show GB.Inv d (GB.mountAux bs []).2 ms
  refine ⟨by rw [hl]; exact hlen, by rw [hl]; exact hone, hms, ?_⟩
  intro k hk
  rw [hl] at hk
  exact le_trans (hp k) (hbnd k hk)

/-- The freshly constructed geobucket satisfies the invariant. -/
theorem GB.init_Inv (d : Nat) : GB.Inv d (GB.init d).1 (GB.init d).2 := by
  refine ⟨rfl, Nat.le_refl _, ?_, ?_⟩
  · intro k hk
    have hk0 : k = 0 := by simpa [GB.init] using hk
    subst hk0
    show d = d ^ 1
    rw [pow_one]
  · intro k hk
    have hk0 : k = 0 := by simpa [GB.init] using hk
    subst hk0
    exact Nat.zero_le _

/-- C8: for every geobucket with growth factor d (the library uses
d = 2, 3, 4; the loops require d ≥ 2), the size bound - bucket B_k holds
at most d^(k+1) monomials for every k - holds after construction and is
preserved by each of the primitives SymDiff(monom), SymDiffSplice(poly),
PopLM and Mount. -/
theorem C8_geobucket_invariant (d : Nat) (hd : 2 ≤ d) :
    GB.Inv d (GB.init d).1 (GB.init d).2 ∧
    (∀ bs ms m, GB.Inv d bs ms →
      GB.Inv d (GB.SymDiffM d bs ms m).1 (GB.SymDiffM d bs ms m).2) ∧
    (∀ bs ms p, GB.Inv d bs ms →
      GB.Inv d (GB.SymDiffSplice d bs ms p).1 (GB.SymDiffSplice d bs ms p).2) ∧
    (∀ bs ms, GB.Inv d bs ms → GB.Inv d (GB.PopLM bs).2 ms) ∧
    (∀ bs ms, GB.Inv d bs ms → GB.Inv d (GB.Mount bs).2 ms) :=
  ⟨GB.init_Inv d,
   fun bs ms m h => GB.SymDiffM_Inv d hd bs ms m h,
   fun bs ms p h => GB.SymDiffSplice_Inv d hd bs ms p h,
   fun bs ms h => GB.PopLM_Inv d bs ms h,
   fun bs ms h => GB.Mount_Inv d bs ms h⟩

theorem C8_geobucket_invariant_witness :
    2 ≤ 2 ∧ GB.Inv 2 (GB.SymDiffM 2 [[]] [2] 5).1 (GB.SymDiffM 2 [[]] [2] 5).2 :=
  ⟨by decide, (C8_geobucket_invariant 2 (by decide)).2.1 [[]] [2] 5
      (C8_geobucket_invariant 2 (by decide)).1⟩

/- ============ Quotient basis: ideal.h (QuotientBasis / QuotientBasisDim) ============ -/

/-- Lowest set bit (the search `for (var = 0; ...) if (iter->Test(var)) break`),
driven by a structural counter. -/
def lowBitAux : Nat → Nat → Nat
  | 0, _ => 0
  | fuel + 1, a => if a = 0 then 0 else if a % 2 = 1 then 0 else lowBitAux fuel (a / 2) + 1

def lowBit (a : Nat) : Nat := lowBitAux a a

/-- Ideal::GatherVars - the union (monomial product is OR) of all
monomials of all polynomials of the system. -/
def Ideal.GatherVars (I : List (List Nat)) : Nat :=
  I.foldl (fun v g => g.foldl (fun v' m => MM.mul v' m) v) 0

/-- Ideal::GatherLMons - the leading monomials inserted one by one. -/
def Ideal.GatherLMons (I : List (List Nat)) : List Nat :=
  I.foldl (fun acc g => MP.UnionM acc (MP.LM g)) []

/-- Erasure scan of Ideal::GatherMinLMons: a monomial is kept when no
later (hence smaller) monomial of the list divides it. -/
def Ideal.minFilter : List Nat → List Nat
  | [] => []
  | m :: rest =>
    if rest.any (fun m1 => MM.IsDivide m1 m) then Ideal.minFilter rest
    else m :: Ideal.minFilter rest

def Ideal.GatherMinLMons (I : List (List Nat)) : List Nat :=
  Ideal.minFilter (Ideal.GatherLMons I)

/-- Loop of Ideal::QuotientBasis: pop the smallest monomial of the
to-see list; if none of the minimal leading monomials divides it and it
is not yet in the basis, add it and enqueue its products with all
essential variables it misses. -/
def Ideal.qbAux (n vars : Nat) (mons : List Nat) :
    Nat → List Nat → List Nat → List Nat
  | 0, _, qb => qb
  | fuel + 1, tosee, qb =>
    match tosee.getLast? with
    | none => qb
    | some mon =>
      if mons.any (fun l => MM.IsDivide l mon) then
        Ideal.qbAux n vars mons fuel tosee.dropLast qb
      else if MP.IsContain qb mon then
        Ideal.qbAux n vars mons fuel tosee.dropLast qb
      else
        Ideal.qbAux n vars mons fuel
          ((List.range n).foldl
            (fun acc cur =>
              if vars.testBit cur && !mon.testBit cur then
                MP.UnionM acc (mon ||| 2 ^ cur)
              else acc)
            tosee.dropLast)
          (MP.UnionM qb mon)

/-- Ideal::QuotientBasis - the basis of R/I as the monomials reachable
from the constant monomial that no minimal leading monomial divides. -/
def Ideal.QuotientBasis (n : Nat) (I : List (List Nat)) : List Nat :=
  match I with
  | [] => []
  | _ :: _ =>
    if MM.Deg (Ideal.GatherVars I) = 0 then []
    else
      Ideal.qbAux n (Ideal.GatherVars I) (Ideal.GatherMinLMons I)
        ((n + 1) * 2 ^ n + 2) [0] []

/-- Last weight-one monomial of the list (the backwards scan
`for (iter = end(); iter != begin();) if ((--iter)->Weight() == 1) break`). -/
def MP.findW1 : List Nat → Option Nat
  | [] => none
  | x :: xs =>
    match MP.findW1 xs with
    | some y => some y
    | none => if MM.Deg x = 1 then some x else none

/-- Recursive split of Ideal::QuotientBasisDim.  All dimension
arithmetic is in ZZ of n bits, i.e. modulo 2^n; ZZ(1).Shr(k) is
2^k mod 2^n.  The processed pair is replaced by the branch var = 0
(monomials containing var erased) and, for a non-trivial selected
equation, also by the branch var = 1 (monomials with var cleared merged
in). -/
def Ideal.qbdVar (mons : List Nat) : Nat :=
  lowBit ((MP.findW1 mons).getD mons.headI)

def Ideal.qbdMons0 (mons : List Nat) : List Nat :=
  mons.filter (fun l => ! l.testBit (Ideal.qbdVar mons))

def Ideal.qbdMons1 (mons : List Nat) : List Nat :=
  (mons.filter (fun l => l.testBit (Ideal.qbdVar mons))).foldl
    (fun acc l => MP.UnionM acc (andNot l (2 ^ Ideal.qbdVar mons)))
    (Ideal.qbdMons0 mons)

def Ideal.qbdAux (n : Nat) : Nat → Nat → List Nat → Nat
  | _, vars, [] => 2 ^ MM.Deg vars % 2 ^ n
  | _, vars, [l] =>
    (2 ^ MM.Deg vars % 2 ^ n + (2 ^ n - 2 ^ (MM.Deg vars - MM.Deg l) % 2 ^ n)) % 2 ^ n
  | 0, _, _ :: _ :: _ => 0
  | fuel + 1, vars, l1 :: l2 :: rest =>
    if 1 < MM.Deg ((MP.findW1 (l1 :: l2 :: rest)).getD l1) then
      (Ideal.qbdAux n fuel (andNot vars (2 ^ Ideal.qbdVar (l1 :: l2 :: rest)))
          (Ideal.qbdMons0 (l1 :: l2 :: rest)) +
        Ideal.qbdAux n fuel (andNot vars (2 ^ Ideal.qbdVar (l1 :: l2 :: rest)))
          (Ideal.qbdMons1 (l1 :: l2 :: rest))) % 2 ^ n
    else
      Ideal.qbdAux n fuel (andNot vars (2 ^ Ideal.qbdVar (l1 :: l2 :: rest)))
        (Ideal.qbdMons0 (l1 :: l2 :: rest))

/-- Ideal::QuotientBasisDim - the dimension of R/I computed by counting
solutions of the leading-monomial system. -/
def Ideal.QuotientBasisDim (n : Nat) (I : List (List Nat)) : Nat :=
  match I with
  | [] => 0
  | _ :: _ =>
    if Ideal.GatherMinLMons I = [0] then 0
    else Ideal.qbdAux n (n + 1) (Ideal.GatherVars I) (Ideal.GatherMinLMons I)

/-- MP::SPoly(poly1, poly2) - the leading terms cancel by construction:
the tails are cross-multiplied by the lcm cofactors and merged. -/
def MP.SPolyPair (p1 p2 : List Nat) : List Nat :=
  MP.Normalize
    (p1.tail.map (fun m => MM.mul m (MM.div (MM.LCM (MP.LM p1) (MP.LM p2)) (MP.LM p1)))
      ++ p2.tail.map (fun m => MM.mul m (MM.div (MM.LCM (MP.LM p1) (MP.LM p2)) (MP.LM p2))))

/-- Field-pair checks of Ideal::IsGB for one polynomial: for every
variable of the leading monomial, the S-polynomial with the field
equation must reduce to zero. -/
def Ideal.checkFieldGo (I : List (List Nat)) (g : List Nat) : List Nat → Option Bool
  | [] => some true
  | i :: is =>
    if (MP.LM g).testBit i then
      match Ideal.Reduce I (MP.SPolyVar g i) with
      | none => none
      | some r => if r.2 = [] then Ideal.checkFieldGo I g is else some false
    else Ideal.checkFieldGo I g is

/-- Polynomial-pair checks of Ideal::IsGB for one polynomial against the
rest: pairs with coprime leading monomials are skipped. -/
def Ideal.checkPairsGo (I : List (List Nat)) (g : List Nat) :
    List (List Nat) → Option Bool
  | [] => some true
  | g1 :: gs =>
    if MM.IsRelPrime (MP.LM g) (MP.LM g1) then Ideal.checkPairsGo I g gs
    else
      match Ideal.Reduce I (MP.SPolyPair g g1) with
      | none => none
      | some r => if r.2 = [] then Ideal.checkPairsGo I g gs else some false

def Ideal.isGBgo (n : Nat) (I : List (List Nat)) : List (List Nat) → Option Bool
  | [] => some true
  | g :: rest =>
    match Ideal.checkFieldGo I g (List.range n) with
    | none => none
    | some false => some false
    | some true =>
      match Ideal.checkPairsGo I g rest with
      | none => none
      | some false => some false
      | some true => Ideal.isGBgo n I rest

/-- Ideal::IsGB - every S-polynomial of a (polynomial, field equation)
or (polynomial, polynomial) pair must reduce to zero over the system;
the outer loop walks the system from the smallest polynomial up.
Evaluating a reduction that violates an assert is modelled as none. -/
def Ideal.IsGB (n : Nat) (I : List (List Nat)) : Option Bool :=
  Ideal.isGBgo n I I.reverse

/- ======== weight / bit toolkit for the quotient-basis proofs ======== -/

theorem testBit_zero_mod (m : Nat) : m.testBit 0 = decide (m % 2 = 1) := by
  rw [Nat.testBit_zero]

theorem MM.Deg_eq_countBits :
    ∀ f m, m < 2 ^ f → MM.Deg m = (List.range f).countP (fun i => m.testBit i) := by
  intro f
  induction f with
  | zero =>
    intro m hm
    have : m = 0 := by omega
    subst this
    rfl
  | succ f ih =>
    intro m hm
    rw [MM.Deg_eq]
    by_cases hm0 : m = 0
    · subst hm0
      rw [if_pos rfl]
      have : ∀ i ∈ List.range (f + 1), (fun i => Nat.testBit 0 i) i = false := by
        intro i _
        exact Nat.zero_testBit i
      rw [List.countP_eq_zero.mpr (by intro i hi; simpa using this i hi)]
    · rw [if_neg hm0]
      have hdiv : m / 2 < 2 ^ f := by
        rw [Nat.pow_succ] at hm
        omega
      rw [List.range_succ_eq_map]
      rw [List.countP_cons, List.countP_map]
      have hcomp : ((fun i => m.testBit i) ∘ (· + 1)) = fun i => (m / 2).testBit i := by
        funext i
        simp only [Function.comp]
        exact Nat.testBit_succ m i
      rw [hcomp, ← ih (m / 2) hdiv]
      rw [testBit_zero_mod]
      rcases Nat.mod_two_eq_zero_or_one m with h2 | h2 <;> simp [h2] <;> omega

theorem countP_or_disjoint (p q : Nat → Bool) :
    ∀ l : List Nat, (∀ i ∈ l, ¬(p i = true ∧ q i = true)) →
      l.countP (fun i => p i || q i) = l.countP p + l.countP q := by
  intro l
  induction l with
  | nil => intro _; rfl
  | cons x xs ih =>
    intro h
    have hx := h x (by simp)
    have hxs := ih (fun i hi => h i (by simp [hi]))
    simp only [List.countP_cons, hxs]
    cases hp : p x <;> cases hq : q x <;> simp_all <;> omega

theorem MM.Deg_lor_disjoint {a b : Nat} (h : a &&& b = 0) :
    MM.Deg (a ||| b) = MM.Deg a + MM.Deg b := by
  have hab : a ||| b < 2 ^ (a ||| b) := Nat.lt_two_pow _
  have ha : a < 2 ^ (a ||| b) :=
    lt_of_le_of_lt (le_lor_left_self a b) hab
  have hb : b < 2 ^ (a ||| b) := by
    have hle := le_lor_left_self b a
    rw [Nat.lor_comm b a] at hle
    exact lt_of_le_of_lt hle hab
  rw [MM.Deg_eq_countBits _ _ hab, MM.Deg_eq_countBits _ _ ha,
    MM.Deg_eq_countBits _ _ hb]
  have : (fun i => (a ||| b).testBit i) = fun i => a.testBit i || b.testBit i := by
    funext i
    exact Nat.testBit_or a b i
  rw [this]
  apply countP_or_disjoint
  intro i _ hcon
  have := congrArg (fun x => Nat.testBit x i) h
  simp only [Nat.testBit_and, Nat.zero_testBit, hcon.1, hcon.2] at this
  exact absurd this (by simp)

theorem MM.Deg_zero : MM.Deg 0 = 0 := rfl

theorem MM.Deg_eq_zero_iff {a : Nat} : MM.Deg a = 0 ↔ a = 0 := by
  constructor
  · intro h
    by_contra ha
    obtain ⟨i, hi, -⟩ := Nat.exists_most_significant_bit ha
    have hlt : a < 2 ^ a := Nat.lt_two_pow _
    have hia : i < a := by
      have h2 : 2 ^ i ≤ a := Nat.testBit_implies_ge hi
      have h3 : i < 2 ^ i := Nat.lt_two_pow _
      omega
    rw [MM.Deg_eq_countBits _ _ hlt] at h
    have : 0 < (List.range a).countP (fun j => a.testBit j) :=
      List.countP_pos_iff.mpr ⟨i, List.mem_range.mpr hia, hi⟩
    omega
  · intro h; subst h; rfl

theorem MM.Deg_two_pow (i : Nat) : MM.Deg (2 ^ i) = 1 := by
  have hlt : (2:Nat) ^ i < 2 ^ (i + 1) := by
    have := Nat.pow_lt_pow_right (a := 2) (by omega) (Nat.lt_succ_self i)
    exact this
  rw [MM.Deg_eq_countBits _ _ hlt]
  have : (fun j => (2 ^ i).testBit j) = fun j => decide (i = j) := by
    funext j
    exact Nat.testBit_two_pow
  rw [this]
  have hcount : (List.range (i + 1)).countP (fun j => decide (i = j))
      = (List.range (i + 1)).count i := by
    rw [List.count]
    congr 1
    funext j
    by_cases h : i = j
    · subst h; simp
    · rw [decide_eq_false h]
      exact ((beq_eq_false_iff_ne (a := j) (b := i)).mpr (fun hh => h hh.symm)).symm
  rw [hcount,
    List.count_eq_one_of_mem (List.nodup_range _) (List.mem_range.mpr (Nat.lt_succ_self i))]

theorem lowBitAux_congr :
    ∀ {f1 f2 a : Nat}, a ≤ f1 → a ≤ f2 → lowBitAux f1 a = lowBitAux f2 a := by
  intro f1
  induction f1 with
  | zero =>
    intro f2 a h1 _
    have ha : a = 0 := Nat.le_zero.mp h1
    subst ha
    cases f2 <;> rfl
  | succ n ih =>
    intro f2 a h1 h2
    cases f2 with
    | zero =>
      have ha : a = 0 := Nat.le_zero.mp h2
      subst ha
      rfl
    | succ m =>
      by_cases ha : a = 0
      · subst ha; rfl
      · have hdiv := Nat.div_lt_self (Nat.pos_of_ne_zero ha) one_lt_two
        simp only [lowBitAux, if_neg ha]
        by_cases hp : a % 2 = 1
        · rw [if_pos hp, if_pos hp]
        · rw [if_neg hp, if_neg hp]
          congr 1
          exact ih (by omega) (by omega)

theorem lowBit_eq (a : Nat) (ha : a ≠ 0) :
    lowBit a = if a % 2 = 1 then 0 else lowBit (a / 2) + 1 := by
  cases a with
  | zero => exact absurd rfl ha
  | succ n =>
    unfold lowBit
    have hdiv := Nat.div_lt_self (Nat.succ_pos n) one_lt_two
    simp only [lowBitAux, if_neg ha]
    by_cases hp : (n + 1) % 2 = 1
    · rw [if_pos hp, if_pos hp]
    · rw [if_neg hp, if_neg hp]
      congr 1
      exact lowBitAux_congr (by omega) (Nat.le_refl _)

theorem testBit_lowBit : ∀ a : Nat, a ≠ 0 → a.testBit (lowBit a) = true := by
  intro a
  induction a using Nat.strong_induction_on with
  | _ a ih =>
    intro ha
    rw [lowBit_eq a ha]
    by_cases hp : a % 2 = 1
    · rw [if_pos hp, testBit_zero_mod]
      simp [hp]
    · rw [if_neg hp, Nat.testBit_succ]
      have ha2 : a / 2 ≠ 0 := by omega
      exact ih (a / 2) (Nat.div_lt_self (Nat.pos_of_ne_zero ha) one_lt_two) ha2

theorem lor_andNot_cancel {a i : Nat} (h : a.testBit i = true) :
    2 ^ i ||| andNot a (2 ^ i) = a := by
  apply Nat.eq_of_testBit_eq
  intro j
  rw [Nat.testBit_lor, testBit_andNot, Nat.testBit_two_pow]
  by_cases hij : i = j
  · subst hij
    simp [h]
  · simp [hij]

theorem two_pow_land_andNot (a i : Nat) : 2 ^ i &&& andNot a (2 ^ i) = 0 := by
  apply Nat.eq_of_testBit_eq
  intro j
  rw [Nat.testBit_and, testBit_andNot, Nat.testBit_two_pow, Nat.zero_testBit]
  by_cases hij : i = j
  · simp [hij]
  · simp [hij]

theorem MM.Deg_sub_bit {a i : Nat} (h : a.testBit i = true) :
    MM.Deg a = MM.Deg (andNot a (2 ^ i)) + 1 := by
  have hd := MM.Deg_lor_disjoint (two_pow_land_andNot a i)
  rw [lor_andNot_cancel h, MM.Deg_two_pow] at hd
  omega

theorem MM.Deg_one_pow {a : Nat} (h : MM.Deg a = 1) : a = 2 ^ lowBit a := by
  have ha : a ≠ 0 := by
    intro h0; rw [h0, MM.Deg_zero] at h; omega
  have hb := testBit_lowBit a ha
  have hd := MM.Deg_sub_bit hb
  rw [h] at hd
  have h0 : andNot a (2 ^ lowBit a) = 0 := MM.Deg_eq_zero_iff.mp (by omega)
  have := lor_andNot_cancel hb
  rw [h0] at this
  simpa using this.symm

theorem isDivide_iff_testBit {a b : Nat} :
    MM.IsDivide a b = true ↔ ∀ i, a.testBit i = true → b.testBit i = true := by
  unfold MM.IsDivide
  rw [beq_iff_eq]
  constructor
  · intro h i hi
    have := congrArg (fun x => Nat.testBit x i) h
    simp only [testBit_andNot, Nat.zero_testBit, hi] at this
    cases hb : b.testBit i
    · rw [hb] at this; exact absurd this (by simp)
    · rfl
  · intro h
    apply Nat.eq_of_testBit_eq
    intro i
    rw [testBit_andNot, Nat.zero_testBit]
    cases hi : a.testBit i
    · rfl
    · rw [h i hi]; rfl

theorem isDivide_trans {a b c : Nat} (h1 : MM.IsDivide a b = true)
    (h2 : MM.IsDivide b c = true) : MM.IsDivide a c = true := by
  rw [isDivide_iff_testBit] at h1 h2 ⊢
  exact fun i hi => h2 i (h1 i hi)

theorem isDivide_refl (a : Nat) : MM.IsDivide a a = true := by
  rw [isDivide_iff_testBit]; exact fun i hi => hi

theorem andNot_le (a b : Nat) : andNot a b ≤ a :=
  Nat.le_of_testBit fun i h => by
    rw [testBit_andNot] at h
    exact ((Bool.and_eq_true _ _).mp h).1

theorem isDivide_lor {m c vars : Nat} (hm : MM.IsDivide m vars = true)
    (hc : vars.testBit c = true) : MM.IsDivide (m ||| 2 ^ c) vars = true := by
  rw [isDivide_iff_testBit] at hm ⊢
  intro i hi
  rw [Nat.testBit_lor, Nat.testBit_two_pow] at hi
  rcases (Bool.or_eq_true _ _).mp hi with h | h
  · exact hm i h
  · have : c = i := of_decide_eq_true h
    subst this
    exact hc

theorem isDivide_andNot_var {m vars v : Nat} (hm : MM.IsDivide m vars = true)
    (hv : m.testBit v = false) :
    MM.IsDivide m (andNot vars (2 ^ v)) = true := by
  rw [isDivide_iff_testBit] at hm ⊢
  intro i hi
  rw [testBit_andNot, Nat.testBit_two_pow]
  have hvi : ¬ v = i := by
    intro h; subst h; rw [hi] at hv; exact absurd hv (by simp)
  simp [hm i hi, hvi]

theorem isDivide_of_andNot_var {m vars v : Nat}
    (hm : MM.IsDivide m (andNot vars (2 ^ v)) = true) :
    MM.IsDivide m vars = true ∧ m.testBit v = false := by
  rw [isDivide_iff_testBit] at hm
  constructor
  · rw [isDivide_iff_testBit]
    intro i hi
    have := hm i hi
    rw [testBit_andNot] at this
    exact ((Bool.and_eq_true _ _).mp this).1
  · cases hv : m.testBit v
    · rfl
    · have := hm v hv
      rw [testBit_andNot, Nat.testBit_two_pow] at this
      simp at this

theorem testBit_false_of_lt_pow {m n i : Nat} (h : m < 2 ^ n) (hi : n ≤ i) :
    m.testBit i = false :=
  Nat.testBit_eq_false_of_lt (lt_of_lt_of_le h (Nat.pow_le_pow_right (by omega) hi))

theorem lt_pow_of_testBit_lt {a n : Nat} (h : ∀ i, a.testBit i = true → i < n) :
    a < 2 ^ n := by
  have h1 : a ≤ 2 ^ n - 1 :=
    Nat.le_of_testBit fun i hi => by
      rw [Nat.testBit_two_pow_sub_one]
      exact decide_eq_true (h i hi)
  have h2 : (0:Nat) < 2 ^ n := Nat.two_pow_pos n
  omega

theorem lor_lt_two_pow {a b n : Nat} (ha : a < 2 ^ n) (hb : b < 2 ^ n) :
    a ||| b < 2 ^ n := by
  apply lt_pow_of_testBit_lt
  intro i hi
  rw [Nat.testBit_lor] at hi
  by_contra hn
  rcases (Bool.or_eq_true _ _).mp hi with h | h
  · rw [testBit_false_of_lt_pow ha (le_of_not_lt hn)] at h
    exact absurd h (by simp)
  · rw [testBit_false_of_lt_pow hb (le_of_not_lt hn)] at h
    exact absurd h (by simp)

theorem isDivide_andNot_self (a b : Nat) : MM.IsDivide (andNot a b) a = true := by
  rw [isDivide_iff_testBit]
  intro i hi
  rw [testBit_andNot] at hi
  exact ((Bool.and_eq_true _ _).mp hi).1

theorem isDivide_andNot_mono {m vars c : Nat} (h : MM.IsDivide m vars = true) :
    MM.IsDivide (andNot m c) (andNot vars c) = true := by
  rw [isDivide_iff_testBit] at h ⊢
  intro i hi
  rw [testBit_andNot] at hi ⊢
  obtain ⟨h1, h2⟩ := (Bool.and_eq_true _ _).mp hi
  rw [h i h1, h2]
  rfl

theorem lor_andNot_of_isDivide {b m : Nat} (h : MM.IsDivide b m = true) :
    b ||| andNot m b = m := by
  rw [isDivide_iff_testBit] at h
  apply Nat.eq_of_testBit_eq
  intro i
  rw [Nat.testBit_lor, testBit_andNot]
  cases hb : b.testBit i
  · simp
  · simp [h i hb]

theorem andNot_lor_self {a b : Nat} (h : a &&& b = 0) :
    andNot (a ||| b) b = a := by
  apply Nat.eq_of_testBit_eq
  intro i
  rw [testBit_andNot, Nat.testBit_lor]
  have hd := congrArg (fun x => Nat.testBit x i) h
  simp only [Nat.testBit_and, Nat.zero_testBit] at hd
  cases ha : a.testBit i <;> cases hb : b.testBit i <;> simp_all

theorem land_eq_zero_of_div_andNot {a v b : Nat}
    (h : MM.IsDivide a (andNot v b) = true) : a &&& b = 0 := by
  rw [isDivide_iff_testBit] at h
  apply Nat.eq_of_testBit_eq
  intro i
  rw [Nat.testBit_and, Nat.zero_testBit]
  cases ha : a.testBit i
  · rfl
  · have := h i ha
    rw [testBit_andNot] at this
    obtain ⟨-, h2⟩ := (Bool.and_eq_true _ _).mp this
    simpa using h2

/-- The submasks of vars inside the n-bit range. -/
def SubF (n vars : Nat) : Finset Nat :=
  (Finset.range (2 ^ n)).filter (fun m => MM.IsDivide m vars = true)

/-- The quotient-basis set: submasks of the essential variables that no
minimal leading monomial divides. -/
def QBS (n vars : Nat) (mons : List Nat) : Finset Nat :=
  (SubF n vars).filter (fun m => ∀ l ∈ mons, MM.IsDivide l m = false)

theorem mem_SubF {n vars m : Nat} :
    m ∈ SubF n vars ↔ m < 2 ^ n ∧ MM.IsDivide m vars = true := by
  unfold SubF
  rw [Finset.mem_filter, Finset.mem_range]

theorem mem_QBS {n vars m : Nat} {mons : List Nat} :
    m ∈ QBS n vars mons ↔
      m < 2 ^ n ∧ MM.IsDivide m vars = true ∧
        ∀ l ∈ mons, MM.IsDivide l m = false := by
  unfold QBS
  rw [Finset.mem_filter, mem_SubF, and_assoc]

theorem isDivide_lor_of_both {a b c : Nat} (ha : MM.IsDivide a c = true)
    (hb : MM.IsDivide b c = true) : MM.IsDivide (a ||| b) c = true := by
  rw [isDivide_iff_testBit] at ha hb ⊢
  intro i hi
  rw [Nat.testBit_lor] at hi
  rcases (Bool.or_eq_true _ _).mp hi with h | h
  · exact ha i h
  · exact hb i h

theorem isDivide_right_lor (a b : Nat) : MM.IsDivide a (b ||| a) = true := by
  rw [isDivide_iff_testBit]
  intro i hi
  rw [Nat.testBit_lor, hi]
  simp

theorem card_SubF : ∀ vars n, vars < 2 ^ n → (SubF n vars).card = 2 ^ MM.Deg vars := by
  intro vars
  induction vars using Nat.strong_induction_on with
  | _ vars ih =>
    intro n hv
    by_cases h0 : vars = 0
    · subst h0
      have hset : SubF n 0 = {0} := by
        apply Finset.ext
        intro m
        rw [mem_SubF, Finset.mem_singleton]
        constructor
        · rintro ⟨-, hd⟩
          have := isDivide_le hd
          omega
        · rintro rfl
          exact ⟨Nat.two_pow_pos n, isDivide_refl 0⟩
      rw [hset, MM.Deg_zero]
      rfl
    · have hbit : vars.testBit (lowBit vars) = true := testBit_lowBit vars h0
      have hb1 : (andNot vars (2 ^ lowBit vars)).testBit (lowBit vars) = false := by
        rw [testBit_andNot, Nat.testBit_two_pow]
        simp
      have hsubv : andNot vars (2 ^ lowBit vars) ≤ vars := andNot_le vars _
      have hne : andNot vars (2 ^ lowBit vars) ≠ vars := by
        intro he
        rw [he, hbit] at hb1
        exact absurd hb1 (by simp)
      have hlt : andNot vars (2 ^ lowBit vars) < vars := lt_of_le_of_ne hsubv hne
      have hv1n : andNot vars (2 ^ lowBit vars) < 2 ^ n := lt_of_le_of_lt hsubv hv
      have hin : lowBit vars < n := by
        have h2 : 2 ^ lowBit vars ≤ vars := Nat.testBit_implies_ge hbit
        exact (Nat.pow_lt_pow_iff_right (a := 2) (by omega)).mp (lt_of_le_of_lt h2 hv)
      have h2in : (2:Nat) ^ lowBit vars < 2 ^ n := Nat.pow_lt_pow_right (by omega) hin
      have hsplit := Finset.filter_card_add_filter_neg_card_eq_card
        (s := SubF n vars) (p := fun m => m.testBit (lowBit vars) = true)
      have hneg : (SubF n vars).filter (fun m => ¬ m.testBit (lowBit vars) = true)
          = SubF n (andNot vars (2 ^ lowBit vars)) := by
        apply Finset.ext
        intro m
        rw [Finset.mem_filter, mem_SubF, mem_SubF]
        constructor
        · rintro ⟨⟨hm, hd⟩, hb⟩
          have hmf : m.testBit (lowBit vars) = false := by
            cases h : m.testBit (lowBit vars)
            · rfl
            · exact absurd h hb
          exact ⟨hm, isDivide_andNot_var hd hmf⟩
        · rintro ⟨hm, hd⟩
          obtain ⟨hd2, hmf⟩ := isDivide_of_andNot_var hd
          exact ⟨⟨hm, hd2⟩, by rw [hmf]; simp⟩
      have hpos : ((SubF n vars).filter (fun m => m.testBit (lowBit vars) = true)).card
          = (SubF n (andNot vars (2 ^ lowBit vars))).card := by
        apply Finset.card_nbij' (fun m => andNot m (2 ^ lowBit vars))
          (fun m => m ||| 2 ^ lowBit vars)
        · intro a ha
          rw [Finset.mem_filter, mem_SubF] at ha
          obtain ⟨⟨han, had⟩, -⟩ := ha
          rw [mem_SubF]
          exact ⟨lt_of_le_of_lt (andNot_le a _) han, isDivide_andNot_mono had⟩
        · intro b hb
          rw [mem_SubF] at hb
          obtain ⟨hbn, hbd⟩ := hb
          rw [Finset.mem_filter, mem_SubF]
          refine ⟨⟨lor_lt_two_pow hbn h2in, ?_⟩, ?_⟩
          · have hbv : MM.IsDivide b vars = true :=
              isDivide_trans hbd (isDivide_andNot_self vars _)
            exact isDivide_lor hbv hbit
          · rw [Nat.testBit_lor, Nat.testBit_two_pow]
            simp
        · intro a ha
          rw [Finset.mem_filter] at ha
          rw [Nat.lor_comm]
          exact lor_andNot_cancel ha.2
        · intro b hb
          rw [mem_SubF] at hb
          exact andNot_lor_self (land_eq_zero_of_div_andNot hb.2)
      rw [hneg, hpos] at hsplit
      have hrec := ih (andNot vars (2 ^ lowBit vars)) hlt n hv1n
      rw [hrec] at hsplit
      rw [MM.Deg_sub_bit hbit, pow_succ]
      omega

theorem card_SubF_div {n vars l : Nat} (hv : vars < 2 ^ n)
    (hl : MM.IsDivide l vars = true) :
    ((SubF n vars).filter (fun m => MM.IsDivide l m = true)).card
      = 2 ^ MM.Deg (andNot vars l) := by
  rw [← card_SubF (andNot vars l) n (lt_of_le_of_lt (andNot_le _ _) hv)]
  have hln : l < 2 ^ n := lt_of_le_of_lt (isDivide_le hl) hv
  apply Finset.card_nbij' (fun m => andNot m l) (fun m => m ||| l)
  · intro a ha
    rw [Finset.mem_filter, mem_SubF] at ha
    obtain ⟨⟨han, had⟩, -⟩ := ha
    rw [mem_SubF]
    exact ⟨lt_of_le_of_lt (andNot_le a _) han, isDivide_andNot_mono had⟩
  · intro b hb
    rw [mem_SubF] at hb
    obtain ⟨hbn, hbd⟩ := hb
    rw [Finset.mem_filter, mem_SubF]
    have hbv : MM.IsDivide b vars = true :=
      isDivide_trans hbd (isDivide_andNot_self vars _)
    exact ⟨⟨lor_lt_two_pow hbn hln, isDivide_lor_of_both hbv hl⟩,
      isDivide_right_lor l b⟩
  · intro a ha
    rw [Finset.mem_filter] at ha
    rw [Nat.lor_comm]
    exact lor_andNot_of_isDivide ha.2
  · intro b hb
    rw [mem_SubF] at hb
    exact andNot_lor_self (land_eq_zero_of_div_andNot hb.2)

theorem Deg_andNot_of_isDivide {l vars : Nat} (hl : MM.IsDivide l vars = true) :
    MM.Deg vars = MM.Deg l + MM.Deg (andNot vars l) := by
  have hdisj : l &&& andNot vars l = 0 := by
    rw [Nat.land_comm]
    exact andNot_land_self vars l
  have := MM.Deg_lor_disjoint hdisj
  rw [lor_andNot_of_isDivide hl] at this
  exact this

theorem MP.mem_UnionM {x m : Nat} :
    ∀ {l : List Nat}, x ∈ MP.UnionM l m ↔ x ∈ l ∨ x = m := by
  intro l
  induction l with
  | nil => simp [MP.UnionM]
  | cons y ys ih =>
    show x ∈ (if y > m then y :: MP.UnionM ys m
      else if y = m then y :: ys else m :: y :: ys) ↔ _
    by_cases h1 : y > m
    · rw [if_pos h1]
      simp only [List.mem_cons, ih]
      tauto
    · rw [if_neg h1]
      by_cases h2 : y = m
      · rw [if_pos h2]
        subst h2
        simp only [List.mem_cons]
        tauto
      · rw [if_neg h2]
        simp only [List.mem_cons]
        tauto

theorem MP.mem_foldl_UnionM (f : Nat → Nat) :
    ∀ (ls acc : List Nat) (x : Nat),
      x ∈ ls.foldl (fun a l => MP.UnionM a (f l)) acc ↔
        x ∈ acc ∨ ∃ l ∈ ls, x = f l := by
  intro ls
  induction ls with
  | nil => intro acc x; simp
  | cons y ys ih =>
    intro acc x
    show x ∈ ys.foldl (fun a l => MP.UnionM a (f l)) (MP.UnionM acc (f y)) ↔ _
    rw [ih, MP.mem_UnionM]
    simp only [List.mem_cons]
    constructor
    · rintro ((h | h) | ⟨l, hl, he⟩)
      · exact Or.inl h
      · exact Or.inr ⟨y, Or.inl rfl, h⟩
      · exact Or.inr ⟨l, Or.inr hl, he⟩
    · rintro (h | ⟨l, (rfl | hl), he⟩)
      · exact Or.inl (Or.inl h)
      · exact Or.inl (Or.inr he)
      · exact Or.inr ⟨l, hl, he⟩

theorem isDivide_pow_of_testBit {m : Nat} {v : Nat} (h : m.testBit v = true) :
    MM.IsDivide (2 ^ v) m = true := by
  rw [isDivide_iff_testBit]
  intro i hi
  rw [Nat.testBit_two_pow] at hi
  have : v = i := of_decide_eq_true hi
  subst this
  exact h

theorem testBit_of_isDivide {l m : Nat} {v : Nat} (h : MM.IsDivide l m = true)
    (hv : l.testBit v = true) : m.testBit v = true := by
  rw [isDivide_iff_testBit] at h
  exact h v hv

theorem isDivide_lor_elim {l m : Nat} {v : Nat}
    (h : MM.IsDivide l (m ||| 2 ^ v) = true) (hv : l.testBit v = false) :
    MM.IsDivide l m = true := by
  rw [isDivide_iff_testBit] at h ⊢
  intro i hi
  have := h i hi
  rw [Nat.testBit_lor, Nat.testBit_two_pow] at this
  rcases (Bool.or_eq_true _ _).mp this with h2 | h2
  · exact h2
  · have : v = i := of_decide_eq_true h2
    subst this
    rw [hi] at hv
    exact absurd hv (by simp)

theorem testBit_false_of_div {m v : Nat} {i : Nat} (h : MM.IsDivide m v = true)
    (hv : v.testBit i = false) : m.testBit i = false := by
  cases hm : m.testBit i
  · rfl
  · rw [isDivide_iff_testBit] at h
    rw [h i hm] at hv
    exact absurd hv (by simp)

theorem MP.findW1_some :
    ∀ {l : List Nat} {w : Nat}, MP.findW1 l = some w → w ∈ l ∧ MM.Deg w = 1 := by
  intro l
  induction l with
  | nil => intro w h; exact absurd h (by simp [MP.findW1])
  | cons x xs ih =>
    intro w h
    show w ∈ x :: xs ∧ _
    rw [MP.findW1] at h
    cases hx : MP.findW1 xs with
    | some y =>
      rw [hx] at h
      obtain ⟨hy, hd⟩ := ih hx
      cases h
      exact ⟨List.mem_cons_of_mem x hy, hd⟩
    | none =>
      rw [hx] at h
      by_cases hd : MM.Deg x = 1
      · rw [if_pos hd] at h
        cases h
        exact ⟨List.mem_cons_self x xs, hd⟩
      · rw [if_neg hd] at h
        exact absurd h (by simp)

theorem MP.findW1_none :
    ∀ {l : List Nat}, MP.findW1 l = none → ∀ x ∈ l, MM.Deg x ≠ 1 := by
  intro l
  induction l with
  | nil => intro _ x hx; exact absurd hx (by simp)
  | cons y ys ih =>
    intro h x hx
    rw [MP.findW1] at h
    cases hy : MP.findW1 ys with
    | some z => rw [hy] at h; exact absurd h (by simp)
    | none =>
      rw [hy] at h
      by_cases hd : MM.Deg y = 1
      · rw [if_pos hd] at h; exact absurd h (by simp)
      · rw [if_neg hd] at h
        rcases List.mem_cons.mp hx with rfl | hx2
        · exact hd
        · exact ih hy x hx2

theorem MM.Deg_le_of_lt_pow {a n : Nat} (h : a < 2 ^ n) : MM.Deg a ≤ n := by
  rw [MM.Deg_eq_countBits n a h]
  calc (List.range n).countP (fun i => a.testBit i)
      ≤ (List.range n).length := List.countP_le_length _
    _ = n := List.length_range n

theorem mod_sub_eq {A B M : Nat} (hM : 0 < M) (hBA : B ≤ A) :
    (A % M + (M - B % M)) % M = (A - B) % M := by
  have h1 : M * (A / M) + A % M = A := Nat.div_add_mod A M
  have h2 : M * (B / M) + B % M = B := Nat.div_add_mod B M
  have h3 : B % M < M := Nat.mod_lt B hM
  have h4 : M * (B / M + 1) = M * (B / M) + M := by ring
  have e : A % M + (M - B % M) + M * (A / M) = (A - B) + M * (B / M + 1) := by
    omega
  calc (A % M + (M - B % M)) % M
      = (A % M + (M - B % M) + M * (A / M)) % M := by
        rw [Nat.add_mul_mod_self_left]
    _ = ((A - B) + M * (B / M + 1)) % M := by rw [e]
    _ = (A - B) % M := by rw [Nat.add_mul_mod_self_left]

theorem land_pow_eq_zero {b v : Nat} (h : b.testBit v = false) :
    b &&& 2 ^ v = 0 := by
  apply Nat.eq_of_testBit_eq
  intro j
  rw [Nat.testBit_and, Nat.testBit_two_pow, Nat.zero_testBit]
  by_cases hvj : v = j
  · subst hvj; simp [h]
  · simp [hvj]

theorem QBS_nil (n vars : Nat) (hv : vars < 2 ^ n) :
    (QBS n vars []).card = 2 ^ MM.Deg vars := by
  have hext : QBS n vars [] = SubF n vars := by
    apply Finset.ext
    intro m
    rw [mem_QBS, mem_SubF]
    simp
  rw [hext]
  exact card_SubF vars n hv

theorem QBS_single {n vars l : Nat} (hv : vars < 2 ^ n)
    (hl : MM.IsDivide l vars = true) :
    (QBS n vars [l]).card + 2 ^ MM.Deg (andNot vars l) = 2 ^ MM.Deg vars := by
  have hsplit := Finset.filter_card_add_filter_neg_card_eq_card
    (s := SubF n vars) (p := fun m => MM.IsDivide l m = true)
  have hneg : (SubF n vars).filter (fun m => ¬ MM.IsDivide l m = true)
      = QBS n vars [l] := by
    apply Finset.ext
    intro m
    rw [Finset.mem_filter, mem_QBS, mem_SubF]
    constructor
    · rintro ⟨⟨h1, h2⟩, h3⟩
      refine ⟨h1, h2, ?_⟩
      intro x hx
      have hx2 : x = l := List.mem_singleton.mp hx
      subst hx2
      cases hd : MM.IsDivide x m
      · rfl
      · exact absurd hd h3
    · rintro ⟨h1, h2, h3⟩
      have h4 := h3 l (by simp)
      exact ⟨⟨h1, h2⟩, by rw [h4]; simp⟩
  rw [card_SubF_div hv hl, hneg] at hsplit
  rw [card_SubF vars n hv] at hsplit
  omega

theorem QBS_filter_neg (n vars : Nat) (mons : List Nat) (var : Nat) :
    (QBS n vars mons).filter (fun m => ¬ m.testBit var = true)
      = QBS n (andNot vars (2 ^ var)) (mons.filter (fun l => ! l.testBit var)) := by
  apply Finset.ext
  intro m
  rw [Finset.mem_filter, mem_QBS, mem_QBS]
  constructor
  · rintro ⟨⟨h1, h2, h3⟩, h4⟩
    have hmf : m.testBit var = false := by
      cases h : m.testBit var
      · rfl
      · exact absurd h h4
    refine ⟨h1, isDivide_andNot_var h2 hmf, ?_⟩
    intro l hl
    exact h3 l (List.mem_of_mem_filter hl)
  · rintro ⟨h1, h2, h3⟩
    obtain ⟨h2v, hmf⟩ := isDivide_of_andNot_var h2
    refine ⟨⟨h1, h2v, ?_⟩, by rw [hmf]; simp⟩
    intro l hl
    by_cases hb : l.testBit var = true
    · cases hd : MM.IsDivide l m
      · rfl
      · have hc := testBit_of_isDivide hd hb
        rw [hc] at hmf
        exact absurd hmf (by simp)
    · have hbf : l.testBit var = false := by
        cases h : l.testBit var
        · rfl
        · exact absurd h hb
      exact h3 l (List.mem_filter.mpr ⟨hl, by rw [hbf]; rfl⟩)

theorem QBS_filter_pos_empty {n vars var : Nat} {mons : List Nat}
    (hmem : (2 ^ var) ∈ mons) :
    (QBS n vars mons).filter (fun m => m.testBit var = true) = ∅ := by
  apply Finset.eq_empty_iff_forall_not_mem.mpr
  intro m hm
  rw [Finset.mem_filter, mem_QBS] at hm
  obtain ⟨⟨-, -, h3⟩, h4⟩ := hm
  have := h3 (2 ^ var) hmem
  rw [isDivide_pow_of_testBit h4] at this
  exact absurd this (by simp)

theorem QBS_filter_pos_card (n vars var : Nat) (mons mons1 : List Nat)
    (hvn : vars < 2 ^ n) (hbv : vars.testBit var = true)
    (hmem : ∀ x, x ∈ mons1 ↔
      (x ∈ mons ∧ x.testBit var = false) ∨
        ∃ l ∈ mons, l.testBit var = true ∧ x = andNot l (2 ^ var)) :
    ((QBS n vars mons).filter (fun m => m.testBit var = true)).card
      = (QBS n (andNot vars (2 ^ var)) mons1).card := by
  have hvarn : (2:Nat) ^ var < 2 ^ n := by
    have h2 : 2 ^ var ≤ vars := Nat.testBit_implies_ge hbv
    exact lt_of_le_of_lt h2 hvn
  apply Finset.card_nbij' (fun m => andNot m (2 ^ var)) (fun m => m ||| 2 ^ var)
  · intro a ha
    rw [Finset.mem_filter, mem_QBS] at ha
    obtain ⟨⟨h1, h2, h3⟩, h4⟩ := ha
    rw [mem_QBS]
    refine ⟨lt_of_le_of_lt (andNot_le a _) h1, isDivide_andNot_mono h2, ?_⟩
    intro x hx
    rcases (hmem x).mp hx with ⟨hx1, hx2⟩ | ⟨l, hl, hlb, rfl⟩
    · cases hd : MM.IsDivide x (andNot a (2 ^ var))
      · rfl
      · have : MM.IsDivide x a = true :=
          isDivide_trans hd (isDivide_andNot_self a _)
        rw [h3 x hx1] at this
        exact absurd this (by simp)
    · cases hd : MM.IsDivide (andNot l (2 ^ var)) (andNot a (2 ^ var))
      · rfl
      · have hxa : MM.IsDivide (andNot l (2 ^ var)) a = true :=
          isDivide_trans hd (isDivide_andNot_self a _)
        have hpa : MM.IsDivide (2 ^ var) a = true := isDivide_pow_of_testBit h4
        have hla : MM.IsDivide l a = true := by
          have := isDivide_lor_of_both hpa hxa
          rw [lor_andNot_cancel hlb] at this
          exact this
        rw [h3 l hl] at hla
        exact absurd hla (by simp)
  · intro b hb
    rw [mem_QBS] at hb
    obtain ⟨h1, h2, h3⟩ := hb
    rw [Finset.mem_filter, mem_QBS]
    have hbv2 : MM.IsDivide b vars = true :=
      isDivide_trans h2 (isDivide_andNot_self vars _)
    refine ⟨⟨lor_lt_two_pow h1 hvarn, isDivide_lor hbv2 hbv, ?_⟩, ?_⟩
    · intro l hl
      by_cases hlb : l.testBit var = true
      · have hx := h3 (andNot l (2 ^ var)) ((hmem _).mpr (Or.inr ⟨l, hl, hlb, rfl⟩))
        cases hd : MM.IsDivide l (b ||| 2 ^ var)
        · rfl
        · have hxd : MM.IsDivide (andNot l (2 ^ var)) (b ||| 2 ^ var) = true :=
            isDivide_trans (isDivide_andNot_self l _) hd
          have hxvar : (andNot l (2 ^ var)).testBit var = false := by
            rw [testBit_andNot, Nat.testBit_two_pow]
            simp
          have := isDivide_lor_elim hxd hxvar
          rw [hx] at this
          exact absurd this (by simp)
      · have hbf : l.testBit var = false := by
          cases h : l.testBit var
          · rfl
          · exact absurd h hlb
        have hx := h3 l ((hmem _).mpr (Or.inl ⟨hl, hbf⟩))
        cases hd : MM.IsDivide l (b ||| 2 ^ var)
        · rfl
        · have := isDivide_lor_elim hd hbf
          rw [hx] at this
          exact absurd this (by simp)
    · rw [Nat.testBit_lor, Nat.testBit_two_pow]
      simp
  · intro a ha
    rw [Finset.mem_filter] at ha
    rw [Nat.lor_comm]
    exact lor_andNot_cancel ha.2
  · intro b hb
    rw [mem_QBS] at hb
    have hbf : b.testBit var = false := by
      apply testBit_false_of_div hb.2.1
      rw [testBit_andNot, Nat.testBit_two_pow]
      simp
    exact andNot_lor_self (land_pow_eq_zero hbf)

theorem Ideal.qbdAux_single_zero (n : Nat) :
    ∀ fuel vars : Nat, Ideal.qbdAux n fuel vars [0] = 0 := by
  have key : ∀ w : Nat, (2 ^ w % 2 ^ n + (2 ^ n - 2 ^ (w - MM.Deg 0) % 2 ^ n)) % 2 ^ n = 0 := by
    intro w
    rw [MM.Deg_zero, Nat.sub_zero]
    have hx : 2 ^ w % 2 ^ n < 2 ^ n := Nat.mod_lt _ (Nat.two_pow_pos n)
    have he : 2 ^ w % 2 ^ n + (2 ^ n - 2 ^ w % 2 ^ n) = 2 ^ n := by omega
    rw [he, Nat.mod_self]
  intro fuel vars
  cases fuel with
  | zero => exact key (MM.Deg vars)
  | succ f => exact key (MM.Deg vars)

theorem Ideal.qbdAux_zero_mem (n : Nat) :
    ∀ fuel vars mons, (0:Nat) ∈ mons → Ideal.qbdAux n fuel vars mons = 0 := by
  intro fuel
  induction fuel with
  | zero =>
    intro vars mons h0
    cases mons with
    | nil => simp at h0
    | cons l rest =>
      cases rest with
      | nil =>
        have hl : l = 0 := (List.mem_singleton.mp h0).symm
        subst hl
        exact Ideal.qbdAux_single_zero n 0 vars
      | cons l2 rest2 => rfl
  | succ fuel ih =>
    intro vars mons h0
    cases mons with
    | nil => simp at h0
    | cons l rest =>
      cases rest with
      | nil =>
        have hl : l = 0 := (List.mem_singleton.mp h0).symm
        subst hl
        exact Ideal.qbdAux_single_zero n (fuel + 1) vars
      | cons l2 rest2 =>
        have h00 : (0:Nat) ∈ Ideal.qbdMons0 (l :: l2 :: rest2) :=
          List.mem_filter.mpr ⟨h0, by simp⟩
        have h01 : (0:Nat) ∈ Ideal.qbdMons1 (l :: l2 :: rest2) := by
          unfold Ideal.qbdMons1
          rw [MP.mem_foldl_UnionM]
          exact Or.inl h00
        simp only [Ideal.qbdAux]
        by_cases hc : 1 < MM.Deg ((MP.findW1 (l :: l2 :: rest2)).getD l)
        · rw [if_pos hc, ih _ _ h00, ih _ _ h01]
          simp
        · rw [if_neg hc]
          exact ih _ _ h00

theorem Ideal.qbdAux_nil_eq (n fuel vars : Nat) (hv : vars < 2 ^ n) :
    Ideal.qbdAux n fuel vars [] = (QBS n vars []).card % 2 ^ n := by
  have key : 2 ^ MM.Deg vars % 2 ^ n = (QBS n vars []).card % 2 ^ n := by
    rw [QBS_nil n vars hv]
  cases fuel with
  | zero => exact key
  | succ f => exact key

theorem Ideal.qbdAux_single_eq (n fuel vars l : Nat) (hv : vars < 2 ^ n)
    (hl : MM.IsDivide l vars = true) :
    Ideal.qbdAux n fuel vars [l] = (QBS n vars [l]).card % 2 ^ n := by
  have hM := Nat.two_pow_pos n
  have hcard := QBS_single hv hl
  have hdd := Deg_andNot_of_isDivide hl
  have hBd : MM.Deg vars - MM.Deg l = MM.Deg (andNot vars l) := by omega
  have hBA : (2:Nat) ^ MM.Deg (andNot vars l) ≤ 2 ^ MM.Deg vars :=
    Nat.pow_le_pow_right (by omega) (by omega)
  have key : (2 ^ MM.Deg vars % 2 ^ n
      + (2 ^ n - 2 ^ (MM.Deg vars - MM.Deg l) % 2 ^ n)) % 2 ^ n
      = (QBS n vars [l]).card % 2 ^ n := by
    rw [hBd, mod_sub_eq hM hBA]
    congr 1
    omega
  cases fuel with
  | zero => exact key
  | succ f => exact key

theorem Ideal.qbdAux_eq (n : Nat) :
    ∀ fuel vars mons,
      vars < 2 ^ n →
      MM.Deg vars ≤ fuel →
      (∀ l ∈ mons, MM.IsDivide l vars = true) →
      (0:Nat) ∉ mons →
      Ideal.qbdAux n fuel vars mons = (QBS n vars mons).card % 2 ^ n := by
  intro fuel
  induction fuel with
  | zero =>
    intro vars mons hv hdeg hsub h0
    have hv0 : vars = 0 := MM.Deg_eq_zero_iff.mp (by omega)
    subst hv0
    cases mons with
    | nil => exact Ideal.qbdAux_nil_eq n 0 0 hv
    | cons l rest =>
      have := isDivide_le (hsub l (by simp))
      have hl : l = 0 := by omega
      subst hl
      exact absurd (List.mem_cons_self 0 rest) h0
  | succ fuel ih =>
    intro vars mons hv hdeg hsub h0
    cases mons with
    | nil => exact Ideal.qbdAux_nil_eq n (fuel + 1) vars hv
    | cons l rest =>
      cases rest with
      | nil => exact Ideal.qbdAux_single_eq n (fuel + 1) vars l hv (hsub l (by simp))
      | cons l2 rest2 =>
        have hM := Nat.two_pow_pos n
        have hl0 : l ≠ 0 := by
          intro he
          subst he
          exact h0 (List.mem_cons_self 0 (l2 :: rest2))
        cases hfw : MP.findW1 (l :: l2 :: rest2) with
        | some w =>
          obtain ⟨hwmem, hwdeg⟩ := MP.findW1_some hfw
          have hiter : (MP.findW1 (l :: l2 :: rest2)).getD l = w := by
            rw [hfw]; rfl
          have hqv : Ideal.qbdVar (l :: l2 :: rest2) = lowBit w := by
            unfold Ideal.qbdVar
            rw [show (l :: l2 :: rest2).headI = l from rfl, hfw]
            rfl
          have hw0 : w ≠ 0 := by
            intro he; rw [he, MM.Deg_zero] at hwdeg; omega
          have hwbit : w.testBit (lowBit w) = true := testBit_lowBit w hw0
          have hw2 : w = 2 ^ lowBit w := MM.Deg_one_pow hwdeg
          have hbv : vars.testBit (lowBit w) = true :=
            testBit_of_isDivide (hsub w hwmem) hwbit
          have hm0eq : Ideal.qbdMons0 (l :: l2 :: rest2)
              = (l :: l2 :: rest2).filter (fun x => ! x.testBit (lowBit w)) := by
            unfold Ideal.qbdMons0
            rw [hqv]
          have hvars0 : andNot vars (2 ^ lowBit w) < 2 ^ n :=
            lt_of_le_of_lt (andNot_le _ _) hv
          have hdeg0 : MM.Deg (andNot vars (2 ^ lowBit w)) ≤ fuel := by
            have := MM.Deg_sub_bit hbv
            omega
          have hsub0 : ∀ x ∈ Ideal.qbdMons0 (l :: l2 :: rest2),
              MM.IsDivide x (andNot vars (2 ^ lowBit w)) = true := by
            intro x hx
            rw [hm0eq, List.mem_filter] at hx
            obtain ⟨hx1, hx2⟩ := hx
            have hxf : x.testBit (lowBit w) = false := by
              cases h : x.testBit (lowBit w)
              · rfl
              · rw [h] at hx2; exact absurd hx2 (by simp)
            exact isDivide_andNot_var (hsub x hx1) hxf
          have h00 : (0:Nat) ∉ Ideal.qbdMons0 (l :: l2 :: rest2) := by
            intro hx
            rw [hm0eq, List.mem_filter] at hx
            exact h0 hx.1
          simp only [Ideal.qbdAux]
          rw [hiter, if_neg (by omega), hqv]
          rw [ih _ _ hvars0 hdeg0 hsub0 h00]
          have hsplit := Finset.filter_card_add_filter_neg_card_eq_card
            (s := QBS n vars (l :: l2 :: rest2))
            (p := fun m => m.testBit (lowBit w) = true)
          have hpos : (QBS n vars (l :: l2 :: rest2)).filter
              (fun m => m.testBit (lowBit w) = true) = ∅ :=
            QBS_filter_pos_empty (hw2 ▸ hwmem)
          have hneg := QBS_filter_neg n vars (l :: l2 :: rest2) (lowBit w)
          rw [hpos, hneg] at hsplit
          rw [hm0eq]
          simp only [Finset.card_empty] at hsplit
          congr 1
          omega
        | none =>
          have hnone := MP.findW1_none hfw
          have hiter : (MP.findW1 (l :: l2 :: rest2)).getD l = l := by
            rw [hfw]; rfl
          have hqv : Ideal.qbdVar (l :: l2 :: rest2) = lowBit l := by
            unfold Ideal.qbdVar
            rw [show (l :: l2 :: rest2).headI = l from rfl, hfw]
            rfl
          have hldeg : 1 < MM.Deg l := by
            have h1 : MM.Deg l ≠ 1 := hnone l (by simp)
            have h2 : MM.Deg l ≠ 0 := fun he => hl0 (MM.Deg_eq_zero_iff.mp he)
            omega
          have hlbit : l.testBit (lowBit l) = true := testBit_lowBit l hl0
          have hbv : vars.testBit (lowBit l) = true :=
            testBit_of_isDivide (hsub l (by simp)) hlbit
          have hm0eq : Ideal.qbdMons0 (l :: l2 :: rest2)
              = (l :: l2 :: rest2).filter (fun x => ! x.testBit (lowBit l)) := by
            unfold Ideal.qbdMons0
            rw [hqv]
          have hvars0 : andNot vars (2 ^ lowBit l) < 2 ^ n :=
            lt_of_le_of_lt (andNot_le _ _) hv
          have hdeg0 : MM.Deg (andNot vars (2 ^ lowBit l)) ≤ fuel := by
            have := MM.Deg_sub_bit hbv
            omega
          have hsub0 : ∀ x ∈ Ideal.qbdMons0 (l :: l2 :: rest2),
              MM.IsDivide x (andNot vars (2 ^ lowBit l)) = true := by
            intro x hx
            rw [hm0eq, List.mem_filter] at hx
            obtain ⟨hx1, hx2⟩ := hx
            have hxf : x.testBit (lowBit l) = false := by
              cases h : x.testBit (lowBit l)
              · rfl
              · rw [h] at hx2; exact absurd hx2 (by simp)
            exact isDivide_andNot_var (hsub x hx1) hxf
          have h00 : (0:Nat) ∉ Ideal.qbdMons0 (l :: l2 :: rest2) := by
            intro hx
            rw [hm0eq, List.mem_filter] at hx
            exact h0 hx.1
          have hm1mem : ∀ x, x ∈ Ideal.qbdMons1 (l :: l2 :: rest2) ↔
              (x ∈ (l :: l2 :: rest2) ∧ x.testBit (lowBit l) = false) ∨
                ∃ y ∈ (l :: l2 :: rest2), y.testBit (lowBit l) = true ∧
                  x = andNot y (2 ^ lowBit l) := by
            intro x
            unfold Ideal.qbdMons1
            rw [hqv, MP.mem_foldl_UnionM]
            constructor
            · rintro (hx | ⟨y, hy, he⟩)
              · left
                rw [hm0eq, List.mem_filter] at hx
                obtain ⟨hx1, hx2⟩ := hx
                refine ⟨hx1, ?_⟩
                cases h : x.testBit (lowBit l)
                · rfl
                · rw [h] at hx2; exact absurd hx2 (by simp)
              · right
                rw [List.mem_filter] at hy
                exact ⟨y, hy.1, hy.2, he⟩
            · rintro (⟨hx1, hx2⟩ | ⟨y, hy1, hy2, he⟩)
              · left
                rw [hm0eq, List.mem_filter]
                exact ⟨hx1, by rw [hx2]; rfl⟩
              · right
                exact ⟨y, List.mem_filter.mpr ⟨hy1, hy2⟩, he⟩
          have hsub1 : ∀ x ∈ Ideal.qbdMons1 (l :: l2 :: rest2),
              MM.IsDivide x (andNot vars (2 ^ lowBit l)) = true := by
            intro x hx
            rcases (hm1mem x).mp hx with ⟨hx1, hx2⟩ | ⟨y, hy1, hy2, rfl⟩
            · exact isDivide_andNot_var (hsub x hx1) hx2
            · exact isDivide_andNot_mono (hsub y hy1)
          have h01 : (0:Nat) ∉ Ideal.qbdMons1 (l :: l2 :: rest2) := by
            intro hx
            rcases (hm1mem 0).mp hx with ⟨hx1, -⟩ | ⟨y, hy1, hy2, he⟩
            · exact h0 hx1
            · have han : andNot y (2 ^ lowBit l) = 0 := he.symm
              have hyd : MM.IsDivide y (2 ^ lowBit l) = true := by
                unfold MM.IsDivide
                rw [han]
                rfl
              have hy_le : y ≤ 2 ^ lowBit l := isDivide_le hyd
              have hle_y : 2 ^ lowBit l ≤ y := Nat.testBit_implies_ge hy2
              have hye : y = 2 ^ lowBit l := by omega
              have : MM.Deg y = 1 := by rw [hye]; exact MM.Deg_two_pow _
              exact hnone y hy1 this
          simp only [Ideal.qbdAux]
          rw [hiter, if_pos hldeg, hqv]
          rw [ih _ _ hvars0 hdeg0 hsub0 h00, ih _ _ hvars0 hdeg0 hsub1 h01]
          rw [← Nat.add_mod]
          have hsplit := Finset.filter_card_add_filter_neg_card_eq_card
            (s := QBS n vars (l :: l2 :: rest2))
            (p := fun m => m.testBit (lowBit l) = true)
          have hneg := QBS_filter_neg n vars (l :: l2 :: rest2) (lowBit l)
          have hposc := QBS_filter_pos_card n vars (lowBit l) (l :: l2 :: rest2)
            (Ideal.qbdMons1 (l :: l2 :: rest2)) hv hbv hm1mem
          rw [hneg, hposc] at hsplit
          rw [hm0eq]
          congr 1
          omega

theorem MP.Desc_UnionM {l : List Nat} (h : MP.Desc l) (m : Nat) :
    MP.Desc (MP.UnionM l m) := by
  induction l with
  | nil => exact List.pairwise_singleton _ m
  | cons x xs ih =>
    obtain ⟨hx, hxs⟩ := List.pairwise_cons.mp h
    show MP.Desc (if x > m then x :: MP.UnionM xs m
      else if x = m then x :: xs else m :: x :: xs)
    by_cases h1 : x > m
    · rw [if_pos h1]
      refine List.Pairwise.cons ?_ (ih hxs)
      intro z hz
      rcases MP.mem_UnionM.mp hz with hz | rfl
      · exact hx z hz
      · exact h1
    · rw [if_neg h1]
      by_cases h2 : x = m
      · rw [if_pos h2]
        exact List.Pairwise.cons hx hxs
      · rw [if_neg h2]
        refine List.Pairwise.cons ?_ (List.Pairwise.cons hx hxs)
        intro z hz
        rcases List.mem_cons.mp hz with rfl | hz
        · omega
        · have := hx z hz
          omega

theorem MP.length_UnionM (m : Nat) :
    ∀ l : List Nat, (MP.UnionM l m).length ≤ l.length + 1 := by
  intro l
  induction l with
  | nil => simp [MP.UnionM]
  | cons x xs ih =>
    show (if x > m then x :: MP.UnionM xs m
      else if x = m then x :: xs else m :: x :: xs).length ≤ _
    by_cases h1 : x > m
    · rw [if_pos h1]
      simp only [List.length_cons]
      omega
    · rw [if_neg h1]
      by_cases h2 : x = m
      · rw [if_pos h2]
        simp only [List.length_cons]
        omega
      · rw [if_neg h2]
        simp only [List.length_cons]
        omega

theorem mem_foldl_UnionM_cond (p : Nat → Bool) (g : Nat → Nat) :
    ∀ (ls acc : List Nat) (x : Nat),
      x ∈ ls.foldl (fun a c => if p c then MP.UnionM a (g c) else a) acc ↔
        x ∈ acc ∨ ∃ c ∈ ls, p c = true ∧ x = g c := by
  intro ls
  induction ls with
  | nil => intro acc x; simp
  | cons y ys ih =>
    intro acc x
    show x ∈ ys.foldl _ (if p y then MP.UnionM acc (g y) else acc) ↔ _
    rw [ih]
    by_cases hp : p y = true
    · rw [if_pos hp, MP.mem_UnionM]
      constructor
      · rintro ((h | h) | ⟨c, hc, hpc, he⟩)
        · exact Or.inl h
        · exact Or.inr ⟨y, by simp, hp, h⟩
        · exact Or.inr ⟨c, by simp [hc], hpc, he⟩
      · rintro (h | ⟨c, hc, hpc, he⟩)
        · exact Or.inl (Or.inl h)
        · rcases List.mem_cons.mp hc with rfl | hc2
          · exact Or.inl (Or.inr he)
          · exact Or.inr ⟨c, hc2, hpc, he⟩
    · rw [if_neg hp]
      constructor
      · rintro (h | ⟨c, hc, hpc, he⟩)
        · exact Or.inl h
        · exact Or.inr ⟨c, by simp [hc], hpc, he⟩
      · rintro (h | ⟨c, hc, hpc, he⟩)
        · exact Or.inl h
        · rcases List.mem_cons.mp hc with rfl | hc2
          · rw [hpc] at hp; exact absurd rfl hp
          · exact Or.inr ⟨c, hc2, hpc, he⟩

theorem Desc_foldl_UnionM_cond (p : Nat → Bool) (g : Nat → Nat) :
    ∀ (ls acc : List Nat), MP.Desc acc →
      MP.Desc (ls.foldl (fun a c => if p c then MP.UnionM a (g c) else a) acc) := by
  intro ls
  induction ls with
  | nil => intro acc h; exact h
  | cons y ys ih =>
    intro acc h
    show MP.Desc (ys.foldl _ (if p y then MP.UnionM acc (g y) else acc))
    apply ih
    by_cases hp : p y = true
    · rw [if_pos hp]; exact MP.Desc_UnionM h _
    · rw [if_neg hp]; exact h

theorem length_foldl_UnionM_cond (p : Nat → Bool) (g : Nat → Nat) :
    ∀ (ls acc : List Nat),
      (ls.foldl (fun a c => if p c then MP.UnionM a (g c) else a) acc).length
        ≤ acc.length + ls.length := by
  intro ls
  induction ls with
  | nil => intro acc; simp
  | cons y ys ih =>
    intro acc
    show (ys.foldl _ (if p y then MP.UnionM acc (g y) else acc)).length ≤ _
    have h1 := ih (if p y then MP.UnionM acc (g y) else acc)
    have h2 : (if p y then MP.UnionM acc (g y) else acc).length ≤ acc.length + 1 := by
      by_cases hp : p y = true
      · rw [if_pos hp]; exact MP.length_UnionM (g y) acc
      · rw [if_neg hp]; omega
    simp only [List.length_cons]
    omega

theorem andNot_pow_lt {m i : Nat} (h : m.testBit i = true) :
    andNot m (2 ^ i) < m := by
  have hle := andNot_le m (2 ^ i)
  have hne : andNot m (2 ^ i) ≠ m := by
    intro he
    have hb : (andNot m (2 ^ i)).testBit i = false := by
      rw [testBit_andNot, Nat.testBit_two_pow]
      simp
    rw [he, h] at hb
    exact absurd hb (by simp)
  omega

theorem QBS_downward {n vars m m' : Nat} {mons : List Nat}
    (hm : m ∈ QBS n vars mons) (hd : MM.IsDivide m' m = true) :
    m' ∈ QBS n vars mons := by
  rw [mem_QBS] at hm ⊢
  obtain ⟨h1, h2, h3⟩ := hm
  refine ⟨lt_of_le_of_lt (isDivide_le hd) h1, isDivide_trans hd h2, ?_⟩
  intro l hl
  cases hld : MM.IsDivide l m'
  · rfl
  · have := isDivide_trans hld hd
    rw [h3 l hl] at this
    exact absurd this (by simp)

theorem qb_complete {n vars : Nat} {mons qb : List Nat}
    (hclosed : ∀ m ∈ qb, ∀ c, c < n → vars.testBit c = true →
      m.testBit c = false →
      (m ||| 2 ^ c) ∈ qb ∨ (m ||| 2 ^ c) ∉ QBS n vars mons)
    (h0 : (0:Nat) ∈ QBS n vars mons → 0 ∈ qb) :
    ∀ m ∈ QBS n vars mons, m ∈ qb := by
  intro m
  induction m using Nat.strong_induction_on with
  | _ m ihm =>
    intro hm
    by_cases hm0 : m = 0
    · subst hm0; exact h0 hm
    · have hbit : m.testBit (lowBit m) = true := testBit_lowBit m hm0
      have hlt : andNot m (2 ^ lowBit m) < m := andNot_pow_lt hbit
      have hm' : andNot m (2 ^ lowBit m) ∈ QBS n vars mons :=
        QBS_downward hm (isDivide_andNot_self m _)
      have hqb' : andNot m (2 ^ lowBit m) ∈ qb := ihm _ hlt hm'
      have hcn : lowBit m < n := by
        have h1 : 2 ^ lowBit m ≤ m := Nat.testBit_implies_ge hbit
        have h2 : m < 2 ^ n := (mem_QBS.mp hm).1
        exact (Nat.pow_lt_pow_iff_right (a := 2) (by omega)).mp (lt_of_le_of_lt h1 h2)
      have hvc : vars.testBit (lowBit m) = true :=
        testBit_of_isDivide (mem_QBS.mp hm).2.1 hbit
      have hmc : (andNot m (2 ^ lowBit m)).testBit (lowBit m) = false := by
        rw [testBit_andNot, Nat.testBit_two_pow]
        simp
      have hstep := hclosed _ hqb' (lowBit m) hcn hvc hmc
      rw [Nat.lor_comm, lor_andNot_cancel hbit] at hstep
      rcases hstep with h | h
      · exact h
      · exact absurd hm h

theorem Ideal.qbAux_spec (n vars : Nat) (mons : List Nat) :
    ∀ fuel tosee qb,
      MP.Desc tosee → MP.Desc qb →
      (∀ t ∈ tosee, t < 2 ^ n ∧ MM.IsDivide t vars = true) →
      (∀ m ∈ qb, m ∈ QBS n vars mons) →
      (∀ m ∈ qb, ∀ c, c < n → vars.testBit c = true → m.testBit c = false →
        (m ||| 2 ^ c) ∈ qb ∨ (m ||| 2 ^ c) ∈ tosee ∨
          (m ||| 2 ^ c) ∉ QBS n vars mons) →
      ((0:Nat) ∈ QBS n vars mons → (0:Nat) ∈ qb ∨ (0:Nat) ∈ tosee) →
      (n + 1) * ((QBS n vars mons).filter (fun m => ¬ m ∈ qb)).card
          + tosee.length < fuel →
      MP.Desc (Ideal.qbAux n vars mons fuel tosee qb) ∧
        ∀ m, m ∈ Ideal.qbAux n vars mons fuel tosee qb ↔ m ∈ QBS n vars mons := by
  intro fuel
  induction fuel with
  | zero =>
    intro tosee qb _ _ _ _ _ _ hfuel
    exact absurd hfuel (by omega)
  | succ fuel ih =>
    intro tosee qb hdt hdq hW3 hW2 hW4 hI3 hfuel
    cases htl : tosee.getLast? with
    | none =>
      have hte : tosee = [] := List.getLast?_eq_none_iff.mp htl
      subst hte
      have hred : Ideal.qbAux n vars mons (fuel + 1) [] qb = qb := rfl
      rw [hred]
      refine ⟨hdq, fun m => ⟨fun hm => hW2 m hm, fun hm => ?_⟩⟩
      refine qb_complete ?_ ?_ m hm
      · intro m' hm' c hc hvc hmc
        rcases hW4 m' hm' c hc hvc hmc with h | h | h
        · exact Or.inl h
        · exact absurd h (by simp)
        · exact Or.inr h
      · intro h0
        rcases hI3 h0 with h | h
        · exact h
        · exact absurd h (by simp)
    | some mon =>
      have hne : tosee ≠ [] := by
        intro he; rw [he] at htl; exact absurd htl (by simp)
      have hlast : tosee.getLast hne = mon := by
        have h2 := List.getLast?_eq_getLast tosee hne
        rw [htl] at h2
        exact (Option.some_inj.mp h2).symm
      have hsplitT : tosee.dropLast ++ [mon] = tosee := by
        rw [← hlast]; exact List.dropLast_append_getLast hne
      have hmemT : ∀ x, x ∈ tosee ↔ x ∈ tosee.dropLast ∨ x = mon := by
        intro x
        conv_lhs => rw [← hsplitT]
        rw [List.mem_append, List.mem_singleton]
      have hlenT : tosee.length = tosee.dropLast.length + 1 := by
        rw [List.length_dropLast]
        have := List.length_pos.mpr hne
        omega
      have hdt' : MP.Desc tosee.dropLast :=
        hdt.sublist (List.dropLast_sublist tosee)
      have hmonT : mon ∈ tosee := (hmemT mon).mpr (Or.inr rfl)
      obtain ⟨hmonN, hmonV⟩ := hW3 mon hmonT
      have hred : Ideal.qbAux n vars mons (fuel + 1) tosee qb
          = (match tosee.getLast? with
             | none => qb
             | some mon =>
               if mons.any (fun l => MM.IsDivide l mon) then
                 Ideal.qbAux n vars mons fuel tosee.dropLast qb
               else if MP.IsContain qb mon then
                 Ideal.qbAux n vars mons fuel tosee.dropLast qb
               else
                 Ideal.qbAux n vars mons fuel
                   ((List.range n).foldl
                     (fun acc cur =>
                       if vars.testBit cur && !mon.testBit cur then
                         MP.UnionM acc (mon ||| 2 ^ cur)
                       else acc)
                     tosee.dropLast)
                   (MP.UnionM qb mon)) := rfl
      have hred2 : Ideal.qbAux n vars mons (fuel + 1) tosee qb
          = (if mons.any (fun l => MM.IsDivide l mon) then
              Ideal.qbAux n vars mons fuel tosee.dropLast qb
            else if MP.IsContain qb mon then
              Ideal.qbAux n vars mons fuel tosee.dropLast qb
            else
              Ideal.qbAux n vars mons fuel
                ((List.range n).foldl
                  (fun acc cur =>
                    if vars.testBit cur && !mon.testBit cur then
                      MP.UnionM acc (mon ||| 2 ^ cur)
                    else acc)
                  tosee.dropLast)
                (MP.UnionM qb mon)) := by
        rw [hred, htl]
      rw [hred2]
      by_cases hdiv : (mons.any fun l => MM.IsDivide l mon) = true
      · rw [if_pos hdiv]
        obtain ⟨ld, hld, hldd⟩ := List.any_eq_true.mp hdiv
        have hmonNot : mon ∉ QBS n vars mons := by
          intro hmem
          have h2 := (mem_QBS.mp hmem).2.2 ld hld
          rw [hldd] at h2
          exact absurd h2 (by simp)
        apply ih tosee.dropLast qb hdt' hdq
        · intro t ht; exact hW3 t ((hmemT t).mpr (Or.inl ht))
        · exact hW2
        · intro m hm c hc hvc hmc
          rcases hW4 m hm c hc hvc hmc with h | h | h
          · exact Or.inl h
          · rcases (hmemT _).mp h with h2 | h2
            · exact Or.inr (Or.inl h2)
            · rw [h2]; exact Or.inr (Or.inr hmonNot)
          · exact Or.inr (Or.inr h)
        · intro h0
          rcases hI3 h0 with h | h
          · exact Or.inl h
          · rcases (hmemT _).mp h with h2 | h2
            · exact Or.inr h2
            · rw [h2] at h0 ⊢
              exact absurd h0 hmonNot
        · omega
      · rw [if_neg hdiv]
        by_cases hcont : MP.IsContain qb mon = true
        · rw [if_pos hcont]
          have hmonQb : mon ∈ qb := by
            unfold MP.IsContain at hcont
            exact List.elem_iff.mp hcont
          apply ih tosee.dropLast qb hdt' hdq
          · intro t ht; exact hW3 t ((hmemT t).mpr (Or.inl ht))
          · exact hW2
          · intro m hm c hc hvc hmc
            rcases hW4 m hm c hc hvc hmc with h | h | h
            · exact Or.inl h
            · rcases (hmemT _).mp h with h2 | h2
              · exact Or.inr (Or.inl h2)
              · rw [h2]; exact Or.inl hmonQb
            · exact Or.inr (Or.inr h)
          · intro h0
            rcases hI3 h0 with h | h
            · exact Or.inl h
            · rcases (hmemT _).mp h with h2 | h2
              · exact Or.inr h2
              · rw [h2]; exact Or.inl hmonQb
          · omega
        · rw [if_neg hcont]
          have hmonQb : mon ∉ qb := by
            intro h
            apply hcont
            unfold MP.IsContain
            exact List.elem_iff.mpr h
          have hanyf : (mons.any fun l => MM.IsDivide l mon) = false := by
            cases hh : (mons.any fun l => MM.IsDivide l mon)
            · rfl
            · exact absurd hh hdiv
          have hmonIn : mon ∈ QBS n vars mons := by
            rw [mem_QBS]
            refine ⟨hmonN, hmonV, ?_⟩
            intro l hl
            have h2 := List.any_eq_false.mp hanyf l hl
            cases hd : MM.IsDivide l mon
            · rfl
            · exact absurd hd h2
          have hmemT2 : ∀ x, x ∈ (List.range n).foldl
              (fun acc cur =>
                if vars.testBit cur && !mon.testBit cur then
                  MP.UnionM acc (mon ||| 2 ^ cur)
                else acc) tosee.dropLast ↔
              x ∈ tosee.dropLast ∨ ∃ c ∈ List.range n,
                (vars.testBit c && !mon.testBit c) = true ∧ x = mon ||| 2 ^ c :=
            fun x => mem_foldl_UnionM_cond _ _ (List.range n) tosee.dropLast x
          apply ih
          · exact Desc_foldl_UnionM_cond _ _ (List.range n) tosee.dropLast hdt'
          · exact MP.Desc_UnionM hdq mon
          · intro t ht
            rcases (hmemT2 t).mp ht with h | ⟨c, hc, hpc, rfl⟩
            · exact hW3 t ((hmemT t).mpr (Or.inl h))
            · obtain ⟨hvc, hmc⟩ := (Bool.and_eq_true _ _).mp hpc
              have hcn : c < n := List.mem_range.mp hc
              exact ⟨lor_lt_two_pow hmonN (Nat.pow_lt_pow_right (by omega) hcn),
                isDivide_lor hmonV hvc⟩
          · intro m hm
            rcases MP.mem_UnionM.mp hm with h | rfl
            · exact hW2 m h
            · exact hmonIn
          · intro m hm c hc hvc hmc
            rcases MP.mem_UnionM.mp hm with h | rfl
            · rcases hW4 m h c hc hvc hmc with h2 | h2 | h2
              · exact Or.inl (MP.mem_UnionM.mpr (Or.inl h2))
              · rcases (hmemT _).mp h2 with h3 | h3
                · exact Or.inr (Or.inl ((hmemT2 _).mpr (Or.inl h3)))
                · rw [h3]
                  exact Or.inl (MP.mem_UnionM.mpr (Or.inr rfl))
              · exact Or.inr (Or.inr h2)
            · refine Or.inr (Or.inl ((hmemT2 _).mpr
                (Or.inr ⟨c, List.mem_range.mpr hc, ?_, rfl⟩)))
              rw [hvc, hmc]
              rfl
          · intro h0
            rcases hI3 h0 with h | h
            · exact Or.inl (MP.mem_UnionM.mpr (Or.inl h))
            · rcases (hmemT _).mp h with h2 | h2
              · exact Or.inr ((hmemT2 _).mpr (Or.inl h2))
              · rw [h2]
                exact Or.inl (MP.mem_UnionM.mpr (Or.inr rfl))
          · have hRdec : ((QBS n vars mons).filter (fun m => ¬ m ∈ qb)).card
                = ((QBS n vars mons).filter
                    (fun m => ¬ m ∈ MP.UnionM qb mon)).card + 1 := by
              have hseteq : (QBS n vars mons).filter (fun m => ¬ m ∈ qb)
                  = insert mon ((QBS n vars mons).filter
                      (fun m => ¬ m ∈ MP.UnionM qb mon)) := by
                apply Finset.ext
                intro x
                rw [Finset.mem_insert, Finset.mem_filter, Finset.mem_filter]
                constructor
                · rintro ⟨hx1, hx2⟩
                  by_cases hxm : x = mon
                  · exact Or.inl hxm
                  · refine Or.inr ⟨hx1, ?_⟩
                    intro hx3
                    rcases MP.mem_UnionM.mp hx3 with h | h
                    · exact hx2 h
                    · exact hxm h
                · rintro (rfl | ⟨hx1, hx2⟩)
                  · exact ⟨hmonIn, hmonQb⟩
                  · refine ⟨hx1, ?_⟩
                    intro h
                    exact hx2 (MP.mem_UnionM.mpr (Or.inl h))
              rw [hseteq, Finset.card_insert_of_not_mem]
              intro hmem
              rw [Finset.mem_filter] at hmem
              exact hmem.2 (MP.mem_UnionM.mpr (Or.inr rfl))
            have hlen2 : ((List.range n).foldl
                (fun acc cur =>
                  if vars.testBit cur && !mon.testBit cur then
                    MP.UnionM acc (mon ||| 2 ^ cur)
                  else acc) tosee.dropLast).length ≤ tosee.dropLast.length + n := by
              have h2 := length_foldl_UnionM_cond
                (fun cur => vars.testBit cur && !mon.testBit cur)
                (fun cur => mon ||| 2 ^ cur) (List.range n) tosee.dropLast
              rw [List.length_range] at h2
              exact h2
            have hmul : (n + 1) * ((QBS n vars mons).filter (fun m => ¬ m ∈ qb)).card
                = (n + 1) * ((QBS n vars mons).filter
                    (fun m => ¬ m ∈ MP.UnionM qb mon)).card + (n + 1) := by
              rw [hRdec]
              ring
            omega

theorem headI_mem {l : List Nat} (h : l ≠ []) : l.headI ∈ l := by
  cases l with
  | nil => exact absurd rfl h
  | cons x xs => exact List.mem_cons_self x xs

theorem isDivide_zero_left (a : Nat) : MM.IsDivide 0 a = true := by
  rw [isDivide_iff_testBit]
  intro i hi
  rw [Nat.zero_testBit] at hi
  exact absurd hi (by simp)

theorem isDivide_left_lor (a b : Nat) : MM.IsDivide a (a ||| b) = true := by
  rw [Nat.lor_comm]
  exact isDivide_right_lor a b

theorem foldl_lor_grows :
    ∀ (g : List Nat) (v : Nat),
      MM.IsDivide v (g.foldl (fun v' m => MM.mul v' m) v) = true := by
  intro g
  induction g with
  | nil => intro v; exact isDivide_refl v
  | cons m rest ih =>
    intro v
    show MM.IsDivide v (rest.foldl _ (MM.mul v m)) = true
    exact isDivide_trans (isDivide_left_lor v m) (ih (MM.mul v m))

theorem mem_foldl_lor_div :
    ∀ (g : List Nat) (v x : Nat), x ∈ g →
      MM.IsDivide x (g.foldl (fun v' m => MM.mul v' m) v) = true := by
  intro g
  induction g with
  | nil => intro v x hx; exact absurd hx (List.not_mem_nil x)
  | cons m rest ih =>
    intro v x hx
    show MM.IsDivide x (rest.foldl _ (MM.mul v m)) = true
    rcases List.mem_cons.mp hx with rfl | hx2
    · exact isDivide_trans (isDivide_right_lor x v) (foldl_lor_grows rest (MM.mul v x))
    · exact ih (MM.mul v m) x hx2

theorem foldl_lor_lt :
    ∀ (g : List Nat) (v : Nat) {n : Nat}, v < 2 ^ n → (∀ m ∈ g, m < 2 ^ n) →
      g.foldl (fun v' m => MM.mul v' m) v < 2 ^ n := by
  intro g
  induction g with
  | nil => intro v n hv _; exact hv
  | cons m rest ih =>
    intro v n hv hb
    show rest.foldl _ (MM.mul v m) < 2 ^ n
    exact ih (MM.mul v m) (lor_lt_two_pow hv (hb m (by simp)))
      (fun x hx => hb x (by simp [hx]))

theorem GatherVars_grows :
    ∀ (I : List (List Nat)) (v : Nat),
      MM.IsDivide v (I.foldl (fun v g => g.foldl (fun v' m => MM.mul v' m) v) v) = true := by
  intro I
  induction I with
  | nil => intro v; exact isDivide_refl v
  | cons g rest ih =>
    intro v
    show MM.IsDivide v (rest.foldl _ (g.foldl _ v)) = true
    exact isDivide_trans (foldl_lor_grows g v) (ih _)

theorem mem_ideal_foldl_lor_div :
    ∀ (J : List (List Nat)) (v : Nat) {g : List Nat} {x : Nat}, g ∈ J → x ∈ g →
      MM.IsDivide x
        (J.foldl (fun v g => g.foldl (fun v' m => MM.mul v' m) v) v) = true := by
  intro J
  induction J with
  | nil => intro v g x hg _; exact absurd hg (List.not_mem_nil g)
  | cons g1 rest ih =>
    intro v g x hg hx
    show MM.IsDivide x (rest.foldl _ (g1.foldl _ v)) = true
    rcases List.mem_cons.mp hg with rfl | hg2
    · exact isDivide_trans (mem_foldl_lor_div g v x hx) (GatherVars_grows rest _)
    · exact ih _ hg2 hx

theorem Ideal.GatherVars_div {I : List (List Nat)} {g : List Nat} {x : Nat}
    (hg : g ∈ I) (hx : x ∈ g) :
    MM.IsDivide x (Ideal.GatherVars I) = true :=
  mem_ideal_foldl_lor_div I 0 hg hx

theorem Ideal.GatherVars_lt {n : Nat} {I : List (List Nat)}
    (hb : ∀ g ∈ I, ∀ m ∈ g, m < 2 ^ n) : Ideal.GatherVars I < 2 ^ n := by
  unfold Ideal.GatherVars
  have key : ∀ (J : List (List Nat)) (v : Nat), v < 2 ^ n →
      (∀ g ∈ J, ∀ m ∈ g, m < 2 ^ n) →
      J.foldl (fun v g => g.foldl (fun v' m => MM.mul v' m) v) v < 2 ^ n := by
    intro J
    induction J with
    | nil => intro v hv _; exact hv
    | cons g rest ih =>
      intro v hv hbb
      show rest.foldl _ (g.foldl _ v) < 2 ^ n
      exact ih _ (foldl_lor_lt g v hv (hbb g (by simp)))
        (fun g2 hg2 => hbb g2 (by simp [hg2]))
  exact key I 0 (Nat.two_pow_pos n) hb

theorem mem_foldl_UnionM_poly (f : List Nat → Nat) :
    ∀ (ls : List (List Nat)) (acc : List Nat) (x : Nat),
      x ∈ ls.foldl (fun a g => MP.UnionM a (f g)) acc ↔
        x ∈ acc ∨ ∃ g ∈ ls, x = f g := by
  intro ls
  induction ls with
  | nil => intro acc x; simp
  | cons y ys ih =>
    intro acc x
    show x ∈ ys.foldl _ (MP.UnionM acc (f y)) ↔ _
    rw [ih, MP.mem_UnionM]
    constructor
    · rintro ((h | h) | ⟨g, hg, he⟩)
      · exact Or.inl h
      · exact Or.inr ⟨y, by simp, h⟩
      · exact Or.inr ⟨g, by simp [hg], he⟩
    · rintro (h | ⟨g, hg, he⟩)
      · exact Or.inl (Or.inl h)
      · rcases List.mem_cons.mp hg with rfl | hg2
        · exact Or.inl (Or.inr he)
        · exact Or.inr ⟨g, hg2, he⟩

theorem Desc_foldl_UnionM_poly (f : List Nat → Nat) :
    ∀ (ls : List (List Nat)) (acc : List Nat), MP.Desc acc →
      MP.Desc (ls.foldl (fun a g => MP.UnionM a (f g)) acc) := by
  intro ls
  induction ls with
  | nil => intro acc h; exact h
  | cons y ys ih =>
    intro acc h
    exact ih (MP.UnionM acc (f y)) (MP.Desc_UnionM h _)

theorem Ideal.mem_GatherLMons {I : List (List Nat)} {x : Nat} :
    x ∈ Ideal.GatherLMons I ↔ ∃ g ∈ I, x = MP.LM g := by
  unfold Ideal.GatherLMons
  rw [mem_foldl_UnionM_poly]
  simp

theorem Ideal.Desc_GatherLMons (I : List (List Nat)) :
    MP.Desc (Ideal.GatherLMons I) :=
  Desc_foldl_UnionM_poly _ I [] (List.Pairwise.nil)

theorem Ideal.minFilter_subset :
    ∀ {l : List Nat} {x : Nat}, x ∈ Ideal.minFilter l → x ∈ l := by
  intro l
  induction l with
  | nil => intro x hx; exact absurd hx (by simp [Ideal.minFilter])
  | cons m rest ih =>
    intro x hx
    show x ∈ m :: rest
    rw [Ideal.minFilter] at hx
    by_cases hc : (rest.any fun m1 => MM.IsDivide m1 m) = true
    · rw [if_pos hc] at hx
      exact List.mem_cons_of_mem m (ih hx)
    · rw [if_neg hc] at hx
      rcases List.mem_cons.mp hx with rfl | hx2
      · exact List.mem_cons_self x rest
      · exact List.mem_cons_of_mem m (ih hx2)

theorem Ideal.minFilter_ne_nil :
    ∀ {l : List Nat}, l ≠ [] → Ideal.minFilter l ≠ [] := by
  intro l
  induction l with
  | nil => intro h; exact absurd rfl h
  | cons m rest ih =>
    intro _
    rw [Ideal.minFilter]
    by_cases hc : (rest.any fun m1 => MM.IsDivide m1 m) = true
    · rw [if_pos hc]
      have hrest : rest ≠ [] := by
        intro he
        subst he
        simp at hc
      exact ih hrest
    · rw [if_neg hc]
      simp

/-- C3: for every system of polynomials that is a Groebner basis (with
monomials over n variables), the dimension returned by the counting
algorithm Ideal::QuotientBasisDim equals the number of monomials
enumerated by the search algorithm Ideal::QuotientBasis. -/
theorem C3_quotient_basis_dim (n : Nat) (I : List (List Nat))
    (hwf : Ideal.WF I) (hb : ∀ g ∈ I, ∀ m ∈ g, m < 2 ^ n)
    (hgb : Ideal.IsGB n I = some true) :
    Ideal.QuotientBasisDim n I = (Ideal.QuotientBasis n I).length := by
  clear hgb
  cases I with
  | nil => rfl
  | cons g0 rest =>
    have hvlt : Ideal.GatherVars (g0 :: rest) < 2 ^ n := Ideal.GatherVars_lt hb
    have hmons_sub : ∀ l ∈ Ideal.GatherMinLMons (g0 :: rest),
        MM.IsDivide l (Ideal.GatherVars (g0 :: rest)) = true := by
      intro l hl
      obtain ⟨g, hg, rfl⟩ := Ideal.mem_GatherLMons.mp (Ideal.minFilter_subset hl)
      have hgne : g ≠ [] := (hwf.1 g hg).1
      exact Ideal.GatherVars_div hg (headI_mem hgne)
    have hLMne : Ideal.GatherLMons (g0 :: rest) ≠ [] := by
      intro he
      have hmm : MP.LM g0 ∈ Ideal.GatherLMons (g0 :: rest) :=
        Ideal.mem_GatherLMons.mpr ⟨g0, by simp, rfl⟩
      rw [he] at hmm
      exact absurd hmm (List.not_mem_nil _)
    have hmne : Ideal.GatherMinLMons (g0 :: rest) ≠ [] :=
      Ideal.minFilter_ne_nil hLMne
    have e1 : Ideal.QuotientBasisDim n (g0 :: rest)
        = if Ideal.GatherMinLMons (g0 :: rest) = [0] then 0
          else Ideal.qbdAux n (n + 1) (Ideal.GatherVars (g0 :: rest))
            (Ideal.GatherMinLMons (g0 :: rest)) := rfl
    have e2 : Ideal.QuotientBasis n (g0 :: rest)
        = if MM.Deg (Ideal.GatherVars (g0 :: rest)) = 0 then []
          else Ideal.qbAux n (Ideal.GatherVars (g0 :: rest))
            (Ideal.GatherMinLMons (g0 :: rest)) ((n + 1) * 2 ^ n + 2) [0] [] := rfl
    have hcard0 : (0:Nat) ∈ Ideal.GatherMinLMons (g0 :: rest) →
        (QBS n (Ideal.GatherVars (g0 :: rest))
          (Ideal.GatherMinLMons (g0 :: rest))).card = 0 := by
      intro h0
      rw [Finset.card_eq_zero]
      apply Finset.eq_empty_iff_forall_not_mem.mpr
      intro m hm
      have h2 := (mem_QBS.mp hm).2.2 0 h0
      rw [isDivide_zero_left m] at h2
      exact absurd h2 (by simp)
    by_cases hdeg0 : MM.Deg (Ideal.GatherVars (g0 :: rest)) = 0
    · have hv0 : Ideal.GatherVars (g0 :: rest) = 0 := MM.Deg_eq_zero_iff.mp hdeg0
      have hLM0 : Ideal.GatherLMons (g0 :: rest) = [0] := by
        apply MP.Desc.ext (Ideal.Desc_GatherLMons _) (MP.Desc_singleton 0)
        intro x
        rw [Ideal.mem_GatherLMons, List.mem_singleton]
        constructor
        · rintro ⟨g, hg, rfl⟩
          have hgne : g ≠ [] := (hwf.1 g hg).1
          have hd := Ideal.GatherVars_div hg (headI_mem hgne)
          rw [hv0] at hd
          have := isDivide_le hd
          show g.headI = 0
          omega
        · rintro rfl
          refine ⟨g0, by simp, ?_⟩
          have hgne : g0 ≠ [] := (hwf.1 g0 (by simp)).1
          have hd := Ideal.GatherVars_div (show g0 ∈ g0 :: rest by simp)
            (headI_mem hgne)
          rw [hv0] at hd
          have := isDivide_le hd
          show (0:Nat) = g0.headI
          omega
      have hmons0 : Ideal.GatherMinLMons (g0 :: rest) = [0] := by
        show Ideal.minFilter (Ideal.GatherLMons (g0 :: rest)) = [0]
        rw [hLM0]
        rfl
      rw [e1, e2, if_pos hmons0, if_pos hdeg0]
      rfl
    · rw [e1, e2, if_neg hdeg0]
      have hcardle : (QBS n (Ideal.GatherVars (g0 :: rest))
          (Ideal.GatherMinLMons (g0 :: rest))).card ≤ 2 ^ n := by
        calc (QBS n (Ideal.GatherVars (g0 :: rest))
              (Ideal.GatherMinLMons (g0 :: rest))).card
            ≤ (SubF n (Ideal.GatherVars (g0 :: rest))).card :=
              Finset.card_le_card (Finset.filter_subset _ _)
          _ ≤ (Finset.range (2 ^ n)).card :=
              Finset.card_le_card (Finset.filter_subset _ _)
          _ = 2 ^ n := Finset.card_range _
      have hfuelOK : (n + 1) * ((QBS n (Ideal.GatherVars (g0 :: rest))
            (Ideal.GatherMinLMons (g0 :: rest))).filter
              (fun m => ¬ m ∈ ([] : List Nat))).card
          + ([0] : List Nat).length < (n + 1) * 2 ^ n + 2 := by
        have hfe : (QBS n (Ideal.GatherVars (g0 :: rest))
            (Ideal.GatherMinLMons (g0 :: rest))).filter
              (fun m => ¬ m ∈ ([] : List Nat))
            = QBS n (Ideal.GatherVars (g0 :: rest))
                (Ideal.GatherMinLMons (g0 :: rest)) := by
          apply Finset.filter_true_of_mem
          intro x _
          exact List.not_mem_nil x
        rw [hfe]
        have hmul := Nat.mul_le_mul_left (n + 1) hcardle
        simp only [List.length_singleton]
        omega
      obtain ⟨hdesc, hmem⟩ := Ideal.qbAux_spec n (Ideal.GatherVars (g0 :: rest))
        (Ideal.GatherMinLMons (g0 :: rest)) ((n + 1) * 2 ^ n + 2) [0] []
        (MP.Desc_singleton 0) List.Pairwise.nil
        (by
          intro t ht
          have ht0 : t = 0 := List.mem_singleton.mp ht
          subst ht0
          exact ⟨Nat.two_pow_pos n, isDivide_zero_left _⟩)
        (by intro m hm; exact absurd hm (List.not_mem_nil m))
        (by intro m hm; exact absurd hm (List.not_mem_nil m))
        (fun _ => Or.inr (by simp))
        hfuelOK
      have hlen : (Ideal.qbAux n (Ideal.GatherVars (g0 :: rest))
            (Ideal.GatherMinLMons (g0 :: rest)) ((n + 1) * 2 ^ n + 2) [0] []).length
          = (QBS n (Ideal.GatherVars (g0 :: rest))
              (Ideal.GatherMinLMons (g0 :: rest))).card := by
        have hfin : (Ideal.qbAux n (Ideal.GatherVars (g0 :: rest))
              (Ideal.GatherMinLMons (g0 :: rest))
              ((n + 1) * 2 ^ n + 2) [0] []).toFinset
            = QBS n (Ideal.GatherVars (g0 :: rest))
                (Ideal.GatherMinLMons (g0 :: rest)) :=
          Finset.ext fun m => by rw [List.mem_toFinset]; exact hmem m
        rw [← hfin, List.toFinset_card_of_nodup hdesc.nodup]
      rw [hlen]
      by_cases hm0eq : Ideal.GatherMinLMons (g0 :: rest) = [0]
      · rw [if_pos hm0eq]
        rw [hcard0 (by rw [hm0eq]; simp)]
      · rw [if_neg hm0eq]
        by_cases h0m : (0:Nat) ∈ Ideal.GatherMinLMons (g0 :: rest)
        · rw [Ideal.qbdAux_zero_mem n _ _ _ h0m, hcard0 h0m]
        · rw [Ideal.qbdAux_eq n (n + 1) _ _ hvlt
            (le_trans (MM.Deg_le_of_lt_pow hvlt) (by omega)) hmons_sub h0m]
          apply Nat.mod_eq_of_lt
          obtain ⟨l0, hl0⟩ := List.exists_mem_of_ne_nil _ hmne
          have hl0S : l0 ∈ SubF n (Ideal.GatherVars (g0 :: rest)) :=
            mem_SubF.mpr ⟨lt_of_le_of_lt (isDivide_le (hmons_sub l0 hl0)) hvlt,
              hmons_sub l0 hl0⟩
          have hl0Q : l0 ∉ QBS n (Ideal.GatherVars (g0 :: rest))
              (Ideal.GatherMinLMons (g0 :: rest)) := by
            intro hq
            have h2 := (mem_QBS.mp hq).2.2 l0 hl0
            rw [isDivide_refl l0] at h2
            exact absurd h2 (by simp)
          have hsub2 : QBS n (Ideal.GatherVars (g0 :: rest))
              (Ideal.GatherMinLMons (g0 :: rest))
              ⊆ SubF n (Ideal.GatherVars (g0 :: rest)) :=
            Finset.filter_subset _ _
          have hlt2 := Finset.card_lt_card
            ((Finset.ssubset_iff_of_subset hsub2).mpr ⟨l0, hl0S, hl0Q⟩)
          have hSF := card_SubF (Ideal.GatherVars (g0 :: rest)) n hvlt
          have hpow : (2:Nat) ^ MM.Deg (Ideal.GatherVars (g0 :: rest)) ≤ 2 ^ n :=
            Nat.pow_le_pow_right (by omega) (MM.Deg_le_of_lt_pow hvlt)
          omega

theorem C3_quotient_basis_dim_witness :
    Ideal.WF [[1]] ∧ (∀ g ∈ [[1]], ∀ m ∈ g, m < 2 ^ 1) ∧
      Ideal.IsGB 1 [[1]] = some true ∧
      Ideal.QuotientBasisDim 1 [[1]] = (Ideal.QuotientBasis 1 [[1]]).length :=
  ⟨⟨by decide, by decide⟩, by decide, by decide,
    C3_quotient_basis_dim 1 [[1]] ⟨by decide, by decide⟩ (by decide) (by decide)⟩
